import Mathlib

/-
Verification of the NonlocalityOS content-addressed tree store (astraea) and
the dogbox open-file buffer, against the natural-language specification.

The Rust sources are shallowly embedded: pure functions become Lean functions,
stateful engines become explicit state-passing functions, machine integers
become Nat (with notes where wrapping could matter), fallible code returns
Except/Option.

Embedding notes on code that is not available verbatim:
 * The current vintages of astraea/src/tree.rs (Tree, TreeBlob, TreeChildren,
   HashedTree, TREE_BLOB_MAX_LENGTH, TREE_MAX_CHILDREN), the strong-reference
   surface of astraea/src/storage.rs (StrongReference, StrongDelayedHashedTree,
   the StoreError with TreeMissing/CorruptedStorage), and
   dogbox_tree_editor/src/segmented_blob.rs are not present in the source tree
   (only older vintages, tests and callers are). Those definitions are
   modelled from the specification and are marked with a doc comment starting
   with "Modelled from the spec:".
 * SHA3-512 (external crate sha3) is idealized as collision-free: the digest
   space is the free algebra generated by (blob bytes, child digests), so the
   canonical hash is injective by construction, which is exactly the
   idealization the spec relies on ("structural equality is decidable by
   digest", "cyclic graphs are impossible").
 * LZ4 (external crate lz4_flex) is modelled by an executable run-length
   codec with the same interface (compress with size prefix; decompress is
   partial) and the same contract (decompress inverts compress; the engine
   stores the compressed form iff strictly smaller).
-/

set_option maxHeartbeats 1000000

namespace NonlocalityOS

/-- Modelled from the spec: `BLOB_MAX` = `TREE_BLOB_MAX_LENGTH` =
`VALUE_BLOB_MAX_LENGTH` = 64 000, the maximal length of a tree blob. -/
def TREE_BLOB_MAX_LENGTH : Nat := 64000

/-- Modelled from the spec: `CHILD_MAX` = `TREE_MAX_CHILDREN` = 1000, the
maximal number of children of a tree. -/
def TREE_MAX_CHILDREN : Nat := 1000

/-- Modelled from the spec: a `BlobDigest` is the 64-byte SHA3-512 digest of
the canonical serialization of a tree (blob bytes followed by the child
digests).  SHA3-512 is idealized as collision-free, so we model the digest
space as the free algebra generated by the hashed data: a digest carries the
blob bytes and the child digests it was computed from.  Digests that are not
the hash of any well-formed tree exist (for example with an over-long blob
component), which mirrors arbitrary 64-byte values. -/
inductive BlobDigest : Type where
  | mk (blob : List Nat) (children : List BlobDigest)

namespace BlobDigest

def blobPart : BlobDigest → List Nat
  | .mk b _ => b

def childrenPart : BlobDigest → List BlobDigest
  | .mk _ c => c

mutual

/-- Decidable equality of digests (byte-for-byte comparison in Rust). -/
def beqDigest : BlobDigest → BlobDigest → Bool
  | .mk b₁ c₁, .mk b₂ c₂ => b₁ = b₂ && beqDigestList c₁ c₂

def beqDigestList : List BlobDigest → List BlobDigest → Bool
  | [], [] => true
  | x :: xs, y :: ys => beqDigest x y && beqDigestList xs ys
  | _, _ => false

end

mutual

theorem beqDigest_iff : ∀ a b : BlobDigest, beqDigest a b = true ↔ a = b
  | .mk b₁ c₁, .mk b₂ c₂ => by
    have h := beqDigestList_iff c₁ c₂
    simp only [beqDigest, Bool.and_eq_true, decide_eq_true_eq, mk.injEq, h]

theorem beqDigestList_iff : ∀ as bs : List BlobDigest,
    beqDigestList as bs = true ↔ as = bs
  | [], [] => by simp [beqDigestList]
  | [], _ :: _ => by simp [beqDigestList]
  | _ :: _, [] => by simp [beqDigestList]
  | x :: xs, y :: ys => by
    have h1 := beqDigest_iff x y
    have h2 := beqDigestList_iff xs ys
    simp only [beqDigestList, Bool.and_eq_true, List.cons.injEq, h1, h2]

end

instance : DecidableEq BlobDigest := fun a b =>
  decidable_of_iff (beqDigest a b = true) (beqDigest_iff a b)

end BlobDigest

/-- Modelled from the spec: `TreeBlob` is an immutable byte sequence of length
at most `TREE_BLOB_MAX_LENGTH`; construction from a longer sequence fails. -/
def TreeBlob : Type := {l : List Nat // l.length ≤ TREE_BLOB_MAX_LENGTH}

instance : DecidableEq TreeBlob := fun a b =>
  decidable_of_iff (a.val = b.val) Subtype.ext_iff.symm

namespace TreeBlob

/-- Modelled from the spec: `TreeBlob::try_from` fails with `BlobTooLong` when
the byte sequence is longer than `TREE_BLOB_MAX_LENGTH`. -/
def tryFrom (l : List Nat) : Option TreeBlob :=
  if h : l.length ≤ TREE_BLOB_MAX_LENGTH then some ⟨l, h⟩ else none

/-- Modelled from the spec: `TreeBlob::empty` is the empty byte sequence. -/
def empty : TreeBlob := ⟨[], by simp [TREE_BLOB_MAX_LENGTH]⟩

def asSlice (b : TreeBlob) : List Nat := b.val

def len (b : TreeBlob) : Nat := b.val.length

end TreeBlob

/-- Modelled from the spec: `TreeChildren` is an ordered sequence of at most
`TREE_MAX_CHILDREN` child references; order is significant and duplicates are
allowed.  Strong references compare by digest alone, so a child is represented
by its digest. -/
def TreeChildren : Type := {l : List BlobDigest // l.length ≤ TREE_MAX_CHILDREN}

instance : DecidableEq TreeChildren := fun a b =>
  decidable_of_iff (a.val = b.val) Subtype.ext_iff.symm

namespace TreeChildren

/-- Modelled from the spec: `TreeChildren::try_from` fails (`TooManyChildren`)
when there are more than `TREE_MAX_CHILDREN` references. -/
def tryFrom (l : List BlobDigest) : Option TreeChildren :=
  if h : l.length ≤ TREE_MAX_CHILDREN then some ⟨l, h⟩ else none

/-- Modelled from the spec: `TreeChildren::empty`. -/
def empty : TreeChildren := ⟨[], by simp [TREE_MAX_CHILDREN]⟩

def references (c : TreeChildren) : List BlobDigest := c.val

end TreeChildren

/-- Modelled from the spec: `Tree` is the pair of a bounded blob and a bounded
ordered child list.  `Tree::new` is infallible because the component types
already enforce the bounds. -/
structure Tree : Type where
  blob : TreeBlob
  children : TreeChildren
deriving DecidableEq

namespace Tree

def new (blob : TreeBlob) (children : TreeChildren) : Tree := ⟨blob, children⟩

end Tree

/-- Modelled from the spec: the canonical digest of a tree,
`SHA3-512(blob || concat(0_u64_BE || child_digest))`, under the collision-free
idealization of SHA3-512 (see `BlobDigest`). -/
def canonicalHash (t : Tree) : BlobDigest :=
  .mk t.blob.val t.children.val

theorem canonicalHash_injective : Function.Injective canonicalHash := by
  intro a b h
  cases a with
  | mk ab ac =>
    cases b with
    | mk bb bc =>
      simp only [canonicalHash, BlobDigest.mk.injEq] at h
      have hb : ab = bb := Subtype.ext h.1
      have hc : ac = bc := Subtype.ext h.2
      simp [hb, hc]

/-- Modelled from the spec: `HashedTree` pairs a tree with its canonical
digest; the only constructor hashes, so the pairing is an invariant. -/
structure HashedTree : Type where
  tree : Tree
  digest : BlobDigest
  valid : digest = canonicalHash tree

namespace HashedTree

/-- Modelled from the spec: `HashedTree::from` computes the canonical digest. -/
def fromTree (t : Tree) : HashedTree := ⟨t, canonicalHash t, rfl⟩

theorem ext_tree {a b : HashedTree} (h : a.tree = b.tree) : a = b := by
  cases a with
  | mk ta da va =>
    cases b with
    | mk tb db vb =>
      cases h
      cases va
      cases vb
      rfl

instance : DecidableEq HashedTree := fun a b =>
  decidable_of_iff (a.tree = b.tree) ⟨ext_tree, fun h => by rw [h]⟩

theorem from_tree (t : Tree) : (HashedTree.fromTree t).tree = t := rfl

theorem from_digest (t : Tree) : (HashedTree.fromTree t).digest = canonicalHash t := rfl

theorem eq_from (h : HashedTree) : h = HashedTree.fromTree h.tree :=
  ext_tree rfl

end HashedTree

/- astraea/src/delayed_hashed_tree.rs: the enum DelayedHashedTreeAlternatives
and its wrapper struct DelayedHashedTree are folded into one inductive; the
constructor names match the Rust constructor functions. -/

/-- Embeds astraea/src/delayed_hashed_tree.rs: `DelayedHashedTree` is either a
not-yet-verified tree with an expected digest, or an already hashed tree. -/
inductive DelayedHashedTree : Type where
  | delayed (tree : Tree) (expectedDigest : BlobDigest)
  | immediate (tree : HashedTree)
deriving DecidableEq

namespace DelayedHashedTree

/-- Embeds `DelayedHashedTree::hash`: in the delayed case the tree is hashed
and the result is returned iff its digest equals the expected digest. -/
def hash : DelayedHashedTree → Option HashedTree
  | .delayed tree expectedDigest =>
    let hashedTree := HashedTree.fromTree tree
    if hashedTree.digest = expectedDigest then some hashedTree else none
  | .immediate hashedTree => some hashedTree

end DelayedHashedTree

/-- C4: `DelayedHashedTree::delayed(t, d).hash()` returns
`Some(HashedTree::from(t))` if `d` equals the canonical digest of `t` and
`None` if it differs; `DelayedHashedTree::immediate(h).hash()` is always
`Some(h)`. -/
theorem c4_delayed_hashed_tree_hash (t : Tree) (d : BlobDigest) :
    (d = canonicalHash t →
      (DelayedHashedTree.delayed t d).hash = some (HashedTree.fromTree t)) ∧
    (d ≠ canonicalHash t → (DelayedHashedTree.delayed t d).hash = none) ∧
    (∀ h : HashedTree, (DelayedHashedTree.immediate h).hash = some h) := by
  refine ⟨?_, ?_, fun h => rfl⟩
  · intro h
    simp [DelayedHashedTree.hash, HashedTree.from_digest, h]
  · intro h
    simp only [DelayedHashedTree.hash, HashedTree.from_digest, ite_eq_right_iff]
    intro hEq
    exact absurd hEq.symm h

/-- C4 witness: concrete evaluation at the empty tree, its own digest, and a
different digest. -/
theorem c4_delayed_hashed_tree_hash_witness :
    (DelayedHashedTree.delayed (Tree.new TreeBlob.empty TreeChildren.empty)
      (canonicalHash (Tree.new TreeBlob.empty TreeChildren.empty))).hash =
      some (HashedTree.fromTree (Tree.new TreeBlob.empty TreeChildren.empty)) ∧
    (DelayedHashedTree.delayed (Tree.new TreeBlob.empty TreeChildren.empty)
      (BlobDigest.mk [7] [])).hash = none := by
  constructor
  · exact (c4_delayed_hashed_tree_hash _ _).1 rfl
  · exact (c4_delayed_hashed_tree_hash _ _).2.1 (by decide)

/- astraea/src/storage.rs (current vintage, modelled): error types.  The names
follow the Rust enum variants; `Rusqlite` carries the backend message. -/

/-- Modelled from the spec: `TreeSerializationError` with variants
`BlobTooLong` and `TooManyChildren`. -/
inductive TreeSerializationError : Type where
  | blobTooLong
  | tooManyChildren
deriving DecidableEq

/-- Embeds astraea/src/storage.rs `LoadError`. -/
inductive LoadError : Type where
  | rusqlite (message : String)
  | treeNotFound (digest : BlobDigest)
  | deserialization (digest : BlobDigest) (error : TreeSerializationError)
  | inconsistency (digest : BlobDigest) (message : String)
deriving DecidableEq

/-- Modelled from the spec: `StoreError` of the current storage surface, with
`TreeMissing` wrapping the load error of a missing child and
`CorruptedStorage` for impossible states. -/
inductive StoreError : Type where
  | noSpace
  | rusqlite (message : String)
  | treeSerializationError (error : TreeSerializationError)
  | unrepresentable
  | treeMissing (error : LoadError)
  | corruptedStorage (message : String)
deriving DecidableEq

instance {ε α : Type} [DecidableEq ε] [DecidableEq α] :
    DecidableEq (Except ε α) := fun a b =>
  match a, b with
  | .ok x, .ok y => decidable_of_iff (x = y) (by simp)
  | .error x, .error y => decidable_of_iff (x = y) (by simp)
  | .ok _, .error _ => isFalse (by simp)
  | .error _, .ok _ => isFalse (by simp)

/-- Modelled from the spec: a `StrongReference` is a refcounted handle
carrying a digest plus an opaque liveness token; equality is by digest alone,
so the handle is represented by its digest, while the token refcounts live in
the storage state (`extRefs` of the entries). -/
abbrev StrongReference : Type := BlobDigest

/-- Modelled from the spec: `StrongReference::digest`. -/
def StrongReference.digest (r : StrongReference) : BlobDigest := r

/-- Modelled from the spec: `StrongDelayedHashedTree` pairs the strong
reference returned by a load with the delayed hashed tree. -/
structure StrongDelayedHashedTree : Type where
  reference : StrongReference
  delayedTree : DelayedHashedTree
deriving DecidableEq

/-- Embeds astraea/src/storage.rs `GarbageCollectionStats`. -/
structure GarbageCollectionStats : Type where
  treesCollected : Nat
deriving DecidableEq

/- Association-list operations shared by the state models.  The Rust
`BTreeMap` keeps keys unique and iterates in key order; the models keep the
entries as a list (uniqueness holds in reachable states) and iterate in list
order, which only matters for the order of a garbage-collection sweep. -/

def lookupA {β : Type} (k : BlobDigest) : List (BlobDigest × β) → Option β
  | [] => none
  | (k', v) :: rest => if k' = k then some v else lookupA k rest

def eraseA {β : Type} (k : BlobDigest) (l : List (BlobDigest × β)) :
    List (BlobDigest × β) :=
  l.filter (fun p => p.1 ≠ k)

def updateA {β : Type} (k : BlobDigest) (v : β) (l : List (BlobDigest × β)) :
    List (BlobDigest × β) :=
  l.map (fun p => if p.1 = k then (k, v) else p)

/- astraea/src/in_memory_storage.rs: InMemoryTreeStorage. -/

/-- Embeds astraea/src/in_memory_storage.rs `InMemoryTreeEntry`: the hashed
tree, the weak liveness token (represented by the count `extRefs` of live
application strong references on the current token), and the strong child
references the entry holds to keep the children alive (`_children`). -/
structure InMemoryTreeEntry : Type where
  tree : HashedTree
  extRefs : Nat
  heldChildren : List BlobDigest
deriving DecidableEq

/-- State of `InMemoryTreeStorage`: the `reference_to_tree` map. -/
abbrev InMemState : Type := List (BlobDigest × InMemoryTreeEntry)

namespace InMem

/-- Whether some entry of the map holds a strong child reference to `d`. -/
def heldSomewhere (s : InMemState) (d : BlobDigest) : Bool :=
  s.any (fun p => p.2.heldChildren.contains d)

/-- Whether the weak liveness token of the entry for `d` can be upgraded: some
application strong reference is alive, or some entry holds `d` among its
`_children`. -/
def entryAlive (s : InMemState) (d : BlobDigest) (e : InMemoryTreeEntry) :
    Bool :=
  decide (0 < e.extRefs) || heldSomewhere s d

/-- Modelled from the spec: dropping a `StrongReference` decrements the token
refcount (the Rust `Drop` impl). -/
def dropStrongReference (s : InMemState) (r : StrongReference) : InMemState :=
  match lookupA r.digest s with
  | none => s
  | some e => updateA r.digest { e with extRefs := e.extRefs - 1 } s

/-- Embeds `LoadTree for InMemoryTreeStorage::load_tree`: an absent digest
fails; a present digest with an expired token is removed from the map and
fails; otherwise an `Immediate` delayed tree and a fresh strong reference are
returned. -/
def loadTree (s : InMemState) (d : BlobDigest) :
    InMemState × Except LoadError StrongDelayedHashedTree :=
  match lookupA d s with
  | none => (s, .error (.treeNotFound d))
  | some e =>
    if entryAlive s d e then
      (updateA d { e with extRefs := e.extRefs + 1 } s,
       .ok ⟨d, .immediate e.tree⟩)
    else
      (eraseA d s, .error (.treeNotFound d))

/-- Child-loading loop of `StoreTree for InMemoryTreeStorage::store_tree`: the
children are loaded in order; the first absent or expired child aborts the
store (expired children are removed from the map by the failing load, and the
strong references acquired for earlier children are dropped again when the
local vector is dropped, so their net effect on the state is nil). -/
def storeChildrenLoop (s : InMemState) :
    List BlobDigest → InMemState × Option BlobDigest
  | [] => (s, none)
  | c :: rest =>
    match lookupA c s with
    | none => (s, some c)
    | some e =>
      if entryAlive s c e then storeChildrenLoop s rest
      else (eraseA c s, some c)

/-- Embeds `StoreTree for InMemoryTreeStorage::store_tree`.  After the child
loop: a vacant digest inserts a fresh entry holding the children; an occupied
digest with a live token hands out another reference to the same token (the
newly loaded child references are dropped); an occupied digest with an expired
token reuses the stored tree but installs a fresh token and the new child
references. -/
def storeTree (s : InMemState) (tree : HashedTree) :
    InMemState × Except StoreError StrongReference :=
  let cs := tree.tree.children.val
  match storeChildrenLoop s cs with
  | (s₁, some c) => (s₁, .error (.treeMissing (.treeNotFound c)))
  | (s₁, none) =>
    let d := tree.digest
    match lookupA d s₁ with
    | none => ((d, ⟨tree, 1, cs⟩) :: s₁, .ok d)
    | some e =>
      if entryAlive s₁ d e then
        (updateA d { e with extRefs := e.extRefs + 1 } s₁, .ok d)
      else
        (updateA d ⟨e.tree, 1, cs⟩ s₁, .ok d)

/-- Sweep of `CollectGarbage for InMemoryTreeStorage::collect_some_garbage`:
`retain` keeps exactly the entries whose token can still be upgraded; removing
an entry also drops the strong child references it held, which is visible to
the liveness checks of entries visited later in the sweep. -/
def gcRetain (kept : InMemState) : InMemState → InMemState
  | [] => kept
  | (d, e) :: rest =>
    if entryAlive (kept ++ (d, e) :: rest) d e then
      gcRetain (kept ++ [(d, e)]) rest
    else
      gcRetain kept rest

/-- Embeds `collect_some_garbage` for the in-memory engine. -/
def collectSomeGarbage (s : InMemState) :
    InMemState × GarbageCollectionStats :=
  let s' := gcRetain [] s
  (s', ⟨s.length - s'.length⟩)

/-- Digests whose entry exists and whose token is still upgradable; these are
exactly the digests a `load_tree` would succeed for. -/
def liveDigests (s : InMemState) : List BlobDigest :=
  (s.filter (fun p => entryAlive s p.1 p.2)).map (fun p => p.1)

/-- Well-formedness of the in-memory map: every entry is stored under the
digest of its tree.  This holds in every reachable state because `store_tree`
inserts at `tree.digest()`. -/
def WF (s : InMemState) : Prop :=
  ∀ p ∈ s, p.2.tree.digest = p.1

end InMem

/-- C9: on `InMemoryTreeStorage`, if every strong reference to a stored digest
has been dropped (the entry's weak token can no longer be upgraded), a
subsequent `load_tree` of that digest removes the entry from the map and fails
with `TreeNotFound`, without `collect_some_garbage` ever being called. -/
theorem c9_in_memory_load_expired (s : InMemState) (d : BlobDigest)
    (e : InMemoryTreeEntry) (hfound : lookupA d s = some e)
    (hdead : InMem.entryAlive s d e = false) :
    InMem.loadTree s d = (eraseA d s, .error (.treeNotFound d)) := by
  simp [InMem.loadTree, hfound, hdead]

/-- C9 witness: store a leaf into the empty storage, drop the returned strong
reference, and observe that the subsequent load removes the entry and fails
even though the digest was stored successfully and no garbage collection ran. -/
theorem c9_in_memory_load_expired_witness :
    let t := HashedTree.fromTree (Tree.new TreeBlob.empty TreeChildren.empty)
    let stored := InMem.storeTree [] t
    stored.2 = .ok t.digest ∧
    (let s := InMem.dropStrongReference stored.1 t.digest
     InMem.loadTree s t.digest = (eraseA t.digest s,
       .error (.treeNotFound t.digest))) := by
  refine ⟨rfl, ?_⟩
  exact c9_in_memory_load_expired _ _ ⟨_, 0, []⟩ rfl (by decide)

/- External crate lz4_flex, used by astraea/src/sqlite_storage.rs.  The crate
is not part of this repository; it is modelled by an executable run-length
codec with the same interface (`compress_prepend_size` prepends the
uncompressed length; `decompress_size_prepended` is partial) and the same
contract: decompression inverts compression, and compression may or may not
shrink the input. -/

/-- Run-length encoding used as the model of the LZ4 compressor. -/
def rle : List Nat → List (Nat × Nat)
  | [] => []
  | a :: rest =>
    match rle rest with
    | [] => [(a, 1)]
    | (b, n) :: tail => if a = b then (a, n + 1) :: tail else (a, 1) :: (b, n) :: tail

/-- Inverse of `rle`: expand the runs. -/
def unrle (l : List (Nat × Nat)) : List Nat :=
  l.flatMap fun p => List.replicate p.2 p.1

theorem unrle_rle (l : List Nat) : unrle (rle l) = l := by
  induction l with
  | nil => rfl
  | cons a rest ih =>
    simp only [rle]
    cases h : rle rest with
    | nil =>
      rw [h] at ih
      simp only [unrle, List.flatMap_nil] at ih
      simp [unrle, ih]
    | cons p tail =>
      obtain ⟨b, n⟩ := p
      rw [h] at ih
      simp only [unrle, List.flatMap_cons] at ih
      by_cases hab : a = b
      · subst hab
        simp [unrle, List.replicate_succ, ← ih]
      · simp [hab, unrle, ← ih]

/-- Flatten run pairs into a byte stream. -/
def flattenPairs : List (Nat × Nat) → List Nat
  | [] => []
  | (b, n) :: tail => b :: n :: flattenPairs tail

/-- Parse a byte stream back into run pairs; fails on odd length. -/
def toPairs : List Nat → Option (List (Nat × Nat))
  | [] => some []
  | [_] => none
  | b :: n :: tail => (toPairs tail).map (fun ps => (b, n) :: ps)

theorem toPairs_flattenPairs (l : List (Nat × Nat)) :
    toPairs (flattenPairs l) = some l := by
  induction l with
  | nil => rfl
  | cons p tail ih =>
    obtain ⟨b, n⟩ := p
    simp [flattenPairs, toPairs, ih]

/-- Model of `lz4_flex::compress_prepend_size`. -/
def lz4CompressPrependSize (b : List Nat) : List Nat :=
  b.length :: flattenPairs (rle b)

/-- Model of `lz4_flex::decompress_size_prepended`; fails on malformed input. -/
def lz4DecompressSizePrepended : List Nat → Option (List Nat)
  | [] => none
  | n :: rest =>
    match toPairs rest with
    | none => none
    | some ps =>
      let d := unrle ps
      if d.length = n then some d else none

theorem lz4_roundtrip (b : List Nat) :
    lz4DecompressSizePrepended (lz4CompressPrependSize b) = some b := by
  simp [lz4CompressPrependSize, lz4DecompressSizePrepended,
    toPairs_flattenPairs, unrle_rle]

/- astraea/src/sqlite_storage.rs: SQLiteStorage.  The SQL tables become lists
of rows; the ambient transaction becomes an optional write counter; the
in-memory GarbageCollector state is inlined into the state record.  Row ids
are issued by a monotone counter, matching SQLite's guarantee that a fresh
`INTEGER PRIMARY KEY` differs from every id currently in the table. -/

/-- Row of the `tree` table. -/
structure TreeRow : Type where
  id : Nat
  digest : BlobDigest
  treeBlob : List Nat
  isCompressed : Bool
deriving DecidableEq

/-- Row of the `reference` table. -/
structure ReferenceRow : Type where
  origin : Nat
  zeroBasedIndex : Nat
  target : BlobDigest
deriving DecidableEq

/-- Row of the `root` table. -/
structure RootRow : Type where
  name : String
  target : BlobDigest
deriving DecidableEq

/-- Entry of the in-memory `additional_roots` map of the garbage collector:
the tree id of the pinned row and the refcount of the current liveness token
(`Weak<SQLiteStrongReferenceImpl>` is upgradable iff the count is positive). -/
structure AdditionalRoot : Type where
  treeId : Nat
  refCount : Nat
deriving DecidableEq

/-- State of `SQLiteStorage`: the three SQL tables, the lazily started
ambient transaction (`TransactionStats.writes`), and the `GarbageCollector`
fields. -/
structure SQLiteState : Type where
  treeRows : List TreeRow
  referenceRows : List ReferenceRow
  rootRows : List RootRow
  nextTreeId : Nat
  transactionWrites : Option Nat
  additionalRoots : List (BlobDigest × AdditionalRoot)
  lastGcAdditionalRootsLen : Nat
deriving DecidableEq

namespace SQLite

/-- Empty database right after `create_schema`. -/
def emptyState : SQLiteState := ⟨[], [], [], 1, none, [], 0⟩

/-- The `SELECT id FROM tree WHERE digest = ?` lookup. -/
def findTreeRowByDigest (s : SQLiteState) (d : BlobDigest) : Option TreeRow :=
  s.treeRows.find? (fun r => r.digest = d)

/-- Embeds `SQLiteState::require_transaction`: starts the ambient transaction
lazily and adds `addWrites` to its write counter. -/
def requireTransaction (s : SQLiteState) (addWrites : Nat) : SQLiteState :=
  { s with transactionWrites := some (s.transactionWrites.getD 0 + addWrites) }

/-- Embeds `GarbageCollector::collect_garbage`: prune expired additional
roots, then delete every tree row that has no incoming reference, is not a
live additional root, and is not a named root target; `ON DELETE CASCADE`
removes the reference rows of deleted origins.  The `DELETE` is one SQL
statement, so its `WHERE` reads the tables as they were before the
deletions. -/
def collectGarbage (s : SQLiteState) : SQLiteState × GarbageCollectionStats :=
  let liveRoots := s.additionalRoots.filter (fun p => 0 < p.2.refCount)
  let liveIds := liveRoots.map (fun p => p.2.treeId)
  let keepRow := fun (r : TreeRow) =>
    s.referenceRows.any (fun rr => rr.target = r.digest) ||
    liveIds.any (fun i => i = r.id) ||
    s.rootRows.any (fun root => root.target = r.digest)
  let treeRowsKept := s.treeRows.filter keepRow
  let referenceRowsKept :=
    s.referenceRows.filter (fun rr => treeRowsKept.any (fun r => r.id = rr.origin))
  ({ s with
      treeRows := treeRowsKept
      referenceRows := referenceRowsKept
      additionalRoots := liveRoots
      lastGcAdditionalRootsLen := liveRoots.length },
   ⟨s.treeRows.length - treeRowsKept.length⟩)

/-- Embeds `GarbageCollector::require_additional_root_entry`: acquire or
refresh the additional-root entry for `root`.  An occupied entry with a live
token hands out the same token (the code then asserts that the stored tree id
equals `rootTreeId`, which holds in well-formed states); an expired entry is
replaced by a fresh token. -/
def requireAdditionalRootEntry (s : SQLiteState) (root : BlobDigest)
    (rootTreeId : Nat) : SQLiteState × StrongReference :=
  match lookupA root s.additionalRoots with
  | none =>
    ({ s with additionalRoots := (root, ⟨rootTreeId, 1⟩) :: s.additionalRoots },
     root)
  | some ar =>
    if 0 < ar.refCount then
      ({ s with additionalRoots :=
          updateA root ⟨ar.treeId, ar.refCount + 1⟩ s.additionalRoots }, root)
    else
      ({ s with additionalRoots :=
          updateA root ⟨rootTreeId, 1⟩ s.additionalRoots }, root)

/-- Embeds `GarbageCollector::check_automatic_collection`: run a collection
when at least 100 additional roots exist and their number more than doubled
since the last collection. -/
def checkAutomaticCollection (s : SQLiteState) : SQLiteState :=
  let n := s.additionalRoots.length
  if 100 ≤ n ∧ s.lastGcAdditionalRootsLen * 2 < n then (collectGarbage s).1
  else s

/-- Embeds `GarbageCollector::require_additional_root` (entry acquisition
followed by the automatic-collection check). -/
def requireAdditionalRoot (s : SQLiteState) (root : BlobDigest)
    (rootTreeId : Nat) : SQLiteState × StrongReference :=
  let acquired := requireAdditionalRootEntry s root rootTreeId
  (checkAutomaticCollection acquired.1, acquired.2)

/-- Child-insertion loop of `store_tree`: one
`INSERT INTO reference ... SELECT ... FROM tree WHERE tree.digest = ?` per
child; zero inserted rows mean the child is missing, more than one would mean
a corrupted tree table (duplicate digests, impossible under `UNIQUE`). -/
def insertChildren (treeRows : List TreeRow) (origin : Nat) (index : Nat) :
    List BlobDigest → Except StoreError (List ReferenceRow)
  | [] => .ok []
  | c :: rest =>
    match (treeRows.filter (fun r => r.digest = c)).length with
    | 0 => .error (.treeMissing (.treeNotFound c))
    | 1 => (insertChildren treeRows origin (index + 1) rest).map
        (fun rows => (⟨origin, index, c⟩ : ReferenceRow) :: rows)
    | _ + 2 => .error (.corruptedStorage
        "Multiple rows inserted into reference table for a single child reference, which should be impossible due to the UNIQUE constraint")

/-- Embeds `StoreTree for SQLiteStorage::store_tree`.  A digest already in the
tree table only refreshes its additional root.  Otherwise the write counter is
increased by `1 + children` first, the blob is stored compressed iff that is
strictly smaller, and the tree row plus one reference row per child are
inserted inside a savepoint that is rolled back (rows discarded, counter kept)
when a child is missing. -/
def storeTree (s : SQLiteState) (tree : HashedTree) :
    SQLiteState × Except StoreError StrongReference :=
  let d := tree.digest
  match findTreeRowByDigest s d with
  | some row =>
    let acquired := requireAdditionalRoot s d row.id
    (acquired.1, .ok acquired.2)
  | none =>
    let s₁ := requireTransaction s (1 + tree.tree.children.val.length)
    let originalBlob := tree.tree.blob.val
    let compressed := lz4CompressPrependSize originalBlob
    let (blobToStore, isCompressed) :=
      if compressed.length < originalBlob.length then (compressed, true)
      else (originalBlob, false)
    let newId := s₁.nextTreeId
    let newRow : TreeRow := ⟨newId, d, blobToStore, isCompressed⟩
    let treeRowsSavepoint := s₁.treeRows ++ [newRow]
    match insertChildren treeRowsSavepoint newId 0 tree.tree.children.val with
    | .error e => (s₁, .error e)
    | .ok newReferenceRows =>
      let s₂ := { s₁ with
        treeRows := treeRowsSavepoint
        referenceRows := s₁.referenceRows ++ newReferenceRows
        nextTreeId := newId + 1 }
      let acquired := requireAdditionalRoot s₂ d newId
      (acquired.1, .ok acquired.2)

/-- The child join of `load_tree_impl`:
`SELECT zero_based_index, target, tree.id FROM reference, tree WHERE origin =
? AND reference.target = tree.digest ORDER BY zero_based_index`, followed by
the check that the observed indices are exactly `0 .. n-1`.  Under the
`UNIQUE (origin, zero_based_index)` constraint this is equivalent to: with `n`
joined rows in total, every index below `n` is matched by exactly one joined
row, and the child at position `i` is the target of the row with index `i`. -/
def collectChildren (s : SQLiteState) (originId : Nat) :
    Except LoadError (List (BlobDigest × Nat)) :=
  let joined := s.referenceRows.filter (fun rr =>
    rr.origin = originId && s.treeRows.any (fun tr => tr.digest = rr.target))
  let n := joined.length
  go s joined n 0
where
  go (s : SQLiteState) (joined : List ReferenceRow) (n index : Nat) :
      Except LoadError (List (BlobDigest × Nat)) :=
    if index < n then
      match joined.filter (fun rr => rr.zeroBasedIndex = index) with
      | [rr] =>
        match s.treeRows.find? (fun tr => tr.digest = rr.target) with
        | some tr =>
          (go s joined n (index + 1)).map (fun rest => (rr.target, tr.id) :: rest)
        | none => .error (.rusqlite "unreachable: joined row without tree row")
      | _ => .error (.inconsistency (.mk [] [])
          "Expected consecutive zero-based indices")
    else .ok []
  termination_by n - index

/-- Loop acquiring an additional root for every child
(`require_additional_root` per child, each of which may trigger an automatic
collection). -/
def acquireChildRoots (s : SQLiteState) :
    List (BlobDigest × Nat) → SQLiteState × List StrongReference
  | [] => (s, [])
  | (d, id) :: rest =>
    let acquired := requireAdditionalRoot s d id
    let remaining := acquireChildRoots acquired.1 rest
    (remaining.1, acquired.2 :: remaining.2)

/-- Embeds `load_tree_impl`: find the row, decompress according to
`is_compressed`, pin the parent, rebuild the blob and the ordered children
(pinning each child), and return a `Delayed` tree with the row digest as the
expected digest. -/
def loadTree (s : SQLiteState) (d : BlobDigest) :
    SQLiteState × Except LoadError StrongDelayedHashedTree :=
  match findTreeRowByDigest s d with
  | none => (s, .error (.treeNotFound d))
  | some row =>
    let decompressedResult : Except LoadError (List Nat) :=
      if row.isCompressed then
        match lz4DecompressSizePrepended row.treeBlob with
        | some data => .ok data
        | none => .error (.inconsistency d "Failed to decompress tree blob using lz4")
      else .ok row.treeBlob
    match decompressedResult with
    | .error e => (s, .error e)
    | .ok decompressed =>
      let acquired := requireAdditionalRoot s d row.id
      let s₁ := acquired.1
      let rootReference := acquired.2
      match TreeBlob.tryFrom decompressed with
      | none => (s₁, .error (.deserialization d .blobTooLong))
      | some treeBlob =>
        match collectChildren s₁ row.id with
        | .error e => (s₁, .error e)
        | .ok childPairs =>
          let s₂ := (acquireChildRoots s₁ childPairs).1
          match TreeChildren.tryFrom (childPairs.map (fun p => p.1)) with
          | none => (s₂, .error (.inconsistency d
              "Tree has too many children"))
          | some children =>
            (s₂, .ok ⟨rootReference,
              .delayed (Tree.new treeBlob children) d⟩)

/-- Embeds `UpdateRoot for SQLiteStorage::update_root`: count one write, check
the target exists in the tree table, then upsert the root row by name. -/
def updateRoot (s : SQLiteState) (name : String) (target : StrongReference) :
    SQLiteState × Except StoreError Unit :=
  let s₁ := requireTransaction s 1
  match findTreeRowByDigest s₁ target.digest with
  | none => (s₁, .error (.treeMissing (.treeNotFound target.digest)))
  | some _ =>
    let rootRows :=
      if s₁.rootRows.any (fun r => r.name = name) then
        s₁.rootRows.map (fun r =>
          if r.name = name then ⟨name, target.digest⟩ else r)
      else s₁.rootRows ++ [⟨name, target.digest⟩]
    ({ s₁ with rootRows := rootRows }, .ok ())

/-- Embeds `LoadRoot for SQLiteStorage::load_root`: join `root` and `tree` by
name and digest; a found target is pinned via the additional-roots map. -/
def loadRoot (s : SQLiteState) (name : String) :
    SQLiteState × Except LoadError (Option StrongReference) :=
  match s.rootRows.find? (fun r => r.name = name) with
  | none => (s, .ok none)
  | some root =>
    match findTreeRowByDigest s root.target with
    | none => (s, .ok none)
    | some tr =>
      let acquired := requireAdditionalRoot s root.target tr.id
      (acquired.1, .ok (some acquired.2))

/-- Embeds `CollectGarbage for SQLiteStorage::collect_some_garbage`. -/
def collectSomeGarbage (s : SQLiteState) :
    SQLiteState × GarbageCollectionStats :=
  collectGarbage s

/-- Embeds `CommitChanges for SQLiteStorage::commit_changes`: with an open
transaction, `COMMIT` and return its write counter; when idle return 0. -/
def commitChanges (s : SQLiteState) : SQLiteState × Nat :=
  match s.transactionWrites with
  | some writes => ({ s with transactionWrites := none }, writes)
  | none => (s, 0)

end SQLite

/- Generic helper lemmas about the association-list operations and the free
digest algebra. -/

theorem lookupA_mem {β : Type} {k : BlobDigest} {v : β} :
    ∀ {l : List (BlobDigest × β)}, lookupA k l = some v → (k, v) ∈ l := by
  intro l
  induction l with
  | nil => intro h; cases h
  | cons p rest ih =>
    intro h
    obtain ⟨k', v'⟩ := p
    by_cases hk : k' = k
    · subst hk
      have h' : v' = v := by simpa [lookupA] using h
      subst h'
      exact List.mem_cons_self _ _
    · simp only [lookupA, if_neg hk] at h
      exact List.mem_cons_of_mem _ (ih h)

/-- No digest occurs among its own children: the digest algebra is
well-founded, which reflects that a tree must be stored strictly after its
children (the spec's "cyclic graphs are impossible by construction"). -/
theorem BlobDigest.self_not_mem_children (b : List Nat) (c : List BlobDigest) :
    BlobDigest.mk b c ∉ c := by
  intro hmem
  have h1 := List.sizeOf_lt_of_mem hmem
  simp only [BlobDigest.mk.sizeOf_spec] at h1
  omega

/-- The digest of a hashed tree never occurs among its own children. -/
theorem digest_not_mem_own_children (t : HashedTree) :
    t.digest ∉ t.tree.children.val := by
  rw [t.valid]
  exact BlobDigest.self_not_mem_children _ _

/- Concrete sample trees used by the witnesses: a leaf, a parent of the leaf,
and a parent whose only child digest is absent everywhere. -/

def sampleLeafTree : Tree := ⟨⟨[0], by decide⟩, ⟨[], by decide⟩⟩

def sampleLeaf : HashedTree := HashedTree.fromTree sampleLeafTree

def sampleParentTree : Tree := ⟨⟨[1], by decide⟩, ⟨[sampleLeaf.digest], by decide⟩⟩

def sampleParent : HashedTree := HashedTree.fromTree sampleParentTree

def missingDigest : BlobDigest := .mk [9] []

def sampleOrphanTree : Tree := ⟨⟨[2], by decide⟩, ⟨[missingDigest], by decide⟩⟩

def sampleOrphan : HashedTree := HashedTree.fromTree sampleOrphanTree

/-- C6: `commit_changes` returns the number of writes batched in the ambient
transaction since the previous commit and clears the transaction, returns 0
when no transaction is open, and in the concrete scenario of storing a leaf
and then a parent with that leaf as single child into an empty store it
returns exactly 3 (1 write for the leaf row, 1 for the parent row, 1 for the
reference row). -/
theorem c6_commit_changes_write_count :
    (∀ s : SQLiteState, s.transactionWrites = none →
      SQLite.commitChanges s = (s, 0)) ∧
    (∀ (s : SQLiteState) (w : Nat), s.transactionWrites = some w →
      SQLite.commitChanges s = ({ s with transactionWrites := none }, w)) ∧
    (SQLite.commitChanges
      (SQLite.storeTree
        (SQLite.storeTree SQLite.emptyState sampleLeaf).1 sampleParent).1).2 = 3 := by
  refine ⟨?_, ?_, by decide⟩
  · intro s h
    simp [SQLite.commitChanges, h]
  · intro s w h
    simp [SQLite.commitChanges, h]

/-- C6 witness: the two transaction equations evaluated at concrete states
(the empty store, and a store with three batched writes). -/
theorem c6_commit_changes_write_count_witness :
    SQLite.commitChanges SQLite.emptyState = (SQLite.emptyState, 0) ∧
    SQLite.commitChanges
        { SQLite.emptyState with transactionWrites := some 5 } =
      ({ SQLite.emptyState with transactionWrites := none }, 5) := by
  constructor
  · exact c6_commit_changes_write_count.1 SQLite.emptyState rfl
  · exact c6_commit_changes_write_count.2.1
      { SQLite.emptyState with transactionWrites := some 5 } 5 rfl

/-- C10: on `SQLiteStorage`, `store_tree` adds `1 + children` to the ambient
transaction's write counter before inserting rows, and the counter is not
decremented when the call fails with `TreeMissing` and its savepoint is rolled
back; the next `commit_changes` therefore reports writes that exceed the rows
actually written.  Concretely, storing a parent with a missing child into the
empty store writes no row, yet `commit_changes` returns 2. -/
theorem c10_store_tree_counter_survives_rollback :
    (∀ (s : SQLiteState) (tree : HashedTree) (s' : SQLiteState) (e : LoadError),
      SQLite.storeTree s tree = (s', .error (.treeMissing e)) →
      s'.treeRows = s.treeRows ∧ s'.referenceRows = s.referenceRows ∧
      s'.transactionWrites =
        some (s.transactionWrites.getD 0 + (1 + tree.tree.children.val.length)) ∧
      (SQLite.commitChanges s').2 =
        s.transactionWrites.getD 0 + (1 + tree.tree.children.val.length)) ∧
    ((SQLite.storeTree SQLite.emptyState sampleOrphan).2 =
        .error (.treeMissing (.treeNotFound missingDigest)) ∧
      (SQLite.storeTree SQLite.emptyState sampleOrphan).1.treeRows = [] ∧
      (SQLite.storeTree SQLite.emptyState sampleOrphan).1.referenceRows = [] ∧
      (SQLite.commitChanges
        (SQLite.storeTree SQLite.emptyState sampleOrphan).1).2 = 2) := by
  refine ⟨?_, by decide⟩
  intro s tree s' e h
  simp only [SQLite.storeTree] at h
  cases hfind : SQLite.findTreeRowByDigest s tree.digest with
  | some row =>
    rw [hfind] at h
    simp only [Prod.mk.injEq] at h
    cases h.2
  | none =>
    rw [hfind] at h
    cases hic : SQLite.insertChildren
        ((SQLite.requireTransaction s (1 + tree.tree.children.val.length)).treeRows
          ++ [⟨(SQLite.requireTransaction s (1 + tree.tree.children.val.length)).nextTreeId,
              tree.digest,
              (if (lz4CompressPrependSize tree.tree.blob.val).length
                  < tree.tree.blob.val.length
               then (lz4CompressPrependSize tree.tree.blob.val, true)
               else (tree.tree.blob.val, false)).1,
              (if (lz4CompressPrependSize tree.tree.blob.val).length
                  < tree.tree.blob.val.length
               then (lz4CompressPrependSize tree.tree.blob.val, true)
               else (tree.tree.blob.val, false)).2⟩])
        (SQLite.requireTransaction s (1 + tree.tree.children.val.length)).nextTreeId
        0 tree.tree.children.val with
    | error e' =>
      rw [hic] at h
      simp only [Prod.mk.injEq] at h
      obtain ⟨hs, herr⟩ := h
      subst hs
      refine ⟨rfl, rfl, rfl, ?_⟩
      simp [SQLite.commitChanges, SQLite.requireTransaction]
    | ok rows =>
      rw [hic] at h
      simp only [Prod.mk.injEq] at h
      cases h.2

/-- C10 witness: the general counter statement applied to the concrete failing
store of `sampleOrphan` into the empty store. -/
theorem c10_store_tree_counter_survives_rollback_witness :
    (SQLite.storeTree SQLite.emptyState sampleOrphan).1.treeRows =
        SQLite.emptyState.treeRows ∧
    (SQLite.storeTree SQLite.emptyState sampleOrphan).1.referenceRows =
        SQLite.emptyState.referenceRows ∧
    (SQLite.storeTree SQLite.emptyState sampleOrphan).1.transactionWrites =
        some (SQLite.emptyState.transactionWrites.getD 0 +
          (1 + sampleOrphan.tree.children.val.length)) ∧
    (SQLite.commitChanges (SQLite.storeTree SQLite.emptyState sampleOrphan).1).2 =
        SQLite.emptyState.transactionWrites.getD 0 +
          (1 + sampleOrphan.tree.children.val.length) :=
  c10_store_tree_counter_survives_rollback.1 SQLite.emptyState sampleOrphan
    (SQLite.storeTree SQLite.emptyState sampleOrphan).1
    (.treeNotFound missingDigest) (by decide)

/- Lemmas for C3: behavior of the child checks when a child is missing. -/

theorem InMem.storeChildrenLoop_first_missing (s : InMemState)
    (hlive : ∀ p ∈ s, InMem.entryAlive s p.1 p.2 = true) :
    ∀ cs : List BlobDigest, (∃ c ∈ cs, lookupA c s = none) →
    ∃ c, lookupA c s = none ∧ c ∈ cs ∧
      InMem.storeChildrenLoop s cs = (s, some c) := by
  intro cs
  induction cs with
  | nil =>
    rintro ⟨c, hc, -⟩
    cases hc
  | cons c₀ rest ih =>
    rintro ⟨c, hcmem, hcnone⟩
    cases hl : lookupA c₀ s with
    | none =>
      exact ⟨c₀, hl, List.mem_cons_self _ _, by
        simp [InMem.storeChildrenLoop, hl]⟩
    | some e =>
      have halive := hlive (c₀, e) (lookupA_mem hl)
      have hrest : ∃ c ∈ rest, lookupA c s = none := by
        rcases List.mem_cons.mp hcmem with h | h
        · subst h; rw [hl] at hcnone; cases hcnone
        · exact ⟨c, h, hcnone⟩
      obtain ⟨c', h1, h2, h3⟩ := ih hrest
      exact ⟨c', h1, List.mem_cons_of_mem _ h2, by
        simp [InMem.storeChildrenLoop, hl, halive, h3]⟩

theorem SQLite.filter_digest_length_le_one (rows : List TreeRow)
    (hnodup : (rows.map (fun r => r.digest)).Nodup) (c : BlobDigest) :
    (rows.filter (fun r => r.digest = c)).length ≤ 1 := by
  induction rows with
  | nil => simp
  | cons r rest ih =>
    simp only [List.map_cons, List.nodup_cons, List.mem_map] at hnodup
    obtain ⟨hnotin, hnodup'⟩ := hnodup
    by_cases hr : r.digest = c
    · subst hr
      have hrest : rest.filter (fun r' => r'.digest = r.digest) = [] := by
        apply List.filter_eq_nil.mpr
        intro r' hr' heq
        exact hnotin ⟨r', hr', by simpa using heq⟩
      simp [List.filter_cons, hrest]
    · simp only [List.filter_cons, hr, decide_False]
      exact ih hnodup'

theorem SQLite.insertChildren_first_missing (rows : List TreeRow)
    (hnodup : (rows.map (fun r => r.digest)).Nodup) (origin : Nat) :
    ∀ (index : Nat) (cs : List BlobDigest),
    (∃ c ∈ cs, ∀ r ∈ rows, r.digest ≠ c) →
    ∃ c, (∀ r ∈ rows, r.digest ≠ c) ∧ c ∈ cs ∧
      SQLite.insertChildren rows origin index cs =
        .error (.treeMissing (.treeNotFound c)) := by
  intro index cs
  induction cs generalizing index with
  | nil =>
    rintro ⟨c, hc, -⟩
    cases hc
  | cons c₀ rest ih =>
    rintro ⟨c, hcmem, hcmissing⟩
    cases hn : (rows.filter (fun r => r.digest = c₀)).length with
    | zero =>
      have hempty : rows.filter (fun r => r.digest = c₀) = [] :=
        List.length_eq_zero.mp hn
      have hmiss : ∀ r ∈ rows, r.digest ≠ c₀ := by
        intro r hr heq
        have : r ∈ rows.filter (fun r => r.digest = c₀) :=
          List.mem_filter.mpr ⟨hr, by simpa using heq⟩
        rw [hempty] at this
        cases this
      exact ⟨c₀, hmiss, List.mem_cons_self _ _, by
        simp [SQLite.insertChildren, hn]⟩
    | succ n =>
      cases n with
      | zero =>
        have hpresent : ∃ r ∈ rows, r.digest = c₀ := by
          cases hf : rows.filter (fun r => r.digest = c₀) with
          | nil => rw [hf] at hn; cases hn
          | cons r rest' =>
            have := List.mem_filter.mp (hf ▸ List.mem_cons_self r rest')
            exact ⟨r, this.1, by simpa using this.2⟩
        have hrest : ∃ c ∈ rest, ∀ r ∈ rows, r.digest ≠ c := by
          rcases List.mem_cons.mp hcmem with h | h
          · subst h
            obtain ⟨r, hr, heq⟩ := hpresent
            exact absurd heq (hcmissing r hr)
          · exact ⟨c, h, hcmissing⟩
        obtain ⟨c', h1, h2, h3⟩ := ih (index + 1) hrest
        refine ⟨c', h1, List.mem_cons_of_mem _ h2, ?_⟩
        simp only [SQLite.insertChildren, hn, h3]
        rfl
      | succ m =>
        have := SQLite.filter_digest_length_le_one rows hnodup c₀
        omega

/- C3: the claim as frozen fails on InMemoryTreeStorage when the map contains
an entry whose liveness token has expired: the failing store then names a
child that IS present in the map, and it mutates the map (the expired entry is
removed, which also drops the child references that entry held). -/

def c3CxState : InMemState :=
  [(sampleParent.digest, ⟨sampleParent, 0, [sampleLeaf.digest]⟩),
   (sampleLeaf.digest, ⟨sampleLeaf, 0, []⟩)]

def c3CxTree : Tree :=
  ⟨⟨[4], by decide⟩, ⟨[sampleParent.digest, missingDigest], by decide⟩⟩

def c3CxStore : HashedTree := HashedTree.fromTree c3CxTree

/-- C3 counterexample: in a store holding a live-by-parent leaf and an expired
parent entry, storing a tree whose children are the (present) parent digest
and a missing digest satisfies the claim's premise, yet the call fails with
`TreeNotFound` naming the present parent digest, and the store's contents
change (the expired parent entry is removed). -/
theorem c3_counterexample_expired_entry :
    lookupA missingDigest c3CxState = none ∧
    missingDigest ∈ c3CxStore.tree.children.val ∧
    (InMem.storeTree c3CxState c3CxStore).2 =
      .error (.treeMissing (.treeNotFound sampleParent.digest)) ∧
    (lookupA sampleParent.digest c3CxState).isSome = true ∧
    (InMem.storeTree c3CxState c3CxStore).1 ≠ c3CxState := by
  decide

/-- C3 amended: if every entry of the in-memory map still has an upgradable
liveness token, a store of a tree with a missing child fails with
`TreeMissing(TreeNotFound(c))` for a missing child `c` and leaves the map
exactly unchanged; on SQLiteStorage, for a digest-unique tree table and a tree
that is not itself stored yet, the store fails with
`TreeMissing(TreeNotFound(c))` for a missing child `c` and only the
transaction write counter changes (no tree row and no reference row
persists). -/
theorem c3_store_missing_child_amended :
    (∀ (s : InMemState) (tree : HashedTree),
      (∀ p ∈ s, InMem.entryAlive s p.1 p.2 = true) →
      (∃ c ∈ tree.tree.children.val, lookupA c s = none) →
      ∃ c, lookupA c s = none ∧ c ∈ tree.tree.children.val ∧
        InMem.storeTree s tree = (s, .error (.treeMissing (.treeNotFound c)))) ∧
    (∀ (s : SQLiteState) (tree : HashedTree),
      (s.treeRows.map (fun r => r.digest)).Nodup →
      SQLite.findTreeRowByDigest s tree.digest = none →
      (∃ c ∈ tree.tree.children.val, SQLite.findTreeRowByDigest s c = none) →
      ∃ c, SQLite.findTreeRowByDigest s c = none ∧
        c ∈ tree.tree.children.val ∧
        SQLite.storeTree s tree =
          (SQLite.requireTransaction s (1 + tree.tree.children.val.length),
           .error (.treeMissing (.treeNotFound c)))) := by
  constructor
  · intro s tree hlive hmissing
    obtain ⟨c, h1, h2, h3⟩ :=
      InMem.storeChildrenLoop_first_missing s hlive tree.tree.children.val hmissing
    exact ⟨c, h1, h2, by simp [InMem.storeTree, h3]⟩
  · intro s tree hnodup hnotpresent hmissing
    have hnotpresent' : ∀ r ∈ s.treeRows, ¬ r.digest = tree.digest := by
      intro r hr
      have := List.find?_eq_none.mp hnotpresent r hr
      simpa using this
    -- the tree table inside the savepoint, with the freshly inserted row
    set newRow : TreeRow :=
      ⟨(SQLite.requireTransaction s (1 + tree.tree.children.val.length)).nextTreeId,
       tree.digest,
       (if (lz4CompressPrependSize tree.tree.blob.val).length
            < tree.tree.blob.val.length
        then (lz4CompressPrependSize tree.tree.blob.val, true)
        else (tree.tree.blob.val, false)).1,
       (if (lz4CompressPrependSize tree.tree.blob.val).length
            < tree.tree.blob.val.length
        then (lz4CompressPrependSize tree.tree.blob.val, true)
        else (tree.tree.blob.val, false)).2⟩ with hnewRow
    have hnewRowDigest : newRow.digest = tree.digest := rfl
    have hnodup' : ((s.treeRows ++ [newRow]).map (fun r => r.digest)).Nodup := by
      rw [List.map_append]
      rw [List.nodup_append]
      refine ⟨hnodup, by simp, ?_⟩
      intro a ha hb
      simp only [List.map_cons, List.map_nil, List.mem_singleton] at hb
      subst hb
      obtain ⟨r, hr, hrd⟩ := List.mem_map.mp ha
      exact hnotpresent' r hr hrd
    have hmissing' : ∃ c ∈ tree.tree.children.val,
        ∀ r ∈ s.treeRows ++ [newRow], r.digest ≠ c := by
      obtain ⟨c, hcmem, hcnone⟩ := hmissing
      refine ⟨c, hcmem, ?_⟩
      intro r hr
      rcases List.mem_append.mp hr with h | h
      · have := List.find?_eq_none.mp hcnone r h
        simpa using this
      · simp only [List.mem_singleton] at h
        subst h
        intro heq
        have heq' : tree.digest = c := heq
        exact digest_not_mem_own_children tree (heq' ▸ hcmem)
    obtain ⟨c, hmiss, hcmem, herr⟩ :=
      SQLite.insertChildren_first_missing
        ((SQLite.requireTransaction s (1 + tree.tree.children.val.length)).treeRows
          ++ [newRow]) hnodup'
        (SQLite.requireTransaction s (1 + tree.tree.children.val.length)).nextTreeId
        0 tree.tree.children.val hmissing'
    refine ⟨c, ?_, hcmem, ?_⟩
    · apply List.find?_eq_none.mpr
      intro r hr
      have := hmiss r (List.mem_append.mpr (Or.inl hr))
      simpa using this
    · simp only [SQLite.storeTree, hnotpresent]
      rw [herr]

/-- C3 amended witness: both conjuncts applied at concrete inputs (a map with
one live leaf, and the empty SQLite store, each storing a parent with a
missing child). -/
theorem c3_store_missing_child_amended_witness :
    (∃ c, lookupA c
        [(sampleLeaf.digest, (⟨sampleLeaf, 1, []⟩ : InMemoryTreeEntry))] = none ∧
      c ∈ sampleOrphan.tree.children.val ∧
      InMem.storeTree [(sampleLeaf.digest, ⟨sampleLeaf, 1, []⟩)] sampleOrphan =
        ([(sampleLeaf.digest, ⟨sampleLeaf, 1, []⟩)],
         .error (.treeMissing (.treeNotFound c)))) ∧
    (∃ c, SQLite.findTreeRowByDigest SQLite.emptyState c = none ∧
      c ∈ sampleOrphan.tree.children.val ∧
      SQLite.storeTree SQLite.emptyState sampleOrphan =
        (SQLite.requireTransaction SQLite.emptyState
          (1 + sampleOrphan.tree.children.val.length),
         .error (.treeMissing (.treeNotFound c)))) := by
  constructor
  · exact c3_store_missing_child_amended.1
      [(sampleLeaf.digest, ⟨sampleLeaf, 1, []⟩)] sampleOrphan (by decide)
      ⟨missingDigest, by decide, by decide⟩
  · exact c3_store_missing_child_amended.2 SQLite.emptyState sampleOrphan
      (by decide) rfl ⟨missingDigest, by decide, rfl⟩

/- Lemmas for C2: the garbage collection sweeps. -/

theorem InMem.gcRetain_append (rem : InMemState) :
    ∀ kept : InMemState, ∃ t, InMem.gcRetain kept rem = kept ++ t := by
  induction rem with
  | nil => intro kept; exact ⟨[], by simp [InMem.gcRetain]⟩
  | cons p rest ih =>
    intro kept
    obtain ⟨d, e⟩ := p
    by_cases halive : InMem.entryAlive (kept ++ (d, e) :: rest) d e = true
    · obtain ⟨t, ht⟩ := ih (kept ++ [(d, e)])
      refine ⟨(d, e) :: t, ?_⟩
      simp only [InMem.gcRetain, halive, if_true, ht, List.append_assoc,
        List.singleton_append]
    · obtain ⟨t, ht⟩ := ih kept
      refine ⟨t, ?_⟩
      simp only [InMem.gcRetain, Bool.not_eq_true] at halive ⊢
      rw [halive]
      simpa using ht

theorem InMem.gcRetain_keeps_referenced (rem : InMemState) :
    ∀ (kept : InMemState) (d : BlobDigest) (e : InMemoryTreeEntry),
    (d, e) ∈ rem → 0 < e.extRefs → (d, e) ∈ InMem.gcRetain kept rem := by
  induction rem with
  | nil =>
    intro kept d e hmem
    cases hmem
  | cons p rest ih =>
    intro kept d e hmem hpos
    obtain ⟨d₀, e₀⟩ := p
    rcases List.mem_cons.mp hmem with hhead | htail
    · rw [Prod.mk.injEq] at hhead
      obtain ⟨hd, he⟩ := hhead
      subst hd; subst he
      have halive : InMem.entryAlive (kept ++ (d, e) :: rest) d e = true := by
        simp [InMem.entryAlive, hpos]
      simp only [InMem.gcRetain, halive, if_true]
      obtain ⟨t, ht⟩ := InMem.gcRetain_append rest (kept ++ [(d, e)])
      rw [ht]
      exact List.mem_append.mpr (Or.inl (List.mem_append.mpr (Or.inr
        (List.mem_singleton.mpr rfl))))
    · by_cases halive : InMem.entryAlive (kept ++ (d₀, e₀) :: rest) d₀ e₀ = true
      · simp only [InMem.gcRetain, halive, if_true]
        exact ih (kept ++ [(d₀, e₀)]) d e htail hpos
      · simp only [InMem.gcRetain, Bool.not_eq_true] at halive
        simp only [InMem.gcRetain, halive, Bool.false_eq_true, if_false]
        exact ih kept d e htail hpos

/-- One step of the child graph of the SQLite tables: `y` is a child of `x`
when a reference row originates at the tree row of `x` and targets `y`. -/
def SQLite.childEdge (s : SQLiteState) (x y : BlobDigest) : Prop :=
  ∃ rowx ∈ s.treeRows, rowx.digest = x ∧
    ∃ rr ∈ s.referenceRows, rr.origin = rowx.id ∧ rr.target = y

/-- Reachability along child references in the SQLite tables. -/
def SQLite.Reaches (s : SQLiteState) : BlobDigest → BlobDigest → Prop :=
  Relation.ReflTransGen (SQLite.childEdge s)

theorem SQLite.collectGarbage_keeps_row (s : SQLiteState) (row : TreeRow)
    (hrow : row ∈ s.treeRows)
    (hkeep : (s.referenceRows.any (fun rr => rr.target = row.digest) ||
      ((s.additionalRoots.filter (fun p => 0 < p.2.refCount)).map
        (fun p => p.2.treeId)).any (fun i => i = row.id) ||
      s.rootRows.any (fun root => root.target = row.digest)) = true) :
    row ∈ (SQLite.collectGarbage s).1.treeRows := by
  simp only [SQLite.collectGarbage]
  exact List.mem_filter.mpr ⟨hrow, hkeep⟩

/-- C2: garbage collection liveness and root pinning.  On the in-memory
engine, an entry with a live application strong reference survives
`collect_some_garbage`.  On SQLiteStorage, a digest with a live additional
root (whose recorded tree id matches its row, as in every reachable state)
survives the sweep; and after a successful `update_root(name, r)`, every tree
row whose digest is reachable from `r` via child references survives the
sweep, without any strong-reference hypothesis. -/
theorem c2_gc_liveness_and_root_pinning :
    (∀ (s : InMemState) (d : BlobDigest) (e : InMemoryTreeEntry),
      (d, e) ∈ s → 0 < e.extRefs →
      (d, e) ∈ (InMem.collectSomeGarbage s).1) ∧
    (∀ (s : SQLiteState) (d : BlobDigest) (ar : AdditionalRoot) (row : TreeRow),
      lookupA d s.additionalRoots = some ar → 0 < ar.refCount →
      row ∈ s.treeRows → row.digest = d → row.id = ar.treeId →
      row ∈ (SQLite.collectSomeGarbage s).1.treeRows) ∧
    (∀ (s s₁ : SQLiteState) (name : String) (r : StrongReference),
      SQLite.updateRoot s name r = (s₁, .ok ()) →
      ∀ (target : BlobDigest) (row : TreeRow),
        SQLite.Reaches s₁ r.digest target →
        row ∈ s₁.treeRows → row.digest = target →
        row ∈ (SQLite.collectSomeGarbage s₁).1.treeRows) := by
  refine ⟨?_, ?_, ?_⟩
  · intro s d e hmem hpos
    exact InMem.gcRetain_keeps_referenced s [] d e hmem hpos
  · intro s d ar row hlook hpos hrow hdig hid
    apply SQLite.collectGarbage_keeps_row s row hrow
    have hmemfilter : (d, ar) ∈
        s.additionalRoots.filter (fun p => 0 < p.2.refCount) :=
      List.mem_filter.mpr ⟨lookupA_mem hlook, by simpa using hpos⟩
    have hmemmap : row.id ∈
        (s.additionalRoots.filter (fun p => 0 < p.2.refCount)).map
          (fun p => p.2.treeId) := by
      rw [hid]
      exact List.mem_map.mpr ⟨(d, ar), hmemfilter, rfl⟩
    have hany : (((s.additionalRoots.filter (fun p => 0 < p.2.refCount)).map
        (fun p => p.2.treeId)).any (fun i => i = row.id)) = true :=
      List.any_eq_true.mpr ⟨row.id, hmemmap, by simp⟩
    simp [hany]
  · intro s s₁ name r h target row hreach hrow hdig
    have hrootRow : ∃ rr ∈ s₁.rootRows, rr.target = r.digest := by
      simp only [SQLite.updateRoot] at h
      cases hfind : SQLite.findTreeRowByDigest
          (SQLite.requireTransaction s 1) r.digest with
      | none =>
        rw [hfind] at h
        simp only [Prod.mk.injEq] at h
        cases h.2
      | some tr =>
        rw [hfind] at h
        simp only [Prod.mk.injEq] at h
        obtain ⟨hs₁, -⟩ := h
        subst hs₁
        by_cases hexists : ((SQLite.requireTransaction s 1).rootRows.any
            (fun rr => rr.name = name)) = true
        · simp only [hexists, if_true]
          obtain ⟨rr₀, hmem₀, hname₀⟩ := List.any_eq_true.mp hexists
          refine ⟨⟨name, r.digest⟩, ?_, rfl⟩
          exact List.mem_map.mpr ⟨rr₀, hmem₀, by simp [of_decide_eq_true hname₀]⟩
        · simp only [Bool.not_eq_true] at hexists
          simp only [hexists, Bool.false_eq_true, if_false]
          exact ⟨⟨name, r.digest⟩, List.mem_append.mpr (Or.inr
            (List.mem_singleton.mpr rfl)), rfl⟩
    apply SQLite.collectGarbage_keeps_row s₁ row hrow
    rcases Relation.ReflTransGen.cases_tail hreach with heq | ⟨mid, -, hedge⟩
    · obtain ⟨rr, hmem, htarget⟩ := hrootRow
      have hrootAny : (s₁.rootRows.any
          (fun root => root.target = row.digest)) = true :=
        List.any_eq_true.mpr ⟨rr, hmem, by
          simp [htarget, hdig, heq]⟩
      simp [hrootAny]
    · obtain ⟨rowx, -, -, rr, hmemrr, -, htarget⟩ := hedge
      have hrefAny : (s₁.referenceRows.any
          (fun rr' => rr'.target = row.digest)) = true :=
        List.any_eq_true.mpr ⟨rr, hmemrr, by simp [htarget, hdig]⟩
      simp [hrefAny]

/-- C2 witness: the three conjuncts applied to concrete stores built by
storing a leaf (and, for root pinning, updating a root to it). -/
theorem c2_gc_liveness_and_root_pinning_witness :
    ((sampleLeaf.digest, (⟨sampleLeaf, 1, []⟩ : InMemoryTreeEntry)) ∈
      (InMem.collectSomeGarbage
        [(sampleLeaf.digest, (⟨sampleLeaf, 1, []⟩ : InMemoryTreeEntry))]).1) ∧
    ((⟨1, sampleLeaf.digest, [0], false⟩ : TreeRow) ∈
      (SQLite.collectSomeGarbage
        (SQLite.storeTree SQLite.emptyState sampleLeaf).1).1.treeRows) ∧
    ((⟨1, sampleLeaf.digest, [0], false⟩ : TreeRow) ∈
      (SQLite.collectSomeGarbage
        (SQLite.updateRoot (SQLite.storeTree SQLite.emptyState sampleLeaf).1
          "test" sampleLeaf.digest).1).1.treeRows) := by
  refine ⟨?_, ?_, ?_⟩
  · exact c2_gc_liveness_and_root_pinning.1 _ sampleLeaf.digest _
      (List.mem_singleton.mpr rfl) (by decide)
  · exact c2_gc_liveness_and_root_pinning.2.1
      (SQLite.storeTree SQLite.emptyState sampleLeaf).1 sampleLeaf.digest
      ⟨1, 1⟩ ⟨1, sampleLeaf.digest, [0], false⟩ (by decide) (by decide)
      (by decide) rfl rfl
  · exact c2_gc_liveness_and_root_pinning.2.2
      (SQLite.storeTree SQLite.emptyState sampleLeaf).1
      (SQLite.updateRoot (SQLite.storeTree SQLite.emptyState sampleLeaf).1
        "test" sampleLeaf.digest).1
      "test" sampleLeaf.digest (by decide) sampleLeaf.digest
      ⟨1, sampleLeaf.digest, [0], false⟩ Relation.ReflTransGen.refl
      (by decide) rfl

/- astraea/src/load_cache_storage.rs: LoadCache over an arbitrary backing
store.  The backing `dyn LoadStoreTree` is a parameter `next`; the `cached`
crate's SizedCache is modelled as a recency list (most recent first) with a
capacity, evicting from the back. -/

/-- Embeds `CacheValue`: the verified hashed tree together with the strong
reference obtained from the backing load. -/
structure CacheValue : Type where
  tree : HashedTree
  reference : StrongReference
deriving DecidableEq

/-- Model of `cached::stores::SizedCache`: a bounded recency list. -/
structure SizedCache : Type where
  capacity : Nat
  entries : List (BlobDigest × CacheValue)
deriving DecidableEq

namespace LoadCacheM

/-- `cache_get`: a hit returns the value and refreshes its recency. -/
def cacheGet (c : SizedCache) (k : BlobDigest) :
    Option CacheValue × SizedCache :=
  match lookupA k c.entries with
  | none => (none, c)
  | some v => (some v, ⟨c.capacity, (k, v) :: eraseA k c.entries⟩)

/-- `cache_set`: insert at the front, evicting beyond the capacity. -/
def cacheSet (c : SizedCache) (k : BlobDigest) (v : CacheValue) : SizedCache :=
  ⟨c.capacity, ((k, v) :: eraseA k c.entries).take c.capacity⟩

/-- Embeds `LoadCache::load_tree_impl`: serve a hit from the cache; on a miss
load from the backing store, verify via `hash()` (surfacing `TreeNotFound` on
a `None`), insert the verified tree, and return it. -/
def loadTreeImpl (next : BlobDigest → Except LoadError StrongDelayedHashedTree)
    (c : SizedCache) (d : BlobDigest) :
    SizedCache × Except LoadError CacheValue :=
  match cacheGet c d with
  | (some v, c₁) => (c₁, .ok v)
  | (none, c₁) =>
    match next d with
    | .error e => (c₁, .error e)
    | .ok loaded =>
      match loaded.delayedTree.hash with
      | some success =>
        let result : CacheValue := ⟨success, loaded.reference⟩
        (cacheSet c₁ d result, .ok result)
      | none => (c₁, .error (.treeNotFound d))

/-- Embeds `LoadTree for LoadCache::load_tree`: wrap the cache value as an
`Immediate` delayed hashed tree carrying the cached strong reference. -/
def loadTree (next : BlobDigest → Except LoadError StrongDelayedHashedTree)
    (c : SizedCache) (d : BlobDigest) :
    SizedCache × Except LoadError StrongDelayedHashedTree :=
  let r := loadTreeImpl next c d
  (r.1, r.2.map (fun v => ⟨v.reference, .immediate v.tree⟩))

end LoadCacheM

/-- C8: on a cache miss, if the backing store's tree fails delayed hash
verification, `LoadCache` surfaces `TreeNotFound` for the digest instead of
succeeding; otherwise the verified hashed tree is inserted into the cache and
returned as `Immediate`, and any subsequent `load_tree` of a cached digest is
served from the cache as `Immediate` with the cached strong reference. -/
theorem c8_load_cache_miss_and_hit
    (next : BlobDigest → Except LoadError StrongDelayedHashedTree)
    (c : SizedCache) (d : BlobDigest)
    (hmiss : lookupA d c.entries = none) :
    (∀ loaded, next d = .ok loaded → loaded.delayedTree.hash = none →
      LoadCacheM.loadTree next c d = (c, .error (.treeNotFound d))) ∧
    (∀ loaded h, next d = .ok loaded → loaded.delayedTree.hash = some h →
      LoadCacheM.loadTree next c d =
        (LoadCacheM.cacheSet c d ⟨h, loaded.reference⟩,
         .ok ⟨loaded.reference, .immediate h⟩)) ∧
    (∀ (c' : SizedCache) (v : CacheValue), lookupA d c'.entries = some v →
      ∀ next', LoadCacheM.loadTree next' c' d =
        (⟨c'.capacity, (d, v) :: eraseA d c'.entries⟩,
         .ok ⟨v.reference, .immediate v.tree⟩)) ∧
    (∀ loaded h, next d = .ok loaded → loaded.delayedTree.hash = some h →
      0 < c.capacity →
      lookupA d (LoadCacheM.cacheSet c d ⟨h, loaded.reference⟩).entries =
        some ⟨h, loaded.reference⟩) := by
  refine ⟨?_, ?_, ?_, ?_⟩
  · intro loaded hnext hnone
    simp only [LoadCacheM.loadTree, LoadCacheM.loadTreeImpl,
      LoadCacheM.cacheGet, hmiss, hnext, hnone]
    rfl
  · intro loaded h hnext hsome
    simp only [LoadCacheM.loadTree, LoadCacheM.loadTreeImpl,
      LoadCacheM.cacheGet, hmiss, hnext, hsome]
    rfl
  · intro c' v hhit next'
    simp only [LoadCacheM.loadTree, LoadCacheM.loadTreeImpl,
      LoadCacheM.cacheGet, hhit]
    rfl
  · intro loaded h hnext hsome hcap
    simp only [LoadCacheM.cacheSet]
    cases hc : c.capacity with
    | zero => omega
    | succ n => simp [List.take_succ_cons, lookupA]

/-- C8 witness: a concrete backing store that returns `sampleLeafTree` delayed
with the right digest (hit path) or with a wrong expected digest (verification
failure path), applied to an empty cache of capacity 4. -/
theorem c8_load_cache_miss_and_hit_witness :
    (LoadCacheM.loadTree
        (fun _ => .ok ⟨sampleLeaf.digest, .delayed sampleLeafTree missingDigest⟩)
        ⟨4, []⟩ sampleLeaf.digest =
      (⟨4, []⟩, .error (.treeNotFound sampleLeaf.digest))) ∧
    (LoadCacheM.loadTree
        (fun _ => .ok ⟨sampleLeaf.digest, .delayed sampleLeafTree sampleLeaf.digest⟩)
        ⟨4, []⟩ sampleLeaf.digest =
      (LoadCacheM.cacheSet ⟨4, []⟩ sampleLeaf.digest ⟨sampleLeaf, sampleLeaf.digest⟩,
       .ok ⟨sampleLeaf.digest, .immediate sampleLeaf⟩)) := by
  constructor
  · exact (c8_load_cache_miss_and_hit
      (fun _ => .ok ⟨sampleLeaf.digest, .delayed sampleLeafTree missingDigest⟩)
      ⟨4, []⟩ sampleLeaf.digest rfl).1
      ⟨sampleLeaf.digest, .delayed sampleLeafTree missingDigest⟩ rfl (by decide)
  · exact (c8_load_cache_miss_and_hit
      (fun _ => .ok ⟨sampleLeaf.digest, .delayed sampleLeafTree sampleLeaf.digest⟩)
      ⟨4, []⟩ sampleLeaf.digest rfl).2.1
      ⟨sampleLeaf.digest, .delayed sampleLeafTree sampleLeaf.digest⟩ sampleLeaf
      rfl (by decide)

/- Infrastructure lemmas for C1. -/

theorem lookupA_cons {β : Type} (k a : BlobDigest) (b : β)
    (l : List (BlobDigest × β)) :
    lookupA k ((a, b) :: l) = if a = k then some b else lookupA k l := rfl

theorem updateA_cons {β : Type} (k a : BlobDigest) (v b : β)
    (l : List (BlobDigest × β)) :
    updateA k v ((a, b) :: l) =
      (if a = k then (k, v) else (a, b)) :: updateA k v l := rfl

theorem lookupA_updateA_self {β : Type} {k : BlobDigest} {v' : β} (v : β) :
    ∀ {l : List (BlobDigest × β)}, lookupA k l = some v' →
    lookupA k (updateA k v l) = some v := by
  intro l
  induction l with
  | nil => intro h; cases h
  | cons p rest ih =>
    intro h
    obtain ⟨k', w⟩ := p
    by_cases hk : k' = k
    · rw [updateA_cons, if_pos hk, lookupA_cons, if_pos rfl]
    · rw [lookupA_cons, if_neg hk] at h
      rw [updateA_cons, if_neg hk, lookupA_cons, if_neg hk]
      exact ih h

theorem lookupA_updateA_ne {β : Type} {k k' : BlobDigest} (v : β)
    (hne : k' ≠ k) :
    ∀ l : List (BlobDigest × β), lookupA k (updateA k' v l) = lookupA k l := by
  intro l
  induction l with
  | nil => rfl
  | cons p rest ih =>
    obtain ⟨k₀, w⟩ := p
    by_cases hk : k₀ = k'
    · subst hk
      rw [updateA_cons, if_pos rfl, lookupA_cons, lookupA_cons, if_neg hne]
      have hk0 : ¬ k₀ = k := fun h => hne h
      rw [if_neg hk0]
      exact ih
    · rw [updateA_cons, if_neg hk, lookupA_cons, lookupA_cons]
      by_cases hk2 : k₀ = k
      · rw [if_pos hk2, if_pos hk2]
      · rw [if_neg hk2, if_neg hk2]
        exact ih

theorem lookupA_filter_pos (d : BlobDigest) (ar : AdditionalRoot) :
    ∀ l : List (BlobDigest × AdditionalRoot), lookupA d l = some ar →
    0 < ar.refCount →
    lookupA d (l.filter (fun p => 0 < p.2.refCount)) = some ar := by
  intro l
  induction l with
  | nil => intro h; cases h
  | cons p rest ih =>
    intro h hpos
    obtain ⟨k, w⟩ := p
    by_cases hk : k = d
    · subst hk
      rw [lookupA_cons, if_pos rfl] at h
      have hw : w = ar := by injection h
      subst hw
      rw [List.filter_cons]
      have : decide (0 < (k, w).2.refCount) = true := decide_eq_true hpos
      rw [this]
      rw [if_pos rfl]
      rw [lookupA_cons, if_pos rfl]
    · rw [lookupA_cons, if_neg hk] at h
      rw [List.filter_cons]
      by_cases hwpos : 0 < w.refCount
      · rw [decide_eq_true hwpos, if_pos rfl, lookupA_cons, if_neg hk]
        exact ih h hpos
      · rw [decide_eq_false hwpos]
        simp only [Bool.false_eq_true, if_false]
        exact ih h hpos

/-- The reference rows `store_tree` inserts for the children of a tree with
row id `origin`, starting at `idx`. -/
def buildRefRows (origin : Nat) : Nat → List BlobDigest → List ReferenceRow
  | _, [] => []
  | idx, c :: cs => ⟨origin, idx, c⟩ :: buildRefRows origin (idx + 1) cs

theorem buildRefRows_mem_origin {origin : Nat} :
    ∀ {idx : Nat} {cs : List BlobDigest} {rr : ReferenceRow},
    rr ∈ buildRefRows origin idx cs → rr.origin = origin := by
  intro idx cs
  induction cs generalizing idx with
  | nil => intro rr h; cases h
  | cons c rest ih =>
    intro rr h
    rcases List.mem_cons.mp h with h | h
    · subst h; rfl
    · exact ih h

theorem buildRefRows_mem_target {origin : Nat} :
    ∀ {idx : Nat} {cs : List BlobDigest} {rr : ReferenceRow},
    rr ∈ buildRefRows origin idx cs → rr.target ∈ cs := by
  intro idx cs
  induction cs generalizing idx with
  | nil => intro rr h; cases h
  | cons c rest ih =>
    intro rr h
    rcases List.mem_cons.mp h with h | h
    · subst h; exact List.mem_cons_self _ _
    · exact List.mem_cons_of_mem _ (ih h)

theorem buildRefRows_mem_index {origin : Nat} :
    ∀ {idx : Nat} {cs : List BlobDigest} {rr : ReferenceRow},
    rr ∈ buildRefRows origin idx cs → idx ≤ rr.zeroBasedIndex := by
  intro idx cs
  induction cs generalizing idx with
  | nil => intro rr h; cases h
  | cons c rest ih =>
    intro rr h
    rcases List.mem_cons.mp h with h | h
    · subst h; exact Nat.le_refl _
    · exact Nat.le_of_succ_le (ih h)

theorem buildRefRows_length (origin : Nat) :
    ∀ (idx : Nat) (cs : List BlobDigest),
    (buildRefRows origin idx cs).length = cs.length := by
  intro idx cs
  induction cs generalizing idx with
  | nil => rfl
  | cons c rest ih => simp [buildRefRows, ih]

theorem SQLite.insertChildren_ok (rows : List TreeRow) (origin : Nat) :
    ∀ (idx : Nat) (cs : List BlobDigest) (L : List ReferenceRow),
    SQLite.insertChildren rows origin idx cs = .ok L →
    L = buildRefRows origin idx cs ∧
      ∀ c ∈ cs, ∃ r ∈ rows, r.digest = c := by
  intro idx cs
  induction cs generalizing idx with
  | nil =>
    intro L h
    simp only [SQLite.insertChildren] at h
    cases h
    exact ⟨rfl, by intro c hc; cases hc⟩
  | cons c₀ rest ih =>
    intro L h
    cases hn : (rows.filter (fun r => r.digest = c₀)).length with
    | zero =>
      simp [SQLite.insertChildren, hn] at h
    | succ n =>
      cases n with
      | zero =>
        simp only [SQLite.insertChildren, hn] at h
        cases hrec : SQLite.insertChildren rows origin (idx + 1) rest with
        | error e => rw [hrec] at h; cases h
        | ok L' =>
          rw [hrec] at h
          obtain ⟨hL', hrest⟩ := ih (idx + 1) L' hrec
          have hL : L = (⟨origin, idx, c₀⟩ : ReferenceRow) :: L' := by
            simpa [Except.map] using h.symm
          have hpresent : ∃ r ∈ rows, r.digest = c₀ := by
            cases hf : rows.filter (fun r => r.digest = c₀) with
            | nil => rw [hf] at hn; cases hn
            | cons r rest' =>
              have := List.mem_filter.mp (hf ▸ List.mem_cons_self r rest')
              exact ⟨r, this.1, by simpa using this.2⟩
          refine ⟨by rw [hL, hL']; rfl, ?_⟩
          intro c hc
          rcases List.mem_cons.mp hc with h | h
          · subst h; exact hpresent
          · exact hrest c h
      | succ m =>
        simp [SQLite.insertChildren, hn] at h

theorem buildRefRows_target_mem (origin : Nat) :
    ∀ (idx : Nat) (cs : List BlobDigest) (c : BlobDigest), c ∈ cs →
    ∃ rr ∈ buildRefRows origin idx cs, rr.target = c := by
  intro idx cs
  induction cs generalizing idx with
  | nil => intro c h; cases h
  | cons c₀ rest ih =>
    intro c h
    rcases List.mem_cons.mp h with h | h
    · subst h
      exact ⟨⟨origin, idx, c⟩, List.mem_cons_self _ _, rfl⟩
    · obtain ⟨rr, hmem, htarget⟩ := ih (idx + 1) c h
      exact ⟨rr, List.mem_cons_of_mem _ hmem, htarget⟩

/-- Everything `load_tree` needs in order to reproduce the tree with digest
`d` from the SQL state: its unique tree row `⟨treeId, d, storedBlob, comp⟩`,
its reference rows (exactly one per child, in order), the presence of every
child row, and a live additional root pinning the row against garbage
collection. -/
def SQLite.LoadReady (s : SQLiteState) (d : BlobDigest) (treeId : Nat)
    (storedBlob : List Nat) (comp : Bool) (cs : List BlobDigest) : Prop :=
  (⟨treeId, d, storedBlob, comp⟩ : TreeRow) ∈ s.treeRows ∧
  (∀ row ∈ s.treeRows, row.digest = d → row = ⟨treeId, d, storedBlob, comp⟩) ∧
  s.referenceRows.filter (fun rr => rr.origin = treeId) =
    buildRefRows treeId 0 cs ∧
  (∀ c ∈ cs, ∃ row ∈ s.treeRows, row.digest = c) ∧
  (∃ ar, lookupA d s.additionalRoots = some ar ∧ 0 < ar.refCount ∧
    ar.treeId = treeId)

theorem SQLite.LoadReady.gc {s : SQLiteState} {d : BlobDigest} {treeId : Nat}
    {storedBlob : List Nat} {comp : Bool} {cs : List BlobDigest}
    (h : SQLite.LoadReady s d treeId storedBlob comp cs) :
    SQLite.LoadReady (SQLite.collectGarbage s).1 d treeId storedBlob comp cs := by
  obtain ⟨hrow, huniq, hrefs, hchildren, ar, har, hpos, harid⟩ := h
  have hrowKept : (⟨treeId, d, storedBlob, comp⟩ : TreeRow) ∈
      (SQLite.collectGarbage s).1.treeRows := by
    apply SQLite.collectGarbage_keeps_row s _ hrow
    have hmemfilter : (d, ar) ∈
        s.additionalRoots.filter (fun p => 0 < p.2.refCount) :=
      List.mem_filter.mpr ⟨lookupA_mem har, by simpa using hpos⟩
    have hany : (((s.additionalRoots.filter (fun p => 0 < p.2.refCount)).map
        (fun p => p.2.treeId)).any (fun i => i = treeId)) = true :=
      List.any_eq_true.mpr ⟨ar.treeId,
        List.mem_map.mpr ⟨(d, ar), hmemfilter, rfl⟩, by simp [harid]⟩
    simp [hany]
  refine ⟨hrowKept, ?_, ?_, ?_, ?_⟩
  · intro row hrow' hdig
    exact huniq row (List.mem_filter.mp hrow').1 hdig
  · -- reference rows of a kept origin survive the cascade
    have hkeepRef : ∀ rr ∈ s.referenceRows.filter (fun rr => rr.origin = treeId),
        ((SQLite.collectGarbage s).1.treeRows.any (fun r => r.id = rr.origin))
          = true := by
      intro rr hmem
      have horigin : rr.origin = treeId := by
        simpa using (List.mem_filter.mp hmem).2
      exact List.any_eq_true.mpr ⟨⟨treeId, d, storedBlob, comp⟩, hrowKept,
        by simp [horigin]⟩
    simp only [SQLite.collectGarbage]
    rw [List.filter_comm]
    rw [hrefs]
    apply List.filter_eq_self.mpr
    intro rr hmem
    exact hkeepRef rr (hrefs ▸ hmem)
  · intro c hc
    obtain ⟨rowc, hrowc, hdigc⟩ := hchildren c hc
    -- there is a reference row targeting c, so the child row survives
    have hrr : ∃ rr ∈ s.referenceRows, rr.target = c := by
      obtain ⟨rr, hmem, htarget⟩ := buildRefRows_target_mem treeId 0 cs c hc
      exact ⟨rr, (List.mem_filter.mp (hrefs ▸ hmem)).1, htarget⟩
    obtain ⟨rr, hmemrr, htargetrr⟩ := hrr
    refine ⟨rowc, ?_, hdigc⟩
    apply SQLite.collectGarbage_keeps_row s _ hrowc
    have hany : (s.referenceRows.any (fun rr' => rr'.target = rowc.digest))
        = true :=
      List.any_eq_true.mpr ⟨rr, hmemrr, by simp [htargetrr, hdigc]⟩
    simp [hany]
  · refine ⟨ar, ?_, hpos, harid⟩
    simp only [SQLite.collectGarbage]
    exact lookupA_filter_pos d ar s.additionalRoots har hpos

theorem SQLite.LoadReady.rootEntry {s : SQLiteState} {d : BlobDigest}
    {treeId : Nat} {storedBlob : List Nat} {comp : Bool} {cs : List BlobDigest}
    (h : SQLite.LoadReady s d treeId storedBlob comp cs)
    (c : BlobDigest) (j : Nat) :
    SQLite.LoadReady (SQLite.requireAdditionalRootEntry s c j).1 d treeId
      storedBlob comp cs := by
  obtain ⟨hrow, huniq, hrefs, hchildren, ar, har, hpos, harid⟩ := h
  by_cases hcd : c = d
  · subst hcd
    simp only [SQLite.requireAdditionalRootEntry, har, if_pos hpos]
    exact ⟨hrow, huniq, hrefs, hchildren, ⟨ar.treeId, ar.refCount + 1⟩,
      lookupA_updateA_self _ har, Nat.succ_pos _, harid⟩
  · have hdc : ¬ c = d := hcd
    cases hlc : lookupA c s.additionalRoots with
    | none =>
      simp only [SQLite.requireAdditionalRootEntry, hlc]
      refine ⟨hrow, huniq, hrefs, hchildren, ar, ?_, hpos, harid⟩
      rw [lookupA_cons, if_neg hdc]
      exact har
    | some ar' =>
      by_cases hlive : 0 < ar'.refCount
      · simp only [SQLite.requireAdditionalRootEntry, hlc, if_pos hlive]
        exact ⟨hrow, huniq, hrefs, hchildren, ar,
          by rw [lookupA_updateA_ne _ hdc]; exact har, hpos, harid⟩
      · simp only [SQLite.requireAdditionalRootEntry, hlc, if_neg hlive]
        exact ⟨hrow, huniq, hrefs, hchildren, ar,
          by rw [lookupA_updateA_ne _ hdc]; exact har, hpos, harid⟩

theorem SQLite.LoadReady.check {s : SQLiteState} {d : BlobDigest}
    {treeId : Nat} {storedBlob : List Nat} {comp : Bool} {cs : List BlobDigest}
    (h : SQLite.LoadReady s d treeId storedBlob comp cs) :
    SQLite.LoadReady (SQLite.checkAutomaticCollection s) d treeId
      storedBlob comp cs := by
  simp only [SQLite.checkAutomaticCollection]
  by_cases hcond : 100 ≤ s.additionalRoots.length ∧
      s.lastGcAdditionalRootsLen * 2 < s.additionalRoots.length
  · rw [if_pos hcond]
    exact h.gc
  · rw [if_neg hcond]
    exact h

theorem SQLite.LoadReady.ra {s : SQLiteState} {d : BlobDigest}
    {treeId : Nat} {storedBlob : List Nat} {comp : Bool} {cs : List BlobDigest}
    (h : SQLite.LoadReady s d treeId storedBlob comp cs)
    (c : BlobDigest) (j : Nat) :
    SQLite.LoadReady (SQLite.requireAdditionalRoot s c j).1 d treeId
      storedBlob comp cs :=
  (h.rootEntry c j).check

theorem SQLite.LoadReady.acquire {d : BlobDigest}
    {treeId : Nat} {storedBlob : List Nat} {comp : Bool} {cs : List BlobDigest} :
    ∀ (pairs : List (BlobDigest × Nat)) (s : SQLiteState),
    SQLite.LoadReady s d treeId storedBlob comp cs →
    SQLite.LoadReady (SQLite.acquireChildRoots s pairs).1 d treeId
      storedBlob comp cs := by
  intro pairs
  induction pairs with
  | nil => intro s h; exact h
  | cons p rest ih =>
    intro s h
    obtain ⟨c, j⟩ := p
    exact ih _ (h.ra c j)

theorem buildRefRows_filter_at (I : Nat) :
    ∀ (pre : List BlobDigest) (idx j : Nat) (c : BlobDigest)
      (rest : List BlobDigest), j = idx + pre.length →
    (buildRefRows I idx (pre ++ c :: rest)).filter
        (fun rr => rr.zeroBasedIndex = j) = [⟨I, j, c⟩] := by
  intro pre
  induction pre with
  | nil =>
    intro idx j c rest hj
    simp only [List.length_nil, Nat.add_zero] at hj
    rw [hj]
    simp only [List.nil_append, buildRefRows, List.filter_cons, decide_True,
      decide_eq_true_eq, if_true]
    congr 1
    apply List.filter_eq_nil_iff.mpr
    intro rr hmem
    have := buildRefRows_mem_index hmem
    simp only [decide_eq_true_eq]
    omega
  | cons p pre' ih =>
    intro idx j c rest hj
    simp only [List.cons_append, buildRefRows, List.filter_cons]
    have hne : ¬ ((⟨I, idx, p⟩ : ReferenceRow).zeroBasedIndex = j) := by
      simp only [List.length_cons] at hj
      simp only []
      omega
    rw [decide_eq_false hne]
    simp only [Bool.false_eq_true, if_false]
    exact ih (idx + 1) j c rest (by simp only [List.length_cons] at hj; omega)

theorem find_first_unique {rows : List TreeRow} {d : BlobDigest}
    {row : TreeRow} (hmem : row ∈ rows)
    (huniq : ∀ row' ∈ rows, row'.digest = d → row' = row)
    (hdig : row.digest = d) :
    rows.find? (fun r => r.digest = d) = some row := by
  induction rows with
  | nil => cases hmem
  | cons r rest ih =>
    by_cases hr : r.digest = d
    · have : r = row := huniq r (List.mem_cons_self _ _) hr
      subst this
      simp [List.find?_cons, decide_eq_true hr]
    · rw [List.find?_cons, decide_eq_false hr]
      rcases List.mem_cons.mp hmem with h | h
      · subst h; exact absurd hdig hr
      · exact ih h (fun row' hmem' => huniq row' (List.mem_cons_of_mem _ hmem'))

theorem SQLite.collectChildren_go_spec (s : SQLiteState) (I : Nat)
    (full : List BlobDigest)
    (hpresent : ∀ c ∈ full, ∃ row ∈ s.treeRows, row.digest = c) :
    ∀ (rest : List BlobDigest) (pre : List BlobDigest), full = pre ++ rest →
    ∃ pairs, SQLite.collectChildren.go s (buildRefRows I 0 full)
        ((buildRefRows I 0 full).length) pre.length = .ok pairs ∧
      pairs.map (fun p => p.1) = rest := by
  intro rest
  induction rest with
  | nil =>
    intro pre hfull
    refine ⟨[], ?_, rfl⟩
    rw [SQLite.collectChildren.go]
    have hlen : (buildRefRows I 0 full).length = pre.length := by
      rw [buildRefRows_length, hfull]
      simp
    rw [if_neg (by omega)]
  | cons c rest' ih =>
    intro pre hfull
    have hlen : (buildRefRows I 0 full).length = full.length :=
      buildRefRows_length I 0 full
    have hidxlt : pre.length < (buildRefRows I 0 full).length := by
      rw [hlen, hfull]
      simp only [List.length_append, List.length_cons]
      omega
    have hfilter : (buildRefRows I 0 full).filter
        (fun rr => rr.zeroBasedIndex = pre.length) = [⟨I, pre.length, c⟩] := by
      rw [hfull]
      exact buildRefRows_filter_at I pre 0 pre.length c rest' (by omega)
    have hc : c ∈ full := by
      rw [hfull]
      exact List.mem_append.mpr (Or.inr (List.mem_cons_self _ _))
    obtain ⟨rowc, hrowc, hdigc⟩ := hpresent c hc
    have hfind : ∃ tr, s.treeRows.find? (fun tr => tr.digest = c) = some tr := by
      have : (s.treeRows.find? (fun tr => tr.digest = c)).isSome :=
        List.find?_isSome.mpr ⟨rowc, hrowc, by simpa using hdigc⟩
      exact Option.isSome_iff_exists.mp this
    obtain ⟨tr, htr⟩ := hfind
    obtain ⟨pairs', hgo', hmap'⟩ := ih (pre ++ [c]) (by simp [hfull])
    refine ⟨(c, tr.id) :: pairs', ?_, by simp [hmap']⟩
    rw [SQLite.collectChildren.go]
    rw [if_pos hidxlt]
    rw [hfilter]
    simp only [htr]
    have hlen2 : (pre ++ [c]).length = pre.length + 1 := by simp
    rw [hlen2] at hgo'
    rw [hgo']
    rfl

theorem SQLite.collectChildren_spec (s : SQLiteState) (I : Nat)
    (cs : List BlobDigest)
    (hrefs : s.referenceRows.filter (fun rr => rr.origin = I) =
      buildRefRows I 0 cs)
    (hpresent : ∀ c ∈ cs, ∃ row ∈ s.treeRows, row.digest = c) :
    ∃ pairs, SQLite.collectChildren s I = .ok pairs ∧
      pairs.map (fun p => p.1) = cs := by
  have hjoined : s.referenceRows.filter (fun rr =>
      rr.origin = I && s.treeRows.any (fun tr => tr.digest = rr.target)) =
      buildRefRows I 0 cs := by
    have hcomm : (fun (rr : ReferenceRow) =>
        decide (rr.origin = I) && s.treeRows.any (fun tr => tr.digest = rr.target)) =
        (fun (rr : ReferenceRow) =>
          s.treeRows.any (fun tr => tr.digest = rr.target) && decide (rr.origin = I)) := by
      funext rr
      exact Bool.and_comm _ _
    rw [hcomm, ← List.filter_filter, hrefs]
    apply List.filter_eq_self.mpr
    intro rr hmem
    have htarget : rr.target ∈ cs := buildRefRows_mem_target hmem
    obtain ⟨rowc, hrowc, hdigc⟩ := hpresent rr.target htarget
    exact List.any_eq_true.mpr ⟨rowc, hrowc, by simpa using hdigc⟩
  obtain ⟨pairs, hgo, hmap⟩ :=
    SQLite.collectChildren_go_spec s I cs hpresent cs [] rfl
  refine ⟨pairs, ?_, hmap⟩
  simp only [SQLite.collectChildren, hjoined]
  simpa using hgo

theorem TreeBlob.tryFrom_val (b : TreeBlob) :
    TreeBlob.tryFrom b.val = some b := by
  unfold TreeBlob.tryFrom
  rw [dif_pos b.property]
  rfl

theorem TreeChildren.tryFrom_children_val (c : TreeChildren) :
    TreeChildren.tryFrom c.val = some c := by
  unfold TreeChildren.tryFrom
  rw [dif_pos c.property]
  rfl

theorem SQLite.loadTree_of_LoadReady (s : SQLiteState) (ht : HashedTree)
    (I : Nat) (B : List Nat) (F : Bool)
    (hready : SQLite.LoadReady s ht.digest I B F ht.tree.children.val)
    (hdecomp : (if F then lz4DecompressSizePrepended B else some B) =
      some ht.tree.blob.val) :
    ∃ s' ref, SQLite.loadTree s ht.digest =
      (s', .ok ⟨ref, .delayed ht.tree ht.digest⟩) := by
  obtain ⟨hrow, huniq, hrefs, hpresent, hpin⟩ := hready
  have hfind : SQLite.findTreeRowByDigest s ht.digest =
      some ⟨I, ht.digest, B, F⟩ :=
    find_first_unique hrow huniq rfl
  have hready' : SQLite.LoadReady s ht.digest I B F ht.tree.children.val :=
    ⟨hrow, huniq, hrefs, hpresent, hpin⟩
  have hready₁ := hready'.ra ht.digest I
  obtain ⟨hrow₁, huniq₁, hrefs₁, hpresent₁, hpin₁⟩ := hready₁
  obtain ⟨pairs, hcollect, hmap⟩ :=
    SQLite.collectChildren_spec (SQLite.requireAdditionalRoot s ht.digest I).1
      I ht.tree.children.val hrefs₁ hpresent₁
  have hdr : (if F then
      (match lz4DecompressSizePrepended B with
        | some data => Except.ok data
        | none => Except.error (LoadError.inconsistency ht.digest
            "Failed to decompress tree blob using lz4"))
      else Except.ok B) = (.ok ht.tree.blob.val : Except LoadError (List Nat)) := by
    cases F with
    | true =>
      rw [if_pos rfl] at hdecomp ⊢
      rw [hdecomp]
    | false =>
      rw [if_neg (by simp)] at hdecomp ⊢
      injection hdecomp with h
      rw [h]
  refine ⟨(SQLite.acquireChildRoots
      (SQLite.requireAdditionalRoot s ht.digest I).1 pairs).1,
    (SQLite.requireAdditionalRoot s ht.digest I).2, ?_⟩
  simp only [SQLite.loadTree, hfind, hdr, TreeBlob.tryFrom_val, hcollect,
    hmap, TreeChildren.tryFrom_children_val]
  rfl

theorem HashedTree.eq_of_digest_eq {a b : HashedTree}
    (h : a.digest = b.digest) : a = b := by
  apply HashedTree.ext_tree
  apply canonicalHash_injective
  rw [← a.valid, ← b.valid, h]

theorem InMem.storeChildrenLoop_ok {s s' : InMemState} :
    ∀ {cs : List BlobDigest}, InMem.storeChildrenLoop s cs = (s', none) →
    s' = s := by
  intro cs
  induction cs with
  | nil =>
    intro h
    exact (congrArg Prod.fst h).symm
  | cons c rest ih =>
    intro h
    simp only [InMem.storeChildrenLoop] at h
    cases hl : lookupA c s with
    | none =>
      rw [hl] at h
      cases congrArg Prod.snd h
    | some e =>
      simp only [hl] at h
      by_cases halive : InMem.entryAlive s c e = true
      · rw [if_pos halive] at h
        exact ih h
      · rw [if_neg halive] at h
        cases congrArg Prod.snd h

theorem InMem.storeTree_then_loadTree (s : InMemState) (ht : HashedTree)
    (s₁ : InMemState) (r : StrongReference) (hwf : InMem.WF s)
    (h : InMem.storeTree s ht = (s₁, .ok r)) :
    ∃ s₂ res, InMem.loadTree s₁ ht.digest = (s₂, .ok res) ∧
      res.delayedTree.hash = some ht := by
  simp only [InMem.storeTree] at h
  cases hloop : InMem.storeChildrenLoop s ht.tree.children.val with
  | mk sLoop failed =>
    rw [hloop] at h
    cases failed with
    | some c => cases congrArg Prod.snd h
    | none =>
      have hs : sLoop = s := InMem.storeChildrenLoop_ok hloop
      rw [hs] at h
      cases hl : lookupA ht.digest s with
      | none =>
        simp only [hl] at h
        have hs₁ : s₁ = (ht.digest, ⟨ht, 1, ht.tree.children.val⟩) :: s :=
          (congrArg Prod.fst h).symm
        subst hs₁
        have hlook : lookupA ht.digest
            ((ht.digest, (⟨ht, 1, ht.tree.children.val⟩ : InMemoryTreeEntry))
              :: s) = some ⟨ht, 1, ht.tree.children.val⟩ := by
          rw [lookupA_cons, if_pos rfl]
        have hload : InMem.loadTree
            ((ht.digest, (⟨ht, 1, ht.tree.children.val⟩ : InMemoryTreeEntry))
              :: s) ht.digest =
            (updateA ht.digest ⟨ht, 2, ht.tree.children.val⟩
              ((ht.digest,
                (⟨ht, 1, ht.tree.children.val⟩ : InMemoryTreeEntry)) :: s),
             .ok ⟨ht.digest, .immediate ht⟩) := by
          simp only [InMem.loadTree, hlook]
          rw [if_pos (by simp [InMem.entryAlive])]
        exact ⟨_, _, hload, rfl⟩
      | some e =>
        simp only [hl] at h
        have htree : e.tree = ht := by
          have hdig : e.tree.digest = ht.digest :=
            hwf (ht.digest, e) (lookupA_mem hl)
          exact HashedTree.eq_of_digest_eq hdig
        by_cases halive : InMem.entryAlive s ht.digest e = true
        · rw [if_pos halive] at h
          have hs₁ : s₁ = updateA ht.digest
              { e with extRefs := e.extRefs + 1 } s :=
            (congrArg Prod.fst h).symm
          subst hs₁
          have hlook : lookupA ht.digest (updateA ht.digest
              { e with extRefs := e.extRefs + 1 } s) =
              some { e with extRefs := e.extRefs + 1 } :=
            lookupA_updateA_self _ hl
          have hload : InMem.loadTree
              (updateA ht.digest { e with extRefs := e.extRefs + 1 } s)
              ht.digest =
              (updateA ht.digest { e with extRefs := e.extRefs + 1 + 1 }
                (updateA ht.digest { e with extRefs := e.extRefs + 1 } s),
               .ok ⟨ht.digest, .immediate e.tree⟩) := by
            simp only [InMem.loadTree, hlook]
            rw [if_pos (by simp [InMem.entryAlive])]
          exact ⟨_, _, hload, by rw [htree]; rfl⟩
        · rw [if_neg halive] at h
          have hs₁ : s₁ = updateA ht.digest
              ⟨e.tree, 1, ht.tree.children.val⟩ s :=
            (congrArg Prod.fst h).symm
          subst hs₁
          have hlook : lookupA ht.digest (updateA ht.digest
              (⟨e.tree, 1, ht.tree.children.val⟩ : InMemoryTreeEntry) s) =
              some ⟨e.tree, 1, ht.tree.children.val⟩ :=
            lookupA_updateA_self _ hl
          have hload : InMem.loadTree
              (updateA ht.digest
                (⟨e.tree, 1, ht.tree.children.val⟩ : InMemoryTreeEntry) s)
              ht.digest =
              (updateA ht.digest ⟨e.tree, 2, ht.tree.children.val⟩
                (updateA ht.digest
                  (⟨e.tree, 1, ht.tree.children.val⟩ : InMemoryTreeEntry) s),
               .ok ⟨ht.digest, .immediate e.tree⟩) := by
            simp only [InMem.loadTree, hlook]
            rw [if_pos (by simp [InMem.entryAlive])]
          exact ⟨_, _, hload, by rw [htree]; rfl⟩

/-- Decompression of a tree row according to its `is_compressed` flag, as
`load_tree_impl` performs it before rebuilding the blob. -/
def SQLite.rowDecomp (row : TreeRow) : Option (List Nat) :=
  if row.isCompressed then lz4DecompressSizePrepended row.treeBlob
  else some row.treeBlob

/-- The children of a tree row: the targets of its reference rows in index
order (the order in which `buildRefRows` lays them out). -/
def SQLite.rowChildren (s : SQLiteState) (row : TreeRow) : List BlobDigest :=
  (s.referenceRows.filter (fun rr => rr.origin = row.id)).map
    (fun rr => rr.target)

/-- Row-level consistency: the reference rows of the row are exactly one per
child with consecutive zero-based indices, every child digest has a tree row,
and the stored (possibly compressed) blob together with the children is
exactly the data hashed into the row's digest. -/
def SQLite.rowOk (s : SQLiteState) (row : TreeRow) : Prop :=
  s.referenceRows.filter (fun rr => rr.origin = row.id) =
    buildRefRows row.id 0 (SQLite.rowChildren s row) ∧
  (∀ c ∈ SQLite.rowChildren s row, ∃ r ∈ s.treeRows, r.digest = c) ∧
  SQLite.rowDecomp row = some row.digest.blobPart ∧
  SQLite.rowChildren s row = row.digest.childrenPart

/-- Well-formedness of a `SQLiteStorage` state, as maintained by the schema
constraints (`UNIQUE` digest, `AUTOINCREMENT` id, foreign keys) and by
`store_tree`: digests identify rows, reference origins are allocated ids,
every row is internally consistent, and every live additional root pins an
existing row under its recorded tree id. -/
def SQLite.WF (s : SQLiteState) : Prop :=
  (∀ row ∈ s.treeRows, ∀ row' ∈ s.treeRows, row.digest = row'.digest →
    row = row') ∧
  (∀ rr ∈ s.referenceRows, rr.origin < s.nextTreeId) ∧
  (∀ row ∈ s.treeRows, SQLite.rowOk s row) ∧
  (∀ p ∈ s.additionalRoots, 0 < p.2.refCount →
    ∃ row ∈ s.treeRows, row.digest = p.1 ∧ row.id = p.2.treeId)

/-- The row-level part of `LoadReady`, before the additional root is
acquired. -/
def SQLite.preReady (s : SQLiteState) (d : BlobDigest) (treeId : Nat)
    (storedBlob : List Nat) (comp : Bool) (cs : List BlobDigest) : Prop :=
  (⟨treeId, d, storedBlob, comp⟩ : TreeRow) ∈ s.treeRows ∧
  (∀ row ∈ s.treeRows, row.digest = d → row = ⟨treeId, d, storedBlob, comp⟩) ∧
  s.referenceRows.filter (fun rr => rr.origin = treeId) =
    buildRefRows treeId 0 cs ∧
  (∀ c ∈ cs, ∃ row ∈ s.treeRows, row.digest = c)

theorem SQLite.preReady.pin {s : SQLiteState} {d : BlobDigest} {treeId : Nat}
    {storedBlob : List Nat} {comp : Bool} {cs : List BlobDigest}
    (h : SQLite.preReady s d treeId storedBlob comp cs)
    (hroots : ∀ ar, lookupA d s.additionalRoots = some ar → 0 < ar.refCount →
      ar.treeId = treeId) :
    SQLite.LoadReady (SQLite.requireAdditionalRootEntry s d treeId).1 d treeId
      storedBlob comp cs := by
  obtain ⟨hrow, huniq, hrefs, hchildren⟩ := h
  cases hl : lookupA d s.additionalRoots with
  | none =>
    simp only [SQLite.requireAdditionalRootEntry, hl]
    refine ⟨hrow, huniq, hrefs, hchildren, ⟨treeId, 1⟩, ?_, Nat.one_pos, rfl⟩
    rw [lookupA_cons, if_pos rfl]
  | some ar =>
    by_cases hlive : 0 < ar.refCount
    · simp only [SQLite.requireAdditionalRootEntry, hl, if_pos hlive]
      exact ⟨hrow, huniq, hrefs, hchildren, ⟨ar.treeId, ar.refCount + 1⟩,
        lookupA_updateA_self _ hl, Nat.succ_pos _, hroots ar hl hlive⟩
    · simp only [SQLite.requireAdditionalRootEntry, hl, if_neg hlive]
      exact ⟨hrow, huniq, hrefs, hchildren, ⟨treeId, 1⟩,
        lookupA_updateA_self _ hl, Nat.one_pos, rfl⟩

theorem SQLite.preReady.pinRoot {s : SQLiteState} {d : BlobDigest}
    {treeId : Nat} {storedBlob : List Nat} {comp : Bool} {cs : List BlobDigest}
    (h : SQLite.preReady s d treeId storedBlob comp cs)
    (hroots : ∀ ar, lookupA d s.additionalRoots = some ar → 0 < ar.refCount →
      ar.treeId = treeId) :
    SQLite.LoadReady (SQLite.requireAdditionalRoot s d treeId).1 d treeId
      storedBlob comp cs :=
  SQLite.LoadReady.check (h.pin hroots)

theorem buildRefRows_filter_origin (I : Nat) (idx : Nat)
    (cs : List BlobDigest) :
    (buildRefRows I idx cs).filter (fun rr => rr.origin = I) =
      buildRefRows I idx cs := by
  apply List.filter_eq_self.mpr
  intro rr hmem
  simp [buildRefRows_mem_origin hmem]

theorem BlobDigest.eta (d : BlobDigest) :
    BlobDigest.mk d.blobPart d.childrenPart = d := by
  cases d; rfl

theorem SQLite.fresh_preReady (s : SQLiteState) (ht : HashedTree)
    (B : List Nat) (F : Bool) (L : List ReferenceRow) (tw : Option Nat)
    (hwf : SQLite.WF s)
    (hfind : SQLite.findTreeRowByDigest s ht.digest = none)
    (hins : SQLite.insertChildren
      (s.treeRows ++ [⟨s.nextTreeId, ht.digest, B, F⟩]) s.nextTreeId 0
      ht.tree.children.val = .ok L) :
    SQLite.preReady
      { treeRows := s.treeRows ++ [⟨s.nextTreeId, ht.digest, B, F⟩]
        referenceRows := s.referenceRows ++ L
        rootRows := s.rootRows
        nextTreeId := s.nextTreeId + 1
        transactionWrites := tw
        additionalRoots := s.additionalRoots
        lastGcAdditionalRootsLen := s.lastGcAdditionalRootsLen }
      ht.digest s.nextTreeId B F ht.tree.children.val ∧
    ∀ ar, lookupA ht.digest s.additionalRoots = some ar → 0 < ar.refCount →
      ar.treeId = s.nextTreeId := by
  obtain ⟨huniq, hrefIds, hrowOk, hrootsWF⟩ := hwf
  simp only [SQLite.findTreeRowByDigest] at hfind
  have hnotpresent : ∀ row ∈ s.treeRows, ¬ row.digest = ht.digest := by
    intro row hmem
    have := List.find?_eq_none.mp hfind row hmem
    simpa using this
  obtain ⟨hL, hpresent⟩ := SQLite.insertChildren_ok
    (s.treeRows ++ [⟨s.nextTreeId, ht.digest, B, F⟩]) s.nextTreeId 0
    ht.tree.children.val L hins
  constructor
  · refine ⟨?_, ?_, ?_, ?_⟩
    · exact List.mem_append.mpr (Or.inr (List.mem_singleton_self _))
    · intro row hmem hdig
      rcases List.mem_append.mp hmem with hmem | hmem
      · exact absurd hdig (hnotpresent row hmem)
      · exact List.mem_singleton.mp hmem
    · show (s.referenceRows ++ L).filter (fun rr => rr.origin = s.nextTreeId) =
        buildRefRows s.nextTreeId 0 ht.tree.children.val
      rw [List.filter_append]
      have h1 : s.referenceRows.filter (fun rr => rr.origin = s.nextTreeId)
          = [] := by
        apply List.filter_eq_nil_iff.mpr
        intro rr hmem
        have hlt := hrefIds rr hmem
        simp only [decide_eq_true_eq]
        omega
      rw [h1, List.nil_append, hL, buildRefRows_filter_origin]
    · intro c hc
      exact hpresent c hc
  · intro ar har hlive
    obtain ⟨row, hrmem, hrdig, _⟩ := hrootsWF (ht.digest, ar)
      (lookupA_mem har) hlive
    exact absurd hrdig (hnotpresent row hrmem)

theorem SQLite.storeTree_fresh_ready (s : SQLiteState) (ht : HashedTree)
    (s₁ : SQLiteState) (r : StrongReference) (hwf : SQLite.WF s)
    (hfind : SQLite.findTreeRowByDigest s ht.digest = none)
    (h : SQLite.storeTree s ht = (s₁, .ok r)) :
    ∃ B F, SQLite.LoadReady s₁ ht.digest s.nextTreeId B F
        ht.tree.children.val ∧
      (if F then lz4DecompressSizePrepended B else some B) =
        some ht.tree.blob.val := by
  simp only [SQLite.storeTree, hfind, SQLite.requireTransaction] at h
  generalize hBF : (if (lz4CompressPrependSize ht.tree.blob.val).length <
      ht.tree.blob.val.length then
      (lz4CompressPrependSize ht.tree.blob.val, true)
      else (ht.tree.blob.val, false)) = BF at h
  obtain ⟨B, F⟩ := BF
  have hroundtrip : (if F then lz4DecompressSizePrepended B else some B) =
      some ht.tree.blob.val := by
    by_cases hc : (lz4CompressPrependSize ht.tree.blob.val).length <
        ht.tree.blob.val.length
    · rw [if_pos hc] at hBF
      injection hBF with h1 h2
      subst h1
      subst h2
      rw [if_pos rfl]
      exact lz4_roundtrip _
    · rw [if_neg hc] at hBF
      injection hBF with h1 h2
      subst h1
      subst h2
      rw [if_neg (by simp)]
  simp only [] at h
  cases hins : SQLite.insertChildren
      (s.treeRows ++ [⟨s.nextTreeId, ht.digest, B, F⟩]) s.nextTreeId 0
      ht.tree.children.val with
  | error e =>
    rw [hins] at h
    cases congrArg Prod.snd h
  | ok L =>
    rw [hins] at h
    simp only [Prod.mk.injEq] at h
    obtain ⟨hfst, _⟩ := h
    refine ⟨B, F, ?_, hroundtrip⟩
    rw [← hfst]
    obtain ⟨hpre, hroots⟩ := SQLite.fresh_preReady s ht B F L
      (some (s.transactionWrites.getD 0 + (1 + ht.tree.children.val.length)))
      hwf (by simpa [SQLite.findTreeRowByDigest] using hfind) hins
    exact hpre.pinRoot hroots

theorem SQLite.storeTree_sql_then_loadTree (s : SQLiteState) (ht : HashedTree)
    (s₁ : SQLiteState) (r : StrongReference) (hwf : SQLite.WF s)
    (h : SQLite.storeTree s ht = (s₁, .ok r)) :
    ∃ s₂ res, SQLite.loadTree s₁ ht.digest = (s₂, .ok res) ∧
      res.delayedTree.hash = some ht := by
  have hhash : (DelayedHashedTree.delayed ht.tree ht.digest).hash = some ht := by
    simp only [DelayedHashedTree.hash]
    have hc : (HashedTree.fromTree ht.tree).digest = ht.digest := ht.valid.symm
    rw [if_pos hc]
    exact congrArg some (HashedTree.ext_tree rfl)
  cases hfind : SQLite.findTreeRowByDigest s ht.digest with
  | none =>
    obtain ⟨B, F, hready, hdecomp⟩ :=
      SQLite.storeTree_fresh_ready s ht s₁ r hwf hfind h
    obtain ⟨s₂, ref, hload⟩ :=
      SQLite.loadTree_of_LoadReady s₁ ht s.nextTreeId B F hready hdecomp
    exact ⟨s₂, ⟨ref, .delayed ht.tree ht.digest⟩, hload, hhash⟩
  | some row =>
    simp only [SQLite.storeTree, hfind] at h
    simp only [Prod.mk.injEq] at h
    obtain ⟨hfst, _⟩ := h
    have hfind' := hfind
    simp only [SQLite.findTreeRowByDigest] at hfind'
    have hrmem : row ∈ s.treeRows := List.mem_of_find?_eq_some hfind'
    have hrdig : row.digest = ht.digest := by
      simpa using List.find?_some hfind'
    obtain ⟨huniq, hrefIds, hrowOk, hrootsWF⟩ := hwf
    obtain ⟨hrefs, hchildren, hdecompOk, hcsOk⟩ := hrowOk row hrmem
    have hcs : SQLite.rowChildren s row = ht.tree.children.val := by
      rw [hcsOk, hrdig, ht.valid]
      rfl
    have hrow_eq : (⟨row.id, ht.digest, row.treeBlob, row.isCompressed⟩ :
        TreeRow) = row := by
      rw [← hrdig]
    have hpre : SQLite.preReady s ht.digest row.id row.treeBlob
        row.isCompressed ht.tree.children.val := by
      refine ⟨?_, ?_, ?_, ?_⟩
      · rw [hrow_eq]; exact hrmem
      · intro row' hmem' hdig'
        rw [hrow_eq]
        exact huniq row' hmem' row hrmem (hdig'.trans hrdig.symm)
      · rw [hcs] at hrefs
        exact hrefs
      · intro c hc
        exact hchildren c (by rw [hcs]; exact hc)
    have hroots : ∀ ar, lookupA ht.digest s.additionalRoots = some ar →
        0 < ar.refCount → ar.treeId = row.id := by
      intro ar har hlive
      obtain ⟨row', hmem', hdig', hid'⟩ := hrootsWF (ht.digest, ar)
        (lookupA_mem har) hlive
      have hrr : row' = row := huniq row' hmem' row hrmem
        (hdig'.trans hrdig.symm)
      rw [← hid', hrr]
    have hready := hpre.pinRoot hroots
    have hdecomp : (if row.isCompressed then
        lz4DecompressSizePrepended row.treeBlob else some row.treeBlob) =
        some ht.tree.blob.val := by
      have hd := hdecompOk
      simp only [SQLite.rowDecomp] at hd
      rw [hd, hrdig, ht.valid]
      rfl
    rw [← hfst]
    obtain ⟨s₂, ref, hload⟩ := SQLite.loadTree_of_LoadReady _ ht row.id
      row.treeBlob row.isCompressed hready hdecomp
    exact ⟨s₂, ⟨ref, .delayed ht.tree ht.digest⟩, hload, hhash⟩

/-- C1: on both storage engines, if `store_tree(t)` succeeds from a
well-formed state (in particular whenever every child digest of `t` is
already present), then an immediately following `load_tree(t.digest())`
succeeds and its `hash()` returns `Some` of a hashed tree equal to `t`; on
`SQLiteStorage` this includes that a blob stored LZ4-compressed decompresses
back to the original bytes and that the children come back in their original
order. -/
theorem c1_store_then_load_roundtrip :
    (∀ (s : InMemState) (ht : HashedTree) (s₁ : InMemState)
        (r : StrongReference), InMem.WF s →
      InMem.storeTree s ht = (s₁, .ok r) →
      ∃ s₂ res, InMem.loadTree s₁ ht.digest = (s₂, .ok res) ∧
        res.delayedTree.hash = some ht) ∧
    (∀ (s : SQLiteState) (ht : HashedTree) (s₁ : SQLiteState)
        (r : StrongReference), SQLite.WF s →
      SQLite.storeTree s ht = (s₁, .ok r) →
      ∃ s₂ res, SQLite.loadTree s₁ ht.digest = (s₂, .ok res) ∧
        res.delayedTree.hash = some ht) :=
  ⟨fun s ht s₁ r hwf h => InMem.storeTree_then_loadTree s ht s₁ r hwf h,
   fun s ht s₁ r hwf h => SQLite.storeTree_sql_then_loadTree s ht s₁ r hwf h⟩

/-- Witness for C1: a parent with one child stored over an in-memory map
already holding the child, and a leaf stored into an empty SQLite store, both
load back as trees hashing to the stored tree. -/
theorem c1_store_then_load_roundtrip_witness :
    (∃ s₂ res, InMem.loadTree
        (InMem.storeTree [(sampleLeaf.digest, ⟨sampleLeaf, 1, []⟩)]
          sampleParent).1 sampleParent.digest = (s₂, .ok res) ∧
      res.delayedTree.hash = some sampleParent) ∧
    (∃ s₂ res, SQLite.loadTree
        (SQLite.storeTree SQLite.emptyState sampleLeaf).1 sampleLeaf.digest =
        (s₂, .ok res) ∧ res.delayedTree.hash = some sampleLeaf) :=
  ⟨c1_store_then_load_roundtrip.1 [(sampleLeaf.digest, ⟨sampleLeaf, 1, []⟩)]
      sampleParent _ _ (by unfold InMem.WF; decide) rfl,
   c1_store_then_load_roundtrip.2 SQLite.emptyState sampleLeaf _ _
      (by unfold SQLite.WF
          refine ⟨?_, ?_, ?_, ?_⟩ <;> simp [SQLite.emptyState]) rfl⟩

/- dogbox/dogbox_tree_editor/src/segmented_blob.rs is not in src/; the
functions below are modelled from the spec (section 4.8), with the tree
shapes cross-checked against segmented_blob_tests.rs: a trailing singleton
chunk stays a bare digest, and inner index nodes carry the cumulative
(assumed-full-block) size of their subtree. -/

/-- Modelled from the spec: the postcard serialization of
`SegmentedBlob { size_in_bytes: u64 }` is the LEB128-style varint of the
size; 10 seven-bit groups cover every `u64`. -/
def postcardU64go : Nat → Nat → List Nat
  | 0, n => [n % 128]
  | fuel + 1, n =>
    if n < 128 then [n] else (n % 128 + 128) :: postcardU64go fuel (n / 128)

/-- Modelled from the spec: postcard encoding of a `u64`. -/
def postcardU64 (n : Nat) : List Nat := postcardU64go 10 n

/-- Varint decoding step: returns the decoded value and the remaining
bytes. -/
def postcardU64decGo : List Nat → Option (Nat × List Nat)
  | [] => none
  | b :: rest =>
    if b < 128 then some (b, rest)
    else
      match postcardU64decGo rest with
      | some (n, rest') => some (n * 128 + (b - 128), rest')
      | none => none

/-- Modelled from the spec: postcard decoding of a `u64` occupying the whole
input. -/
def postcardU64dec (l : List Nat) : Option Nat :=
  match postcardU64decGo l with
  | some (n, []) => some n
  | _ => none

theorem postcardU64go_round :
    ∀ (fuel n : Nat), n < 128 ^ fuel → ∀ tail,
    postcardU64decGo (postcardU64go fuel n ++ tail) = some (n, tail) := by
  intro fuel
  induction fuel with
  | zero =>
    intro n hn tail
    interval_cases n
    rfl
  | succ fuel ih =>
    intro n hn tail
    by_cases h : n < 128
    · rw [postcardU64go, if_pos h]
      simp [postcardU64decGo, h]
    · rw [postcardU64go, if_neg h]
      simp only [List.cons_append, postcardU64decGo]
      rw [if_neg (by omega)]
      simp only [List.append_eq]
      have hdiv : n / 128 < 128 ^ fuel := by
        have h128 : 0 < 128 := by norm_num
        rw [Nat.div_lt_iff_lt_mul h128]
        calc n < 128 ^ (fuel + 1) := hn
        _ = 128 ^ fuel * 128 := by ring
      rw [ih (n / 128) hdiv tail]
      show some (n / 128 * 128 + (n % 128 + 128 - 128), tail) = some (n, tail)
      have harith : n / 128 * 128 + (n % 128 + 128 - 128) = n := by omega
      rw [harith]

theorem postcardU64dec_round (n : Nat) (hn : n < 2 ^ 64) :
    postcardU64dec (postcardU64 n) = some n := by
  have hlt : n < 128 ^ 10 := by
    calc n < 2 ^ 64 := hn
    _ ≤ 128 ^ 10 := by norm_num
  have h := postcardU64go_round 10 n hlt []
  rw [List.append_nil] at h
  simp [postcardU64dec, postcardU64, h]

/-- Embeds astraea/src/storage.rs `InMemoryTreeStorage` (the plain
digest-to-tree map used by the segmented-blob tests and the fuzz target): the
`reference_to_tree` BTreeMap, keyed by digest. -/
abbrev SimpleStore : Type := List (BlobDigest × Tree)

/-- Embeds `StoreTree for InMemoryTreeStorage` of astraea/src/storage.rs:
insert under the digest if absent (`entry(...).or_insert_with`), return the
digest. -/
def SimpleStore.store (st : SimpleStore) (ht : HashedTree) :
    SimpleStore × BlobDigest :=
  match lookupA ht.digest st with
  | some _ => (st, ht.digest)
  | none => ((ht.digest, ht.tree) :: st, ht.digest)

/-- Entries of the plain map are keyed by the digest of their tree (the only
way in is `store_tree`, which keys by `tree.digest()`). -/
def StWF (st : SimpleStore) : Prop := ∀ p ∈ st, canonicalHash p.2 = p.1

theorem SimpleStore.store_digest (st : SimpleStore) (ht : HashedTree) :
    (SimpleStore.store st ht).2 = ht.digest := by
  unfold SimpleStore.store
  cases h : lookupA ht.digest st <;> simp [h]

theorem SimpleStore.store_preserves {st : SimpleStore} {ht : HashedTree}
    {d : BlobDigest} {t : Tree} (h : lookupA d st = some t) :
    lookupA d (SimpleStore.store st ht).1 = some t := by
  unfold SimpleStore.store
  cases hl : lookupA ht.digest st with
  | some _ => exact h
  | none =>
    rw [lookupA_cons]
    by_cases hd : ht.digest = d
    · rw [hd] at hl
      rw [hl] at h
      cases h
    · rw [if_neg hd]
      exact h

theorem SimpleStore.store_lookup_self {st : SimpleStore} (ht : HashedTree)
    (hwf : StWF st) :
    lookupA ht.digest (SimpleStore.store st ht).1 = some ht.tree := by
  unfold SimpleStore.store
  cases hl : lookupA ht.digest st with
  | some t₀ =>
    have hmem : (ht.digest, t₀) ∈ st := lookupA_mem hl
    have h1 : canonicalHash t₀ = ht.digest := hwf (ht.digest, t₀) hmem
    have h2 : canonicalHash ht.tree = ht.digest := ht.valid.symm
    have : t₀ = ht.tree := canonicalHash_injective (h1.trans h2.symm)
    rw [hl, this]
  | none =>
    rw [lookupA_cons, if_pos rfl]

theorem StWF.store {st : SimpleStore} (hwf : StWF st) (ht : HashedTree) :
    StWF (SimpleStore.store st ht).1 := by
  unfold SimpleStore.store
  cases hl : lookupA ht.digest st with
  | some _ => exact hwf
  | none =>
    intro p hp
    rcases List.mem_cons.mp hp with h | h
    · rw [h]
      exact ht.valid.symm
    · exact hwf p h

theorem StWF.lookup_of_mem {st : SimpleStore} (hwf : StWF st)
    {d : BlobDigest} {t : Tree} (hmem : (d, t) ∈ st) :
    lookupA d st = some t := by
  induction st with
  | nil => cases hmem
  | cons p rest ih =>
    obtain ⟨k, v⟩ := p
    rw [lookupA_cons]
    rcases List.mem_cons.mp hmem with h | h
    · injection h with h1 h2
      subst h1
      rw [if_pos rfl, h2]
    · by_cases hk : k = d
      · subst hk
        have h1 : canonicalHash v = k := hwf (k, v) (List.mem_cons_self _ _)
        have h2 : canonicalHash t = k := hwf (k, t) (List.mem_cons_of_mem _ h)
        have hvt : v = t := canonicalHash_injective (h1.trans h2.symm)
        rw [if_pos rfl, hvt]
      · rw [if_neg hk]
        exact ih (fun p hp => hwf p (List.mem_cons_of_mem _ hp)) h

/-- Modelled from the spec: `slice::chunks(k)` — groups of `k`, the last one
possibly shorter, earlier elements in earlier groups. -/
def chunksOf {α : Type} (k : Nat) : List α → List (List α)
  | [] => []
  | a :: rest =>
    (a :: rest).take (max k 1) :: chunksOf k ((a :: rest).drop (max k 1))
termination_by l => l.length
decreasing_by
  simp only [List.length_drop, List.length_cons]
  omega

theorem chunksOf_cons {α : Type} {k : Nat} (hk : 1 ≤ k) (a : α)
    (rest : List α) :
    chunksOf k (a :: rest) =
      (a :: rest).take k :: chunksOf k ((a :: rest).drop k) := by
  rw [chunksOf]
  rw [Nat.max_eq_left hk]

theorem chunksOf_join {α : Type} {k : Nat} (hk : 1 ≤ k) :
    ∀ l : List α, (chunksOf k l).flatten = l := by
  have main : ∀ (n : Nat) (l : List α), l.length = n →
      (chunksOf k l).flatten = l := by
    intro n
    induction n using Nat.strong_induction_on with
    | _ n ih =>
      intro l hn
      cases l with
      | nil => simp [chunksOf]
      | cons a rest =>
        simp only [List.length_cons] at hn
        rw [chunksOf_cons hk]
        simp only [List.flatten_cons]
        rw [ih (((a :: rest).drop k).length) (by simp; omega) _ rfl]
        exact List.take_append_drop k (a :: rest)
  exact fun l => main l.length l rfl

theorem chunksOf_ne_nil {α : Type} {k : Nat} (hk : 1 ≤ k) :
    ∀ l : List α, ∀ g ∈ chunksOf k l, g ≠ [] := by
  have main : ∀ (n : Nat) (l : List α), l.length = n →
      ∀ g ∈ chunksOf k l, g ≠ [] := by
    intro n
    induction n using Nat.strong_induction_on with
    | _ n ih =>
      intro l hn
      cases l with
      | nil => intro g hg; rw [chunksOf] at hg; cases hg
      | cons a rest =>
        simp only [List.length_cons] at hn
        intro g hg
        rw [chunksOf_cons hk] at hg
        rcases List.mem_cons.mp hg with h | h
        · rw [h]
          intro hcon
          have hl := congrArg List.length hcon
          simp at hl
          omega
        · exact ih (((a :: rest).drop k).length) (by simp; omega) _ rfl g h
  exact fun l => main l.length l rfl

theorem chunksOf_two_le {α : Type} {k : Nat} (hk : 1 ≤ k) (l : List α)
    (hlen : k < l.length) : 2 ≤ (chunksOf k l).length := by
  cases l with
  | nil => simp at hlen
  | cons a rest =>
    simp only [List.length_cons] at hlen
    rw [chunksOf_cons hk]
    have hdrop : (a :: rest).drop k ≠ [] := by
      intro hcon
      have hlen0 := congrArg List.length hcon
      simp at hlen0
      omega
    cases hd : (a :: rest).drop k with
    | nil => exact absurd hd hdrop
    | cons b rest' =>
      rw [chunksOf_cons hk]
      simp

theorem chunksOf_forall₂ {α β : Type} {R : α → β → Prop} {k : Nat}
    (hk : 1 ≤ k) :
    ∀ (as : List α) (bs : List β), List.Forall₂ R as bs →
    List.Forall₂ (List.Forall₂ R) (chunksOf k as) (chunksOf k bs) := by
  have main : ∀ (n : Nat) (as : List α), as.length = n → ∀ (bs : List β),
      List.Forall₂ R as bs →
      List.Forall₂ (List.Forall₂ R) (chunksOf k as) (chunksOf k bs) := by
    intro n
    induction n using Nat.strong_induction_on with
    | _ n ih =>
      intro as hn bs hab
      cases as with
      | nil =>
        cases hab
        rw [chunksOf, chunksOf]
        exact List.Forall₂.nil
      | cons a rest =>
        cases bs with
        | nil => cases hab
        | cons b brest =>
          simp only [List.length_cons] at hn
          rw [chunksOf_cons hk, chunksOf_cons hk]
          refine List.Forall₂.cons (List.forall₂_take k hab) ?_
          have hdropf := List.forall₂_drop k hab
          exact ih (((a :: rest).drop k).length) (by simp; omega)
            ((a :: rest).drop k) rfl ((b :: brest).drop k) hdropf
  exact fun as bs hab => main as.length as rfl bs hab

/-- Modelled from the spec: build one segmented-blob index tree whose blob is
the postcard-encoded `SegmentedBlob { size_in_bytes }` and whose children are
the given digests, surfacing `TreeSerializationError` when a bound is
exceeded. -/
def mkIndexTree (size : Nat) (children : List BlobDigest) :
    Except StoreError Tree :=
  match TreeBlob.tryFrom (postcardU64 size) with
  | none => .error (.treeSerializationError .blobTooLong)
  | some blob =>
    match TreeChildren.tryFrom children with
    | none => .error (.treeSerializationError .tooManyChildren)
    | some cs => .ok ⟨blob, cs⟩

/-- Modelled from the spec: store one index tree per chunk — a singleton
chunk stays the bare digest of its only member (segmented_blob_tests.rs,
`test_save_segmented_blob_one_indirection`), any larger chunk becomes an
index node whose recorded size is the cumulative size of its members. -/
def saveGroups : SimpleStore → List (List (BlobDigest × Nat)) →
    Except StoreError (SimpleStore × List (BlobDigest × Nat))
  | st, [] => .ok (st, [])
  | st, [p] :: rest =>
    match saveGroups st rest with
    | .error e => .error e
    | .ok (st', ps) => .ok (st', p :: ps)
  | st, g :: rest =>
    match mkIndexTree ((g.map (fun p => p.2)).sum) (g.map (fun p => p.1)) with
    | .error e => .error e
    | .ok t =>
      let stored := SimpleStore.store st (HashedTree.fromTree t)
      match saveGroups stored.1 rest with
      | .error e => .error e
      | .ok (st', ps) =>
        .ok (st', (stored.2, (g.map (fun p => p.2)).sum) :: ps)

/-- Modelled from the spec: recursion of `save_segmented_blob` over the
current layer of (digest, subtree size) pairs — empty is `Unrepresentable`, a
single pair is returned bare, a layer that fits becomes the root index tree
carrying the caller's `total_size`, and a larger layer is chunked, each chunk
saved, and the recursion continues on the chunk digests.  `fuel` only bounds
the recursion depth; one more than the layer length always suffices. -/
def saveGo : Nat → SimpleStore → Nat → Nat → List (BlobDigest × Nat) →
    Except StoreError (SimpleStore × BlobDigest)
  | 0, _, _, _, _ => .error (.corruptedStorage "recursion fuel exhausted")
  | _ + 1, _, _, _, [] => .error .unrepresentable
  | _ + 1, st, _, _, [p] => .ok (st, p.1)
  | fuel + 1, st, maxC, totalSize, p :: q :: rest =>
    if (p :: q :: rest).length ≤ maxC then
      match mkIndexTree totalSize ((p :: q :: rest).map (fun x => x.1)) with
      | .error e => .error e
      | .ok t => .ok (SimpleStore.store st (HashedTree.fromTree t))
    else
      match saveGroups st (chunksOf maxC (p :: q :: rest)) with
      | .error e => .error e
      | .ok (st₁, newPairs) => saveGo fuel st₁ maxC totalSize newPairs

/-- Modelled from the spec: `save_segmented_blob` — each segment enters the
recursion assumed to cover a full `TREE_BLOB_MAX_LENGTH` block. -/
def saveSegmentedBlob (st : SimpleStore) (segments : List BlobDigest)
    (totalSize maxC : Nat) : Except StoreError (SimpleStore × BlobDigest) :=
  saveGo (segments.length + 1) st maxC totalSize
    (segments.map (fun d => (d, TREE_BLOB_MAX_LENGTH)))

/-- Modelled from the spec: flatten index children left-to-right until
reaching leaves (trees without children); `fuel` bounds the recursion. -/
def flattenLeaves (st : SimpleStore) : Nat → List BlobDigest →
    Except LoadError (List BlobDigest)
  | 0, _ => .error (.rusqlite "recursion fuel exhausted")
  | _ + 1, [] => .ok []
  | fuel + 1, d :: rest =>
    match lookupA d st with
    | none => .error (.treeNotFound d)
    | some t =>
      if t.children.val = [] then
        (flattenLeaves st fuel rest).map (fun segs => d :: segs)
      else
        match flattenLeaves st fuel t.children.val,
            flattenLeaves st fuel rest with
        | .ok inner, .ok outer => .ok (inner ++ outer)
        | .error e, _ => .error e
        | _, .error e => .error e

/-- Modelled from the spec: `load_segmented_blob` — a childless root is a
single segment whose size is its blob length; otherwise decode the blob as
`SegmentedBlob` and flatten the children to the leaf digests. -/
def loadSegmentedBlob (st : SimpleStore) (root : BlobDigest) (fuel : Nat) :
    Except LoadError (List BlobDigest × Nat) :=
  match lookupA root st with
  | none => .error (.treeNotFound root)
  | some t =>
    if t.children.val = [] then .ok ([root], t.blob.val.length)
    else
      match postcardU64dec t.blob.val with
      | none => .error (.deserialization root .blobTooLong)
      | some size =>
        (flattenLeaves st fuel t.children.val).map (fun segs => (segs, size))

theorem TreeBlob.tryFrom_some {l : List Nat} {b : TreeBlob}
    (h : TreeBlob.tryFrom l = some b) : b.val = l := by
  unfold TreeBlob.tryFrom at h
  by_cases hl : l.length ≤ TREE_BLOB_MAX_LENGTH
  · rw [dif_pos hl] at h
    injection h with h
    rw [← h]
  · rw [dif_neg hl] at h
    cases h

theorem TreeChildren.tryFrom_children_some {l : List BlobDigest} {c : TreeChildren}
    (h : TreeChildren.tryFrom l = some c) : c.val = l := by
  unfold TreeChildren.tryFrom at h
  by_cases hl : l.length ≤ TREE_MAX_CHILDREN
  · rw [dif_pos hl] at h
    injection h with h
    rw [← h]
  · rw [dif_neg hl] at h
    cases h

theorem mkIndexTree_ok {size : Nat} {children : List BlobDigest} {t : Tree}
    (h : mkIndexTree size children = .ok t) :
    t.blob.val = postcardU64 size ∧ t.children.val = children := by
  unfold mkIndexTree at h
  cases hb : TreeBlob.tryFrom (postcardU64 size) with
  | none => rw [hb] at h; cases h
  | some blob =>
    rw [hb] at h
    cases hc : TreeChildren.tryFrom children with
    | none => rw [hc] at h; cases h
    | some cs =>
      rw [hc] at h
      injection h with h
      rw [← h]
      exact ⟨TreeBlob.tryFrom_some hb, TreeChildren.tryFrom_children_some hc⟩

theorem flattenLeaves_mono (st : SimpleStore) :
    ∀ {fuel : Nat} {l : List BlobDigest} {r : List BlobDigest},
    flattenLeaves st fuel l = .ok r → flattenLeaves st (fuel + 1) l = .ok r := by
  intro fuel
  induction fuel with
  | zero => intro l r h; cases h
  | succ fuel ih =>
    intro l r h
    cases l with
    | nil => exact h
    | cons d rest =>
      simp only [flattenLeaves] at h ⊢
      cases hl : lookupA d st with
      | none => rw [hl] at h; cases h
      | some t =>
        simp only [hl] at h ⊢
        by_cases hleaf : t.children.val = []
        · rw [if_pos hleaf] at h ⊢
          cases hrest : flattenLeaves st fuel rest with
          | error e => rw [hrest] at h; cases h
          | ok r' =>
            rw [hrest] at h
            rw [ih hrest]
            exact h
        · rw [if_neg hleaf] at h ⊢
          cases hinner : flattenLeaves st fuel t.children.val with
          | error e =>
            rw [hinner] at h
            cases hrest : flattenLeaves st fuel rest with
            | error e' => rw [hrest] at h; cases h
            | ok outer => rw [hrest] at h; cases h
          | ok inner =>
            rw [hinner] at h
            cases hrest : flattenLeaves st fuel rest with
            | error e => rw [hrest] at h; cases h
            | ok outer =>
              rw [hrest] at h
              rw [ih hinner, ih hrest]
              exact h

theorem flattenLeaves_le (st : SimpleStore) {fuel fuel' : Nat}
    (hle : fuel ≤ fuel') {l : List BlobDigest} {r : List BlobDigest}
    (h : flattenLeaves st fuel l = .ok r) :
    flattenLeaves st fuel' l = .ok r := by
  induction hle with
  | refl => exact h
  | step _ ih => exact flattenLeaves_mono st ih

theorem flattenLeaves_extend {st st' : SimpleStore}
    (hext : ∀ d t, lookupA d st = some t → lookupA d st' = some t) :
    ∀ {fuel : Nat} {l : List BlobDigest} {r : List BlobDigest},
    flattenLeaves st fuel l = .ok r → flattenLeaves st' fuel l = .ok r := by
  intro fuel
  induction fuel with
  | zero => intro l r h; cases h
  | succ fuel ih =>
    intro l r h
    cases l with
    | nil => exact h
    | cons d rest =>
      simp only [flattenLeaves] at h ⊢
      cases hl : lookupA d st with
      | none => rw [hl] at h; cases h
      | some t =>
        simp only [hl] at h
        simp only [hext d t hl]
        by_cases hleaf : t.children.val = []
        · rw [if_pos hleaf] at h ⊢
          cases hrest : flattenLeaves st fuel rest with
          | error e => rw [hrest] at h; cases h
          | ok r' =>
            rw [hrest] at h
            rw [ih hrest]
            exact h
        · rw [if_neg hleaf] at h ⊢
          cases hinner : flattenLeaves st fuel t.children.val with
          | error e =>
            rw [hinner] at h
            cases hrest : flattenLeaves st fuel rest with
            | error e' => rw [hrest] at h; cases h
            | ok outer => rw [hrest] at h; cases h
          | ok inner =>
            rw [hinner] at h
            cases hrest : flattenLeaves st fuel rest with
            | error e => rw [hrest] at h; cases h
            | ok outer =>
              rw [hrest] at h
              rw [ih hinner, ih hrest]
              exact h

theorem flattenLeaves_append (st : SimpleStore) :
    ∀ {f₁ : Nat} {l₁ r₁ : List BlobDigest},
    flattenLeaves st f₁ l₁ = .ok r₁ →
    ∀ {f₂ : Nat} {l₂ r₂ : List BlobDigest},
    flattenLeaves st f₂ l₂ = .ok r₂ →
    ∃ f, flattenLeaves st f (l₁ ++ l₂) = .ok (r₁ ++ r₂) := by
  intro f₁
  induction f₁ with
  | zero => intro l₁ r₁ h; cases h
  | succ f₁ ih =>
    intro l₁ r₁ h₁ f₂ l₂ r₂ h₂
    cases l₁ with
    | nil =>
      simp only [flattenLeaves] at h₁
      injection h₁ with h₁
      subst h₁
      exact ⟨f₂, by simpa using h₂⟩
    | cons d rest =>
      simp only [flattenLeaves] at h₁
      cases hl : lookupA d st with
      | none => rw [hl] at h₁; cases h₁
      | some t =>
        simp only [hl] at h₁
        by_cases hleaf : t.children.val = []
        · rw [if_pos hleaf] at h₁
          cases hrest : flattenLeaves st f₁ rest with
          | error e => rw [hrest] at h₁; cases h₁
          | ok r' =>
            rw [hrest] at h₁
            injection h₁ with h₁
            subst h₁
            obtain ⟨f, hf⟩ := ih hrest h₂
            refine ⟨f + 1, ?_⟩
            simp only [List.cons_append, List.append_eq, flattenLeaves, hl]
            rw [if_pos hleaf, hf]
            rfl
        · rw [if_neg hleaf] at h₁
          cases hinner : flattenLeaves st f₁ t.children.val with
          | error e =>
            rw [hinner] at h₁
            cases hrest : flattenLeaves st f₁ rest with
            | error e' => rw [hrest] at h₁; cases h₁
            | ok outer => rw [hrest] at h₁; cases h₁
          | ok inner =>
            rw [hinner] at h₁
            cases hrest : flattenLeaves st f₁ rest with
            | error e => rw [hrest] at h₁; cases h₁
            | ok outer =>
              rw [hrest] at h₁
              injection h₁ with h₁
              subst h₁
              obtain ⟨f, hf⟩ := ih hrest h₂
              refine ⟨max f₁ f + 1, ?_⟩
              simp only [List.cons_append, List.append_eq, flattenLeaves, hl]
              rw [if_neg hleaf]
              rw [flattenLeaves_le st (Nat.le_max_left f₁ f) hinner]
              rw [flattenLeaves_le st (Nat.le_max_right f₁ f) hf]
              rw [List.append_assoc]

theorem flattenLeaves_forall₂ (st : SimpleStore) :
    ∀ {ds : List BlobDigest} {ls : List (List BlobDigest)},
    List.Forall₂ (fun d segs => ∃ f, flattenLeaves st f [d] = .ok segs) ds ls →
    ∃ f, flattenLeaves st f ds = .ok ls.flatten := by
  intro ds ls hall
  induction hall with
  | nil => exact ⟨1, rfl⟩
  | cons hhead _ ih =>
    obtain ⟨f₁, hf₁⟩ := hhead
    obtain ⟨f₂, hf₂⟩ := ih
    obtain ⟨f, hf⟩ := flattenLeaves_append st hf₁ hf₂
    exact ⟨f, by simpa using hf⟩

theorem flattenLeaves_leaf {st : SimpleStore} {d : BlobDigest} {t : Tree}
    (hl : lookupA d st = some t) (hleaf : t.children.val = []) :
    flattenLeaves st 2 [d] = .ok [d] := by
  simp only [flattenLeaves, hl, hleaf]
  rfl

theorem flattenLeaves_index {st : SimpleStore} {d : BlobDigest} {t : Tree}
    {segs : List BlobDigest} {f : Nat}
    (hl : lookupA d st = some t) (hne : ¬ t.children.val = [])
    (hf : 1 ≤ f) (h : flattenLeaves st f t.children.val = .ok segs) :
    flattenLeaves st (f + 1) [d] = .ok segs := by
  simp only [flattenLeaves, hl]
  rw [if_neg hne, h]
  cases f with
  | zero => omega
  | succ f' =>
    show Except.ok (segs ++ []) = Except.ok segs
    rw [List.append_nil]

theorem saveGroups_spec :
    ∀ (groups : List (List (BlobDigest × Nat)))
      (segGroups : List (List (List BlobDigest)))
      (st st₁ : SimpleStore) (newPairs : List (BlobDigest × Nat)),
    StWF st →
    List.Forall₂ (List.Forall₂
      (fun p segs => ∃ f, flattenLeaves st f [p.1] = .ok segs))
      groups segGroups →
    (∀ g ∈ groups, g ≠ []) →
    saveGroups st groups = .ok (st₁, newPairs) →
    StWF st₁ ∧ (∀ d t, lookupA d st = some t → lookupA d st₁ = some t) ∧
    newPairs.length = groups.length ∧
    List.Forall₂ (fun p segs => ∃ f, flattenLeaves st₁ f [p.1] = .ok segs)
      newPairs (segGroups.map List.flatten) := by
  intro groups
  induction groups with
  | nil =>
    intro segGroups st st₁ newPairs hwf hall hne h
    cases hall
    simp only [saveGroups] at h
    injection h with h
    injection h with h1 h2
    subst h1
    subst h2
    exact ⟨hwf, fun d t ht => ht, rfl, List.Forall₂.nil⟩
  | cons g rest ih =>
    intro segGroups st st₁ newPairs hwf hall hne h
    cases hall with
    | cons hg hrest' =>
      rename_i sg sgRest
      cases g with
      | nil => exact absurd rfl (hne [] (List.mem_cons_self _ _))
      | cons p g' =>
        cases g' with
        | nil =>
          simp only [saveGroups] at h
          cases hrec : saveGroups st rest with
          | error e => rw [hrec] at h; cases h
          | ok pr =>
            obtain ⟨st', ps⟩ := pr
            rw [hrec] at h
            injection h with h
            injection h with h1 h2
            subst h1
            subst h2
            obtain ⟨hwf₁, hext₁, hlen₁, hall₁⟩ := ih sgRest st _ ps hwf
              hrest' (fun g hgm => hne g (List.mem_cons_of_mem _ hgm)) hrec
            refine ⟨hwf₁, hext₁, by simp [hlen₁], ?_⟩
            simp only [List.map_cons]
            refine List.Forall₂.cons ?_ hall₁
            cases hg with
            | cons hp hnil =>
              cases hnil
              obtain ⟨f, hf⟩ := hp
              refine ⟨f, ?_⟩
              have hext' := flattenLeaves_extend hext₁ hf
              simpa using hext'
        | cons q g'' =>
          simp only [saveGroups] at h
          cases hmk : mkIndexTree (((p :: q :: g'').map (fun x => x.2)).sum)
              ((p :: q :: g'').map (fun x => x.1)) with
          | error e => rw [hmk] at h; cases h
          | ok t =>
            simp only [hmk] at h
            cases hrec : saveGroups
                (SimpleStore.store st (HashedTree.fromTree t)).1 rest with
            | error e => rw [hrec] at h; cases h
            | ok pr =>
              obtain ⟨st', ps⟩ := pr
              rw [hrec] at h
              injection h with h
              injection h with h1 h2
              subst h1
              subst h2
              have hwfS : StWF (SimpleStore.store st
                  (HashedTree.fromTree t)).1 := hwf.store _
              have hextS : ∀ d t', lookupA d st = some t' →
                  lookupA d (SimpleStore.store st
                    (HashedTree.fromTree t)).1 = some t' :=
                fun d t' ht' => SimpleStore.store_preserves ht'
              have hrestS : List.Forall₂ (List.Forall₂
                  (fun p segs => ∃ f, flattenLeaves (SimpleStore.store st
                    (HashedTree.fromTree t)).1 f [p.1] = .ok segs))
                  rest sgRest :=
                hrest'.imp (fun _ _ hgg => hgg.imp
                  (fun _ _ hpf => ⟨hpf.choose, flattenLeaves_extend hextS
                    hpf.choose_spec⟩))
              obtain ⟨hwf₁, hext₁, hlen₁, hall₁⟩ := ih sgRest _ _ ps hwfS
                hrestS (fun g hgm => hne g (List.mem_cons_of_mem _ hgm)) hrec
              refine ⟨hwf₁, fun d t' ht' => hext₁ d t' (hextS d t' ht'),
                by simp [hlen₁], ?_⟩
              simp only [List.map_cons]
              refine List.Forall₂.cons ?_ hall₁
              -- the new pair's digest flattens to the chunk's segments
              obtain ⟨hblob, hchildren⟩ := mkIndexTree_ok hmk
              have hlookS : lookupA (HashedTree.fromTree t).digest
                  (SimpleStore.store st (HashedTree.fromTree t)).1 = some t :=
                SimpleStore.store_lookup_self _ hwf
              have hlook₁ : lookupA (HashedTree.fromTree t).digest st' =
                  some t := hext₁ _ _ hlookS
              have hgS : List.Forall₂
                  (fun p segs => ∃ f, flattenLeaves st' f [p.1] = .ok segs)
                  (p :: q :: g'') sg :=
                hg.imp (fun _ _ hpf => ⟨hpf.choose, flattenLeaves_extend
                  (fun d t' ht' => hext₁ d t' (hextS d t' ht'))
                  hpf.choose_spec⟩)
              have hgMap : List.Forall₂
                  (fun d segs => ∃ f, flattenLeaves st' f [d] = .ok segs)
                  ((p :: q :: g'').map (fun x => x.1)) sg :=
                List.forall₂_map_left_iff.mpr hgS
              obtain ⟨F, hF⟩ := flattenLeaves_forall₂ st' hgMap
              have hF' : flattenLeaves st' (F + 1) t.children.val =
                  .ok sg.flatten := by
                rw [hchildren]
                exact flattenLeaves_mono st' hF
              have hne' : ¬ t.children.val = [] := by
                rw [hchildren]
                simp
              have hflat := flattenLeaves_index hlook₁ hne'
                (Nat.succ_le_succ (Nat.zero_le F)) hF'
              refine ⟨F + 1 + 1, ?_⟩
              have hdig : (SimpleStore.store st (HashedTree.fromTree t)).2 =
                  (HashedTree.fromTree t).digest :=
                SimpleStore.store_digest st (HashedTree.fromTree t)
              rw [hdig]
              exact hflat

theorem saveGo_spec (maxC : Nat) (hmax : 2 ≤ maxC) :
    ∀ (fuel : Nat) (st : SimpleStore) (pairs : List (BlobDigest × Nat))
      (segGroups : List (List BlobDigest)) (totalSize : Nat)
      (st' : SimpleStore) (root : BlobDigest),
    StWF st →
    List.Forall₂ (fun p segs => ∃ f, flattenLeaves st f [p.1] = .ok segs)
      pairs segGroups →
    2 ≤ pairs.length →
    saveGo fuel st maxC totalSize pairs = .ok (st', root) →
    StWF st' ∧ (∀ d t, lookupA d st = some t → lookupA d st' = some t) ∧
    ∃ t, lookupA root st' = some t ∧
      t.blob.val = postcardU64 totalSize ∧
      ¬ t.children.val = [] ∧
      ∃ f, flattenLeaves st' f t.children.val = .ok segGroups.flatten := by
  have hk1 : 1 ≤ maxC := by omega
  intro fuel
  induction fuel with
  | zero => intro st pairs segGroups totalSize st' root _ _ _ h; cases h
  | succ fuel ih =>
    intro st pairs segGroups totalSize st' root hwf hall hlen h
    cases pairs with
    | nil => simp at hlen
    | cons p rest0 =>
      cases rest0 with
      | nil => simp at hlen
      | cons q rest =>
        simp only [saveGo] at h
        by_cases hfit : (p :: q :: rest).length ≤ maxC
        · rw [if_pos hfit] at h
          cases hmk : mkIndexTree totalSize
              ((p :: q :: rest).map (fun x => x.1)) with
          | error e => rw [hmk] at h; cases h
          | ok t =>
            simp only [hmk] at h
            injection h with h
            have h1 : (SimpleStore.store st (HashedTree.fromTree t)).1 = st' :=
              congrArg Prod.fst h
            have h2 : (SimpleStore.store st (HashedTree.fromTree t)).2 =
              root := congrArg Prod.snd h
            subst h1
            subst h2
            have hext : ∀ d t', lookupA d st = some t' →
                lookupA d (SimpleStore.store st
                  (HashedTree.fromTree t)).1 = some t' :=
              fun d t' ht' => SimpleStore.store_preserves ht'
            refine ⟨hwf.store _, hext, t, ?_, (mkIndexTree_ok hmk).1, ?_, ?_⟩
            · rw [SimpleStore.store_digest]
              exact SimpleStore.store_lookup_self _ hwf
            · rw [(mkIndexTree_ok hmk).2]
              simp
            · have hallS : List.Forall₂ (fun (pr : BlobDigest × Nat) segs =>
                  ∃ f, flattenLeaves (SimpleStore.store st
                    (HashedTree.fromTree t)).1 f [pr.1] = .ok segs)
                  (p :: q :: rest) segGroups :=
                hall.imp (fun _ _ hpf =>
                  ⟨hpf.choose, flattenLeaves_extend hext hpf.choose_spec⟩)
              have hMap : List.Forall₂ (fun d segs =>
                  ∃ f, flattenLeaves (SimpleStore.store st
                    (HashedTree.fromTree t)).1 f [d] = .ok segs)
                  ((p :: q :: rest).map (fun x => x.1)) segGroups :=
                List.forall₂_map_left_iff.mpr hallS
              obtain ⟨F, hF⟩ := flattenLeaves_forall₂ _ hMap
              refine ⟨F, ?_⟩
              rw [(mkIndexTree_ok hmk).2]
              exact hF
        · rw [if_neg hfit] at h
          cases hrec : saveGroups st (chunksOf maxC (p :: q :: rest)) with
          | error e => rw [hrec] at h; cases h
          | ok pr =>
            obtain ⟨st₁, newPairs⟩ := pr
            rw [hrec] at h
            have h' : saveGo fuel st₁ maxC totalSize newPairs =
              .ok (st', root) := h
            have hchunkF := chunksOf_forall₂ hk1 (p :: q :: rest) segGroups
              hall
            obtain ⟨hwf₁, hext₁, hlen₁, hall₁⟩ := saveGroups_spec
              (chunksOf maxC (p :: q :: rest)) (chunksOf maxC segGroups)
              st st₁ newPairs hwf hchunkF
              (chunksOf_ne_nil hk1 (p :: q :: rest)) hrec
            have hlen2 : 2 ≤ newPairs.length := by
              rw [hlen₁]
              refine chunksOf_two_le hk1 _ ?_
              simpa using Nat.lt_of_not_le hfit
            obtain ⟨hwf', hext', t, hlookup, hblob, hne', F, hF⟩ :=
              ih st₁ newPairs ((chunksOf maxC segGroups).map List.flatten)
                totalSize st' root hwf₁ hall₁ hlen2 h'
            refine ⟨hwf', fun d t' ht' => hext' d t' (hext₁ d t' ht'), t,
              hlookup, hblob, hne', F, ?_⟩
            rw [hF]
            have hjj : ((chunksOf maxC segGroups).map List.flatten).flatten =
                segGroups.flatten := by
              rw [← List.flatten_flatten, chunksOf_join hk1]
            rw [hjj]

/-- C7 (amended): for segments that are stored LEAF trees (no children —
which is how every caller produces them), a non-empty segment list,
`2 ≤ max_children_per_tree` and a `u64` total size, `load_segmented_blob`
after a successful `save_segmented_blob` returns exactly the original
segment digests in order, with the saved total size when there is more than
one segment; a single segment is returned bare (its own digest, with its
blob length as the size).  Without the leaf requirement the round-trip
fails, because `load` flattens through any segment whose tree has
children. -/
theorem c7_segmented_blob_roundtrip_amended
    (st : SimpleStore) (segments : List BlobDigest) (totalSize maxC : Nat)
    (st' : SimpleStore) (root : BlobDigest)
    (hwf : StWF st)
    (hmax : 2 ≤ maxC)
    (hne : segments ≠ [])
    (hsize : totalSize < 2 ^ 64)
    (hleaf : ∀ d ∈ segments, ∃ p ∈ st, p.1 = d ∧ p.2.children.val = [])
    (hsave : saveSegmentedBlob st segments totalSize maxC = .ok (st', root)) :
    (segments.length = 1 → st' = st ∧ segments = [root]) ∧
    (2 ≤ segments.length →
      ∃ fuel, loadSegmentedBlob st' root fuel = .ok (segments, totalSize)) ∧
    (segments.length = 1 →
      ∃ fuel sz, loadSegmentedBlob st' root fuel = .ok (segments, sz)) := by
  have hleaf' : ∀ d ∈ segments, ∃ t, lookupA d st = some t ∧
      t.children.val = [] := by
    intro d hd
    obtain ⟨p, hp, hpd, hpleaf⟩ := hleaf d hd
    obtain ⟨k, tt⟩ := p
    subst hpd
    exact ⟨tt, hwf.lookup_of_mem hp, hpleaf⟩
  cases segments with
  | nil => exact absurd rfl hne
  | cons d0 segs0 =>
    cases segs0 with
    | nil =>
      have hsave' : saveSegmentedBlob st [d0] totalSize maxC =
        .ok (st, d0) := rfl
      have heq := hsave'.symm.trans hsave
      injection heq with heq
      injection heq with h1 h2
      subst h1
      subst h2
      obtain ⟨t, hl, hleafT⟩ := hleaf' d0 (List.mem_cons_self _ _)
      refine ⟨fun _ => ⟨rfl, rfl⟩, fun hc => by simp at hc, fun _ => ?_⟩
      refine ⟨1, t.blob.val.length, ?_⟩
      simp [loadSegmentedBlob, hl, hleafT]
    | cons d1 segs =>
      have hallInit : List.Forall₂
          (fun p segs' => ∃ f, flattenLeaves st f [p.1] = .ok segs')
          ((d0 :: d1 :: segs).map (fun d => (d, TREE_BLOB_MAX_LENGTH)))
          ((d0 :: d1 :: segs).map (fun d => [d])) := by
        refine List.forall₂_map_left_iff.mpr ?_
        refine List.forall₂_map_right_iff.mpr ?_
        refine List.forall₂_same.mpr ?_
        intro d hd
        obtain ⟨t, hl, hleafT⟩ := hleaf' d hd
        exact ⟨2, flattenLeaves_leaf hl hleafT⟩
      unfold saveSegmentedBlob at hsave
      obtain ⟨hwf', hext', t, hlook, hblob, hneC, F, hF⟩ :=
        saveGo_spec maxC hmax _ st _ _ totalSize st' root hwf hallInit
          (by simp) hsave
      have hflatGen : ∀ l : List BlobDigest,
          (l.map (fun d => [d])).flatten = l := by
        intro l
        induction l with
        | nil => rfl
        | cons a r ihl => simp [ihl]
      rw [hflatGen] at hF
      refine ⟨fun h1 => by simp at h1, fun _ => ?_, fun h1 => by simp at h1⟩
      refine ⟨F, ?_⟩
      simp only [loadSegmentedBlob, hlook]
      rw [if_neg hneC]
      simp only [hblob, postcardU64dec_round totalSize hsize, hF]
      rfl

/-- Storage for the C7 counterexample: a leaf and a parent tree whose single
child is that leaf, both stored. -/
def c7CxStore : SimpleStore :=
  [(sampleParent.digest, sampleParentTree), (sampleLeaf.digest, sampleLeafTree)]

/-- C7 counterexample: the frozen claim omits that segments must be LEAF
trees.  Taking as single segment the digest of a stored tree that has a
child, `save_segmented_blob` returns that digest (single-segment rule), but
`load_segmented_blob` flattens through it and returns the child instead of
the segment, so the loaded segment list differs from the saved one. -/
theorem c7_counterexample_nonleaf_segment :
    saveSegmentedBlob c7CxStore [sampleParent.digest] 5 2 =
      .ok (c7CxStore, sampleParent.digest) ∧
    loadSegmentedBlob c7CxStore sampleParent.digest 3 =
      .ok ([sampleLeaf.digest], 1) ∧
    ([sampleLeaf.digest] : List BlobDigest) ≠ [sampleParent.digest] := by
  refine ⟨rfl, by decide, by decide⟩

/-- Second leaf tree for the C7 witness. -/
def c7Leaf2Tree : Tree := ⟨⟨[3], by decide⟩, ⟨[], by decide⟩⟩

def c7Leaf2 : HashedTree := HashedTree.fromTree c7Leaf2Tree

/-- Store holding the two leaves of the C7 witness. -/
def c7WitnessStore : SimpleStore :=
  [(sampleLeaf.digest, sampleLeafTree), (c7Leaf2.digest, c7Leaf2Tree)]

/-- Index tree that `save_segmented_blob` builds for the C7 witness. -/
def c7IndexTree : Tree :=
  ⟨⟨postcardU64 64001, by decide⟩,
   ⟨[sampleLeaf.digest, c7Leaf2.digest], by decide⟩⟩

/-- Witness for C7: two stored leaves, `max_children_per_tree = 2`, total
size 64001 — saving returns the index tree's digest and loading returns the
two original segments with the total size. -/
theorem c7_segmented_blob_roundtrip_amended_witness :
    (([sampleLeaf.digest, c7Leaf2.digest] : List BlobDigest).length = 1 →
      (canonicalHash c7IndexTree, c7IndexTree) :: c7WitnessStore =
        c7WitnessStore ∧
      [sampleLeaf.digest, c7Leaf2.digest] = [canonicalHash c7IndexTree]) ∧
    (2 ≤ ([sampleLeaf.digest, c7Leaf2.digest] : List BlobDigest).length →
      ∃ fuel, loadSegmentedBlob
        ((canonicalHash c7IndexTree, c7IndexTree) :: c7WitnessStore)
        (canonicalHash c7IndexTree) fuel =
        .ok ([sampleLeaf.digest, c7Leaf2.digest], 64001)) ∧
    (([sampleLeaf.digest, c7Leaf2.digest] : List BlobDigest).length = 1 →
      ∃ fuel sz, loadSegmentedBlob
        ((canonicalHash c7IndexTree, c7IndexTree) :: c7WitnessStore)
        (canonicalHash c7IndexTree) fuel =
        .ok ([sampleLeaf.digest, c7Leaf2.digest], sz)) :=
  c7_segmented_blob_roundtrip_amended c7WitnessStore
    [sampleLeaf.digest, c7Leaf2.digest] 64001 2
    ((canonicalHash c7IndexTree, c7IndexTree) :: c7WitnessStore)
    (canonicalHash c7IndexTree)
    (by unfold StWF; decide) (by decide) (by decide) (by decide) (by decide)
    rfl

/- dogbox/dogbox_tree_editor/src/lib.rs: OpenFileContentBuffer.  The model
keeps the loaded buffer only (the claim is about loaded buffers), abstracts
the value storage away (`store_value` always succeeds and returns the
canonical digest; the bytes behind a `NotLoaded` block are zeroes of the
recorded length, which `OpenFileContentBlock::load` enforces to be the
length of whatever is stored), drops the read-only prefetcher, and turns
every `assert!`/`unwrap` on the write path into an error.  `u16` casts in
the Rust code (`block.size()`, `remaining_capacity`) do not wrap as long as
block lengths stay within `VALUE_BLOB_MAX_LENGTH = 64000 < 2^16`, which is
the invariant being verified, so sizes are modelled as `Nat`. -/

/-- Embeds `OpenFileContentBlock` (with `LoadedBlock` folded in): a block is
either not loaded (digest + size), loaded with a known digest (the blob
bytes of the hashed value), or loaded with an unknown digest (plain
bytes). -/
inductive FileBlock : Type where
  | notLoaded (digest : BlobDigest) (size : Nat)
  | knownDigest (content : List Nat)
  | unknownDigest (content : List Nat)
deriving DecidableEq

namespace FileBlock

/-- Embeds `OpenFileContentBlock::size`. -/
def size : FileBlock → Nat
  | .notLoaded _ s => s
  | .knownDigest c => c.length
  | .unknownDigest c => c.length

/-- The bytes `access_content_for_writing` sees: loading a `NotLoaded` block
yields bytes of exactly the recorded length (enforced by
`OpenFileContentBlock::load`); the model takes zeroes. -/
def content : FileBlock → List Nat
  | .notLoaded _ s => List.replicate s 0
  | .knownDigest c => c
  | .unknownDigest c => c

theorem content_length (b : FileBlock) : b.content.length = b.size := by
  cases b <;> simp [content, size]

end FileBlock

/-- Embeds the data manipulation of `OpenFileContentBlock::write`: overwrite
from `pos` (zero-padding if `pos` is past the end), then extend by whatever
fits into `VALUE_BLOB_MAX_LENGTH`, returning the new bytes and the rejected
rest. -/
def blockWrite (c : List Nat) (pos : Nat) (buf : List Nat) :
    List Nat × List Nat :=
  let stage :=
    if pos ≤ c.length then
      let can := min (c.length - pos) buf.length
      (c.take pos ++ buf.take can ++ c.drop (pos + can), buf.drop can)
    else
      (c ++ List.replicate (pos - c.length) 0, buf)
  let ext := min stage.2.length (TREE_BLOB_MAX_LENGTH - stage.1.length)
  (stage.1 ++ stage.2.take ext, stage.2.drop ext)

/-- Embeds `OpenFileContentBlock::write` at the block level: the result is
always a `Loaded(UnknownDigest)` block (`access_content_for_writing`
converts), plus the rejected rest. -/
def FileBlock.writeAt (b : FileBlock) (pos : Nat) (buf : List Nat) :
    FileBlock × List Nat :=
  let r := blockWrite b.content pos buf
  (.unknownDigest r.1, r.2)

/-- Embeds `OpenFileContentBlock::try_store`: a `NotLoaded` block returns its
digest, a `KnownDigest` block is stored and dropped to `NotLoaded`, an
`UnknownDigest` block is hashed and stored only when allowed.  The storage
itself is abstract (`store_value` returns the canonical digest of the
blob-only tree). -/
def FileBlock.tryStore (allowHash : Bool) :
    FileBlock → Except StoreError (FileBlock × Option BlobDigest)
  | .notLoaded d s => .ok (.notLoaded d s, some d)
  | .knownDigest c => .ok (.notLoaded (.mk c []) c.length, some (.mk c []))
  | .unknownDigest c =>
    if allowHash then
      if c.length ≤ TREE_BLOB_MAX_LENGTH then
        .ok (.notLoaded (.mk c []) c.length, some (.mk c []))
      else .error (.treeSerializationError .blobTooLong)
    else .ok (.unknownDigest c, none)

/-- Embeds `DigestStatus`. -/
structure DigestStatus : Type where
  lastKnownDigest : BlobDigest
  isDigestUpToDate : Bool
deriving DecidableEq

/-- Embeds `OpenFileContentBufferLoaded` (without the read-only
prefetcher). -/
structure OpenFileContentBufferLoaded : Type where
  size : Nat
  blocks : List FileBlock
  digest : DigestStatus
  lastKnownDigestFileSize : Nat
  dirtyBlocks : List Nat
  writeBufferInBlocks : Nat
deriving DecidableEq

namespace OpenBuffer

/-- Embeds `verify_integrity`: every block is at most `BLOB_MAX` long and
every block but the last is exactly `BLOB_MAX` long (the `assert!`s are
modelled as a boolean check). -/
def integrityCheck : List FileBlock → Bool
  | [] => true
  | [b] => decide (b.size ≤ TREE_BLOB_MAX_LENGTH)
  | b :: rest =>
    decide (b.size = TREE_BLOB_MAX_LENGTH) && integrityCheck rest

/-- Embeds `update_digest` (the returned `StoreChanges` is dropped). -/
def updateDigest (s : OpenFileContentBufferLoaded) (d : BlobDigest) :
    OpenFileContentBufferLoaded :=
  { s with digest := ⟨d, true⟩
           lastKnownDigestFileSize := s.size }

/-- Loop of `store_cheap_blocks`: walk `dirty_blocks` with a skip cursor; a
block whose digest is already cheap to produce is stored and the FRONT of
the deque is popped (the source pops the front even when the cursor has
skipped entries); otherwise the cursor advances.  `fuel` bounds the loop;
`2 * dirty.length` always suffices. -/
def storeCheapGo : Nat → Nat → List Nat → List FileBlock →
    Except StoreError (List Nat × List FileBlock)
  | 0, _, dirty, blocks => .ok (dirty, blocks)
  | fuel + 1, skipped, dirty, blocks =>
    match dirty[skipped]? with
    | none => .ok (dirty, blocks)
    | some index =>
      match blocks[index]? with
      | none => .error (.corruptedStorage "dirty block index out of range")
      | some b =>
        match FileBlock.tryStore false b with
        | .error e => .error e
        | .ok (b', od) =>
          let blocks' := blocks.set index b'
          match od with
          | some _ => storeCheapGo fuel skipped (dirty.drop 1) blocks'
          | none => storeCheapGo fuel (skipped + 1) dirty blocks'

/-- Embeds `store_cheap_blocks` (with `verify_integrity` at entry and
exit). -/
def storeCheapBlocks (s : OpenFileContentBufferLoaded) :
    Except StoreError OpenFileContentBufferLoaded :=
  if integrityCheck s.blocks then
    match storeCheapGo (2 * s.dirtyBlocks.length) 0 s.dirtyBlocks s.blocks with
    | .error e => .error e
    | .ok (dirty', blocks') =>
      if integrityCheck blocks' then
        .ok { s with dirtyBlocks := dirty', blocks := blocks' }
      else .error (.corruptedStorage "verify_integrity failed")
  else .error (.corruptedStorage "verify_integrity failed")

/-- Storing loop of `store_all`: every block is stored with
`allow_hash = true` and the digests are collected (`unwrap` on the option is
a model error; it cannot fire because `try_store(true, _)` always produces a
digest). -/
def storeAllBlocks : List FileBlock →
    Except StoreError (List FileBlock × List BlobDigest)
  | [] => .ok ([], [])
  | b :: rest =>
    match FileBlock.tryStore true b with
    | .error e => .error e
    | .ok (b', od) =>
      match od with
      | none => .error (.corruptedStorage "try_store(true) returned None")
      | some d =>
        (storeAllBlocks rest).map (fun r => (b' :: r.1, d :: r.2))

/-- Embeds `store_all`: store every block, then either promote the single
block digest to the file digest or store a segmented-blob root
(postcard-encoded size, block digests as children) and promote that;
`dirty_blocks` is cleared. -/
def storeAll (s : OpenFileContentBufferLoaded) :
    Except StoreError OpenFileContentBufferLoaded :=
  if integrityCheck s.blocks then
    match storeAllBlocks s.blocks with
    | .error e => .error e
    | .ok (blocks', digests) =>
      if integrityCheck blocks' then
        let s₁ := { s with blocks := blocks', dirtyBlocks := [] }
        match digests with
        | [] => .error (.corruptedStorage "assert blocks_stored >= 1")
        | [d] => .ok (updateDigest s₁ d)
        | _ =>
          .ok (updateDigest s₁ (.mk (postcardU64 s.size) digests))
      else .error (.corruptedStorage "verify_integrity failed")
  else .error (.corruptedStorage "verify_integrity failed")

/-- Embeds `OptimizedWriteBuffer`. -/
structure OptimizedWriteBuffer : Type where
  pre : List Nat
  fullBlocks : List (List Nat)
  suffix : List Nat

/-- Splits block-aligned bytes into full `BLOB_MAX` blocks and a remainder
shorter than `BLOB_MAX` (the hashing loop of
`OptimizedWriteBuffer::from_bytes`); `fuel` bounds the loop, the input
length always suffices. -/
def splitFullGo : Nat → List Nat → List (List Nat) × List Nat
  | 0, l => ([], l)
  | fuel + 1, l =>
    if l.length < TREE_BLOB_MAX_LENGTH then ([], l)
    else
      let r := splitFullGo fuel (l.drop TREE_BLOB_MAX_LENGTH)
      (l.take TREE_BLOB_MAX_LENGTH :: r.1, r.2)

/-- Embeds `OptimizedWriteBuffer::from_bytes`: split the bytes at the first
block boundary after `position` into a head shorter than the remaining
block capacity, whole blocks, and a remainder. -/
def OptimizedWriteBuffer.fromBytes (position : Nat) (content : List Nat) :
    OptimizedWriteBuffer :=
  let firstBlockOffset := position % TREE_BLOB_MAX_LENGTH
  let cap := TREE_BLOB_MAX_LENGTH - firstBlockOffset
  if firstBlockOffset = 0 ∧ TREE_BLOB_MAX_LENGTH ≤ content.length then
    let sp := splitFullGo content.length content
    ⟨[], sp.1, sp.2⟩
  else
    let headLen := min content.length cap
    let sp := splitFullGo (content.drop headLen).length (content.drop headLen)
    ⟨content.take headLen, sp.1, sp.2⟩

/-- Total length of the buffer (`OptimizedWriteBuffer::len`). -/
def OptimizedWriteBuffer.len (b : OptimizedWriteBuffer) : Nat :=
  b.pre.length + b.fullBlocks.length * TREE_BLOB_MAX_LENGTH + b.suffix.length

/-- Filler block appended when a write starts past the end of the file: an
entirely-zero full block with a known digest. -/
def zeroBlock : FileBlock :=
  .knownDigest (List.replicate TREE_BLOB_MAX_LENGTH 0)

/-- The `while first_block_index > blocks.len()` loop of `write`: append
zero filler blocks (each recorded dirty) until the first written block index
is reachable. -/
def pushFillers (s : OpenFileContentBufferLoaded) (first : Nat) :
    OpenFileContentBufferLoaded :=
  { s with blocks := s.blocks ++
      List.replicate (first - s.blocks.length) zeroBlock
           dirtyBlocks := s.dirtyBlocks ++
      List.range' s.blocks.length (first - s.blocks.length) }

/-- The back-fill step of `write`: when the write starts at or past the
current block count, pad the current last block with zeroes up to
`BLOB_MAX` (recording it dirty) and append zero filler blocks. -/
def backFill (s : OpenFileContentBufferLoaded) (first : Nat) :
    Except StoreError OpenFileContentBufferLoaded :=
  if s.blocks.length ≤ first then
    match s.blocks.getLast? with
    | none => .ok (pushFillers s first)
    | some lastB =>
      let w := lastB.writeAt lastB.size
        (List.replicate (TREE_BLOB_MAX_LENGTH - lastB.size) 0)
      if w.2 = [] then
        .ok (pushFillers
          { s with blocks := s.blocks.dropLast ++ [w.1]
                   dirtyBlocks := s.dirtyBlocks ++ [s.blocks.length - 1] }
          first)
      else .error (.corruptedStorage "back-fill write rejected bytes")
  else .ok s

/-- The head-of-write step of `write` (writing `buf.prefix`): nothing when
the head is empty and the write is block-aligned; otherwise write into (or
append after) the block at `next`.  The `assert!`s of the source are
errors. -/
def writePre (s : OpenFileContentBufferLoaded) (next pib : Nat)
    (pre : List Nat) :
    Except StoreError (OpenFileContentBufferLoaded × Nat) :=
  if pre = [] ∧ pib = 0 then .ok (s, next)
  else
    if pib = 0 ∧ TREE_BLOB_MAX_LENGTH ≤ pre.length then
      .error (.corruptedStorage "assert failed: prefix bounds")
    else
      if next = s.blocks.length then
        let bc := List.replicate pib 0 ++ pre
        if bc.length ≤ TREE_BLOB_MAX_LENGTH then
          .ok ({ s with blocks := s.blocks ++ [.unknownDigest bc]
                        dirtyBlocks := s.dirtyBlocks ++ [next] }, next + 1)
        else .error (.corruptedStorage "assert failed: block content too long")
      else
        match s.blocks[next]? with
        | none => .error (.corruptedStorage "block index out of range")
        | some b =>
          if TREE_BLOB_MAX_LENGTH ≤ pre.length ∨
              TREE_BLOB_MAX_LENGTH ≤ pib ∨
              ¬ pib + pre.length ≤ TREE_BLOB_MAX_LENGTH then
            .error (.corruptedStorage "assert failed: prefix bounds")
          else
            let w := b.writeAt pib pre
            if w.2 = [] then
              .ok ({ s with blocks := s.blocks.set next w.1
                            dirtyBlocks := s.dirtyBlocks ++ [next] },
                next + 1)
            else .error (.corruptedStorage "assert failed: remaining bytes")

/-- The full-blocks loop of `write`: each pre-hashed full block overwrites
(or appends at) the next index as a `KnownDigest` block. -/
def writeFulls (s : OpenFileContentBufferLoaded) (next : Nat) :
    List (List Nat) → OpenFileContentBufferLoaded × Nat
  | [] => (s, next)
  | fb :: rest =>
    let s' := if next = s.blocks.length then
        { s with blocks := s.blocks ++ [.knownDigest fb]
                 dirtyBlocks := s.dirtyBlocks ++ [next] }
      else
        { s with blocks := s.blocks.set next (.knownDigest fb)
                 dirtyBlocks := s.dirtyBlocks ++ [next] }
    writeFulls s' (next + 1) rest

/-- The tail step of `write` (writing `buf.suffix`) into or after the block
at `next`. -/
def writeSuffix (s : OpenFileContentBufferLoaded) (next : Nat)
    (suf : List Nat) : Except StoreError OpenFileContentBufferLoaded :=
  if suf = [] then .ok s
  else
    if next = s.blocks.length then
      .ok { s with blocks := s.blocks ++ [.unknownDigest suf]
                   dirtyBlocks := s.dirtyBlocks ++ [next] }
    else
      match s.blocks[next]? with
      | none => .error (.corruptedStorage "block index out of range")
      | some b =>
        let w := b.writeAt 0 suf
        if w.2 = [] then
          .ok { s with blocks := s.blocks.set next w.1
                       dirtyBlocks := s.dirtyBlocks ++ [next] }
        else .error (.corruptedStorage "assert failed: remaining bytes")

/-- Steps 3-8 of `OpenFileContentBuffer::write` after the dirty-block budget
check: outdate the digest, grow `size`, back-fill, then write head, full
blocks and tail. -/
def writeCore (s : OpenFileContentBufferLoaded) (position : Nat)
    (content : List Nat) : Except StoreError OpenFileContentBufferLoaded :=
  let buf := OptimizedWriteBuffer.fromBytes position content
  let s₁ := { s with digest := ⟨s.digest.lastKnownDigest, false⟩
                     size := max s.size (position + buf.len) }
  let first := position / TREE_BLOB_MAX_LENGTH
  match backFill s₁ first with
  | .error e => .error e
  | .ok s₂ =>
    match writePre s₂ first (position % TREE_BLOB_MAX_LENGTH) buf.pre with
    | .error e => .error e
    | .ok sn =>
      let r := writeFulls sn.1 sn.2 buf.fullBlocks
      writeSuffix r.1 r.2 buf.suffix

/-- Embeds `OpenFileContentBuffer::write` on a loaded buffer: flush cheap
blocks (and, if still over half the budget, everything) when the dirty
count reaches the write buffer budget, then perform the write. -/
def writeOp (s : OpenFileContentBufferLoaded) (position : Nat)
    (content : List Nat) : Except StoreError OpenFileContentBufferLoaded :=
  let flushed : Except StoreError OpenFileContentBufferLoaded :=
    if s.writeBufferInBlocks ≤ s.dirtyBlocks.length then
      match storeCheapBlocks s with
      | .error e => .error e
      | .ok s₁ =>
        if s₁.writeBufferInBlocks ≤ s₁.dirtyBlocks.length * 2 then
          storeAll s₁
        else .ok s₁
    else .ok s
  match flushed with
  | .error e => .error e
  | .ok s₂ => writeCore s₂ position content

/-- Embeds `OpenFile::truncate`: replace the content with
`from_data(vec![])` — one empty unknown-digest block, size 0, block 0
dirty — preserving the last known digest and its file size. -/
def truncateOp (s : OpenFileContentBufferLoaded) :
    OpenFileContentBufferLoaded :=
  { size := 0
    blocks := [.unknownDigest []]
    digest := ⟨s.digest.lastKnownDigest, false⟩
    lastKnownDigestFileSize := s.lastKnownDigestFileSize
    dirtyBlocks := [0]
    writeBufferInBlocks := s.writeBufferInBlocks }

end OpenBuffer

namespace OpenBuffer

def sumSizes (bs : List FileBlock) : Nat := (bs.map FileBlock.size).sum

/-- C5's invariant: a loaded buffer is non-empty, passes `verify_integrity`
(all blocks at most `BLOB_MAX`, all but the last exactly `BLOB_MAX`), and
its `size` field is the sum of the block lengths. -/
def Inv (s : OpenFileContentBufferLoaded) : Prop :=
  s.blocks ≠ [] ∧ integrityCheck s.blocks = true ∧ s.size = sumSizes s.blocks

theorem integrityCheck_iff (bs : List FileBlock) :
    integrityCheck bs = true ↔
    ((∀ b ∈ bs.dropLast, b.size = TREE_BLOB_MAX_LENGTH) ∧
     (∀ b ∈ bs, b.size ≤ TREE_BLOB_MAX_LENGTH)) := by
  induction bs with
  | nil => simp [integrityCheck]
  | cons b rest ih =>
    cases rest with
    | nil => simp [integrityCheck]
    | cons b2 rest2 =>
      have hstep : integrityCheck (b :: b2 :: rest2) =
          (decide (b.size = TREE_BLOB_MAX_LENGTH) &&
            integrityCheck (b2 :: rest2)) := rfl
      rw [hstep, Bool.and_eq_true, decide_eq_true_eq, ih]
      constructor
      · rintro ⟨hb, hdrop, hle⟩
        refine ⟨?_, ?_⟩
        · intro x hx
          rcases List.mem_cons.mp hx with hx | hx
          · rw [hx, hb]
          · exact hdrop x hx
        · intro x hx
          rcases List.mem_cons.mp hx with hx | hx
          · rw [hx, hb]
          · exact hle x hx
      · rintro ⟨hdrop, hle⟩
        have hb : b.size = TREE_BLOB_MAX_LENGTH :=
          hdrop b (List.mem_cons_self _ _)
        refine ⟨hb, ?_, ?_⟩
        · intro x hx
          exact hdrop x (List.mem_cons_of_mem _ hx)
        · intro x hx
          exact hle x (List.mem_cons_of_mem _ hx)

theorem tryStore_size {allowHash : Bool} {b b' : FileBlock}
    {od : Option BlobDigest}
    (h : FileBlock.tryStore allowHash b = .ok (b', od)) : b'.size = b.size := by
  cases b with
  | notLoaded d s =>
    injection h with h
    injection h with h1 _
    rw [← h1]
  | knownDigest c =>
    injection h with h
    injection h with h1 _
    rw [← h1]
    rfl
  | unknownDigest c =>
    simp only [FileBlock.tryStore] at h
    by_cases ha : allowHash = true
    · rw [if_pos ha] at h
      by_cases hc : c.length ≤ TREE_BLOB_MAX_LENGTH
      · rw [if_pos hc] at h
        injection h with h
        injection h with h1 _
        rw [← h1]
        rfl
      · rw [if_neg hc] at h
        cases h
    · rw [if_neg ha] at h
      injection h with h
      injection h with h1 _
      rw [← h1]

theorem set_self_of_getElem {α : Type} {l : List α} {i : Nat} {a : α}
    (h : l[i]? = some a) : l.set i a = l := by
  have hi : i < l.length := by
    by_contra hcon
    rw [List.getElem?_eq_none (by omega)] at h
    cases h
  apply List.ext_getElem?
  intro n
  by_cases hn : i = n
  · subst hn
    rw [List.getElem?_set_self hi]
    exact h.symm
  · rw [List.getElem?_set_ne hn]

theorem storeCheapGo_sizes :
    ∀ {fuel skipped : Nat} {dirty : List Nat} {blocks : List FileBlock}
      {dirty' : List Nat} {blocks' : List FileBlock},
    storeCheapGo fuel skipped dirty blocks = .ok (dirty', blocks') →
    blocks'.map FileBlock.size = blocks.map FileBlock.size := by
  intro fuel
  induction fuel with
  | zero =>
    intro skipped dirty blocks dirty' blocks' h
    injection h with h
    injection h with _ h2
    rw [h2]
  | succ fuel ih =>
    intro skipped dirty blocks dirty' blocks' h
    simp only [storeCheapGo] at h
    cases hd : dirty[skipped]? with
    | none =>
      rw [hd] at h
      injection h with h
      injection h with _ h2
      rw [h2]
    | some index =>
      simp only [hd] at h
      cases hb : blocks[index]? with
      | none => rw [hb] at h; cases h
      | some b =>
        simp only [hb] at h
        cases hts : FileBlock.tryStore false b with
        | error e => rw [hts] at h; cases h
        | ok pr =>
          obtain ⟨b', od⟩ := pr
          simp only [hts] at h
          have hset : (blocks.set index b').map FileBlock.size =
              blocks.map FileBlock.size := by
            rw [List.map_set]
            rw [tryStore_size hts]
            apply set_self_of_getElem
            rw [List.getElem?_map, hb]
            rfl
          cases od with
          | some d =>
            rw [ih h, hset]
          | none =>
            rw [ih h, hset]

theorem storeCheapBlocks_inv {s s' : OpenFileContentBufferLoaded}
    (hinv : Inv s) (h : storeCheapBlocks s = .ok s') : Inv s' := by
  obtain ⟨hne, hint, hsum⟩ := hinv
  unfold storeCheapBlocks at h
  rw [if_pos hint] at h
  cases hgo : storeCheapGo (2 * s.dirtyBlocks.length) 0 s.dirtyBlocks
      s.blocks with
  | error e => rw [hgo] at h; cases h
  | ok pr =>
    obtain ⟨dirty', blocks'⟩ := pr
    simp only [hgo] at h
    have hsizes := storeCheapGo_sizes hgo
    by_cases hint' : integrityCheck blocks' = true
    · rw [if_pos hint'] at h
      injection h with h
      subst h
      refine ⟨?_, hint', ?_⟩
      · intro hcon
        have hcon' : blocks' = [] := hcon
        rw [hcon'] at hsizes
        exact hne (List.map_eq_nil.mp hsizes.symm)
      · show s.size = sumSizes blocks'
        rw [hsum]
        unfold sumSizes
        rw [hsizes]
    · rw [if_neg hint'] at h
      cases h

theorem storeAllBlocks_sizes :
    ∀ {blocks blocks' : List FileBlock} {digests : List BlobDigest},
    storeAllBlocks blocks = .ok (blocks', digests) →
    blocks'.map FileBlock.size = blocks.map FileBlock.size := by
  intro blocks
  induction blocks with
  | nil =>
    intro blocks' digests h
    injection h with h
    injection h with h1 _
    rw [← h1]
  | cons b rest ih =>
    intro blocks' digests h
    simp only [storeAllBlocks] at h
    cases hts : FileBlock.tryStore true b with
    | error e => rw [hts] at h; cases h
    | ok pr =>
      obtain ⟨b', od⟩ := pr
      simp only [hts] at h
      cases od with
      | none => cases h
      | some d =>
        cases hrec : storeAllBlocks rest with
        | error e => rw [hrec] at h; cases h
        | ok pr' =>
          obtain ⟨bs', ds'⟩ := pr'
          rw [hrec] at h
          injection h with h
          injection h with h1 _
          rw [← h1]
          simp only [List.map_cons]
          rw [ih hrec, tryStore_size hts]

theorem storeAll_inv {s s' : OpenFileContentBufferLoaded}
    (hinv : Inv s) (h : storeAll s = .ok s') : Inv s' := by
  obtain ⟨hne, hint, hsum⟩ := hinv
  unfold storeAll at h
  rw [if_pos hint] at h
  cases hsab : storeAllBlocks s.blocks with
  | error e => rw [hsab] at h; cases h
  | ok pr =>
    obtain ⟨blocks', digests⟩ := pr
    simp only [hsab] at h
    have hsizes := storeAllBlocks_sizes hsab
    by_cases hint' : integrityCheck blocks' = true
    · rw [if_pos hint'] at h
      have hne' : blocks' ≠ [] := by
        intro hcon
        rw [hcon] at hsizes
        exact hne (List.map_eq_nil.mp hsizes.symm)
      have hsum' : sumSizes blocks' = sumSizes s.blocks := by
        unfold sumSizes
        rw [hsizes]
      cases digests with
      | nil => cases h
      | cons d ds =>
        cases ds with
        | nil =>
          injection h with h
          subst h
          exact ⟨hne', hint', by
            show s.size = sumSizes blocks'
            rw [hsum, hsum']⟩
        | cons d2 ds2 =>
          injection h with h
          subst h
          exact ⟨hne', hint', by
            show s.size = sumSizes blocks'
            rw [hsum, hsum']⟩
    · rw [if_neg hint'] at h
      cases h

theorem truncateOp_inv (s : OpenFileContentBufferLoaded) :
    Inv (truncateOp s) := by
  refine ⟨by simp [truncateOp], ?_, rfl⟩
  show integrityCheck [.unknownDigest []] = true
  decide

theorem blockWrite_length (c : List Nat) (pos : Nat) (buf : List Nat)
    (hc : c.length ≤ TREE_BLOB_MAX_LENGTH)
    (hpos : pos ≤ TREE_BLOB_MAX_LENGTH) :
    (blockWrite c pos buf).1.length =
      min TREE_BLOB_MAX_LENGTH (max c.length (pos + buf.length)) := by
  unfold blockWrite
  by_cases h : pos ≤ c.length
  · rw [if_pos h]
    simp only [List.length_append, List.length_take, List.length_drop]
    omega
  · rw [if_neg h]
    simp only [List.length_append, List.length_take, List.length_replicate]
    omega

theorem blockWrite_rest (c : List Nat) (pos : Nat) (buf : List Nat)
    (hc : c.length ≤ TREE_BLOB_MAX_LENGTH)
    (hpos : pos ≤ TREE_BLOB_MAX_LENGTH)
    (hfit : pos + buf.length ≤ TREE_BLOB_MAX_LENGTH) :
    (blockWrite c pos buf).2 = [] := by
  unfold blockWrite
  by_cases h : pos ≤ c.length
  · rw [if_pos h]
    apply List.drop_eq_nil_of_le
    simp only [List.length_append, List.length_take, List.length_drop]
    omega
  · rw [if_neg h]
    apply List.drop_eq_nil_of_le
    simp only [List.length_append, List.length_replicate]
    omega

theorem writeAt_size (b : FileBlock) (pos : Nat) (buf : List Nat)
    (hb : b.size ≤ TREE_BLOB_MAX_LENGTH)
    (hpos : pos ≤ TREE_BLOB_MAX_LENGTH) :
    (b.writeAt pos buf).1.size =
      min TREE_BLOB_MAX_LENGTH (max b.size (pos + buf.length)) := by
  unfold FileBlock.writeAt
  show (blockWrite b.content pos buf).1.length = _
  rw [blockWrite_length b.content pos buf (by rw [b.content_length]; exact hb)
    hpos, b.content_length]

theorem writeAt_rest (b : FileBlock) (pos : Nat) (buf : List Nat)
    (hb : b.size ≤ TREE_BLOB_MAX_LENGTH)
    (hpos : pos ≤ TREE_BLOB_MAX_LENGTH)
    (hfit : pos + buf.length ≤ TREE_BLOB_MAX_LENGTH) :
    (b.writeAt pos buf).2 = [] := by
  unfold FileBlock.writeAt
  show (blockWrite b.content pos buf).2 = []
  exact blockWrite_rest b.content pos buf
    (by rw [b.content_length]; exact hb) hpos hfit

theorem splitFullGo_spec :
    ∀ (fuel : Nat) (l : List Nat), l.length ≤ fuel →
    (∀ fb ∈ (splitFullGo fuel l).1, fb.length = TREE_BLOB_MAX_LENGTH) ∧
    (splitFullGo fuel l).2.length < TREE_BLOB_MAX_LENGTH ∧
    (splitFullGo fuel l).1.length * TREE_BLOB_MAX_LENGTH +
      (splitFullGo fuel l).2.length = l.length := by
  intro fuel
  induction fuel with
  | zero =>
    intro l hl
    have hnil : l = [] := List.length_eq_zero.mp (by omega)
    subst hnil
    refine ⟨?_, ?_, ?_⟩
    · intro fb hfb
      cases hfb
    · decide
    · rfl
  | succ fuel ih =>
    intro l hl
    by_cases h : l.length < TREE_BLOB_MAX_LENGTH
    · rw [splitFullGo, if_pos h]
      refine ⟨?_, h, by simp⟩
      intro fb hfb
      cases hfb
    · rw [splitFullGo, if_neg h]
      have hdrop : (l.drop TREE_BLOB_MAX_LENGTH).length ≤ fuel := by
        simp only [List.length_drop]
        have hmax : 0 < TREE_BLOB_MAX_LENGTH := by decide
        omega
      obtain ⟨h1, h2, h3⟩ := ih (l.drop TREE_BLOB_MAX_LENGTH) hdrop
      refine ⟨?_, h2, ?_⟩
      · intro fb hfb
        rcases List.mem_cons.mp hfb with hfb | hfb
        · rw [hfb]
          simp only [List.length_take]
          omega
        · exact h1 fb hfb
      · simp only [List.length_cons, List.length_drop] at h3 ⊢
        have hMAX : TREE_BLOB_MAX_LENGTH = 64000 := rfl
        rw [hMAX] at h3 ⊢
        rw [hMAX] at h
        omega

theorem fromBytes_spec (position : Nat) (content : List Nat) :
    (position % TREE_BLOB_MAX_LENGTH +
      (OptimizedWriteBuffer.fromBytes position content).pre.length ≤
      TREE_BLOB_MAX_LENGTH) ∧
    (∀ fb ∈ (OptimizedWriteBuffer.fromBytes position content).fullBlocks,
      fb.length = TREE_BLOB_MAX_LENGTH) ∧
    ((OptimizedWriteBuffer.fromBytes position content).suffix.length <
      TREE_BLOB_MAX_LENGTH) ∧
    (((OptimizedWriteBuffer.fromBytes position content).fullBlocks ≠ [] ∨
      (OptimizedWriteBuffer.fromBytes position content).suffix ≠ []) →
      (position % TREE_BLOB_MAX_LENGTH +
        (OptimizedWriteBuffer.fromBytes position content).pre.length =
        TREE_BLOB_MAX_LENGTH ∨
      ((OptimizedWriteBuffer.fromBytes position content).pre = [] ∧
        position % TREE_BLOB_MAX_LENGTH = 0))) := by
  have hpib : position % TREE_BLOB_MAX_LENGTH < TREE_BLOB_MAX_LENGTH :=
    Nat.mod_lt _ (by decide)
  by_cases h : position % TREE_BLOB_MAX_LENGTH = 0 ∧
      TREE_BLOB_MAX_LENGTH ≤ content.length
  · simp only [OptimizedWriteBuffer.fromBytes, if_pos h]
    obtain ⟨hsp1, hsp2, hsp3⟩ := splitFullGo_spec content.length content
      (Nat.le_refl _)
    refine ⟨?_, hsp1, hsp2, ?_⟩
    · simp only [List.length_nil, Nat.add_zero]
      omega
    · intro _
      right
      exact ⟨trivial, h.1⟩
  · simp only [OptimizedWriteBuffer.fromBytes, if_neg h]
    obtain ⟨hsp1, hsp2, hsp3⟩ := splitFullGo_spec
      (content.drop (min content.length (TREE_BLOB_MAX_LENGTH -
        position % TREE_BLOB_MAX_LENGTH))).length
      (content.drop (min content.length (TREE_BLOB_MAX_LENGTH -
        position % TREE_BLOB_MAX_LENGTH)))
      (Nat.le_refl _)
    refine ⟨?_, hsp1, hsp2, ?_⟩
    · simp only [List.length_take]
      omega
    · intro hne
      by_cases hd : (content.drop (min content.length
          (TREE_BLOB_MAX_LENGTH - position % TREE_BLOB_MAX_LENGTH))).length
          = 0
      · exfalso
        have hdnil : content.drop (min content.length
            (TREE_BLOB_MAX_LENGTH - position % TREE_BLOB_MAX_LENGTH)) = [] :=
          List.length_eq_zero.mp hd
        rw [hdnil, List.length_nil] at hne
        rcases hne with hne | hne <;> exact hne rfl
      · left
        simp only [List.length_take]
        simp only [List.length_drop] at hd
        omega

theorem sum_replicate_nat (n x : Nat) : (List.replicate n x).sum = n * x := by
  induction n with
  | zero => simp
  | succ n ih =>
    rw [List.replicate_succ, List.sum_cons, ih]
    ring

theorem backFill_spec {s s₂ : OpenFileContentBufferLoaded} {first : Nat}
    (hne : s.blocks ≠ []) (hint : integrityCheck s.blocks = true)
    (h : backFill s first = .ok s₂) :
    s₂.size = s.size ∧ s₂.writeBufferInBlocks = s.writeBufferInBlocks ∧
    (¬ s.blocks.length ≤ first → s₂ = s) ∧
    (s.blocks.length ≤ first →
      s₂.blocks.map FileBlock.size =
        List.replicate first TREE_BLOB_MAX_LENGTH) := by
  unfold backFill at h
  by_cases hle : s.blocks.length ≤ first
  · rw [if_pos hle] at h
    cases hlast : s.blocks.getLast? with
    | none => exact absurd (List.getLast?_eq_none_iff.mp hlast) hne
    | some lastB =>
      simp only [hlast] at h
      have hlastmem : lastB ∈ s.blocks := List.mem_of_getLast?_eq_some hlast
      have hlastle : lastB.size ≤ TREE_BLOB_MAX_LENGTH :=
        ((integrityCheck_iff s.blocks).mp hint).2 lastB hlastmem
      have hrest : (lastB.writeAt lastB.size
          (List.replicate (TREE_BLOB_MAX_LENGTH - lastB.size) 0)).2 = [] := by
        apply writeAt_rest _ _ _ hlastle hlastle
        simp only [List.length_replicate]
        omega
      rw [if_pos hrest] at h
      injection h with h
      subst h
      refine ⟨rfl, rfl, fun hcon => absurd hle hcon, fun _ => ?_⟩
      simp only [pushFillers]
      have hwsize : (lastB.writeAt lastB.size
          (List.replicate (TREE_BLOB_MAX_LENGTH - lastB.size) 0)).1.size =
          TREE_BLOB_MAX_LENGTH := by
        rw [writeAt_size _ _ _ hlastle hlastle]
        simp only [List.length_replicate]
        omega
      have hdropmap : s.blocks.dropLast.map FileBlock.size =
          List.replicate (s.blocks.length - 1) TREE_BLOB_MAX_LENGTH := by
        have hall : ∀ x ∈ s.blocks.dropLast.map FileBlock.size,
            x = TREE_BLOB_MAX_LENGTH := by
          intro x hx
          obtain ⟨b, hb, hbx⟩ := List.mem_map.mp hx
          rw [← hbx]
          exact ((integrityCheck_iff s.blocks).mp hint).1 b hb
        have := List.eq_replicate_of_mem hall
        rw [this]
        simp
      have hzb : zeroBlock.size = TREE_BLOB_MAX_LENGTH := by
        show (List.replicate TREE_BLOB_MAX_LENGTH 0).length = _
        simp
      have hlen : 1 ≤ s.blocks.length := by
        cases hbs : s.blocks with
        | nil => exact absurd hbs hne
        | cons a rest => simp
      have hlen1 : (s.blocks.dropLast ++
          [(lastB.writeAt lastB.size
            (List.replicate (TREE_BLOB_MAX_LENGTH - lastB.size) 0)).1]).length
          = s.blocks.length := by
        simp only [List.length_append, List.length_dropLast,
          List.length_cons, List.length_nil]
        omega
      rw [hlen1]
      rw [List.map_append, List.map_append, hdropmap, List.map_replicate,
        hzb, List.map_cons, List.map_nil, hwsize]
      have h1 : ([TREE_BLOB_MAX_LENGTH] : List Nat) =
          List.replicate 1 TREE_BLOB_MAX_LENGTH := rfl
      rw [h1, ← List.replicate_add, ← List.replicate_add]
      congr 1
      omega
  · rw [if_neg hle] at h
    injection h with h
    subst h
    exact ⟨rfl, rfl, fun _ => rfl, fun hcon => absurd hcon hle⟩

theorem writePre_spec {s : OpenFileContentBufferLoaded} {next pib : Nat}
    {pre : List Nat} {s₃ : OpenFileContentBufferLoaded} {next' : Nat}
    (h : writePre s next pib pre = .ok (s₃, next')) :
    s₃.size = s.size ∧ s₃.writeBufferInBlocks = s.writeBufferInBlocks ∧
    ((pre = [] ∧ pib = 0) → (s₃ = s ∧ next' = next)) ∧
    (¬ (pre = [] ∧ pib = 0) →
      next' = next + 1 ∧ pib + pre.length ≤ TREE_BLOB_MAX_LENGTH ∧
      ((next = s.blocks.length ∧
        s₃.blocks = s.blocks ++
          [.unknownDigest (List.replicate pib 0 ++ pre)]) ∨
       (¬ next = s.blocks.length ∧ ∃ b, s.blocks[next]? = some b ∧
        s₃.blocks = s.blocks.set next (b.writeAt pib pre).1))) := by
  unfold writePre at h
  by_cases hskip : pre = [] ∧ pib = 0
  · rw [if_pos hskip] at h
    injection h with h
    injection h with h1 h2
    subst h1
    subst h2
    exact ⟨rfl, rfl, fun _ => ⟨rfl, rfl⟩, fun hcon => absurd hskip hcon⟩
  · rw [if_neg hskip] at h
    by_cases hassert : pib = 0 ∧ TREE_BLOB_MAX_LENGTH ≤ pre.length
    · rw [if_pos hassert] at h
      cases h
    · rw [if_neg hassert] at h
      by_cases hpush : next = s.blocks.length
      · rw [if_pos hpush] at h
        by_cases hbc : (List.replicate pib 0 ++ pre).length ≤
            TREE_BLOB_MAX_LENGTH
        · rw [if_pos hbc] at h
          injection h with h
          injection h with h1 h2
          subst h1
          subst h2
          refine ⟨rfl, rfl, fun hcon => absurd hcon hskip, fun _ => ?_⟩
          refine ⟨rfl, ?_, Or.inl ⟨hpush, rfl⟩⟩
          simp only [List.length_append, List.length_replicate] at hbc
          omega
        · rw [if_neg hbc] at h
          cases h
      · rw [if_neg hpush] at h
        cases hb : s.blocks[next]? with
        | none => rw [hb] at h; cases h
        | some b =>
          simp only [hb] at h
          by_cases hassert2 : TREE_BLOB_MAX_LENGTH ≤ pre.length ∨
              TREE_BLOB_MAX_LENGTH ≤ pib ∨
              ¬ pib + pre.length ≤ TREE_BLOB_MAX_LENGTH
          · rw [if_pos hassert2] at h
            cases h
          · rw [if_neg hassert2] at h
            by_cases hrest : (b.writeAt pib pre).2 = []
            · rw [if_pos hrest] at h
              injection h with h
              injection h with h1 h2
              subst h1
              subst h2
              refine ⟨rfl, rfl, fun hcon => absurd hcon hskip, fun _ => ?_⟩
              push_neg at hassert2
              exact ⟨rfl, hassert2.2.2, Or.inr ⟨hpush, b, rfl, rfl⟩⟩
            · rw [if_neg hrest] at h
              cases h

theorem writeFulls_spec :
    ∀ (fbs : List (List Nat)) (s : OpenFileContentBufferLoaded) (next : Nat),
    next ≤ s.blocks.length →
    (writeFulls s next fbs).2 = next + fbs.length ∧
    (writeFulls s next fbs).1.blocks =
      s.blocks.take next ++ fbs.map FileBlock.knownDigest ++
        s.blocks.drop (next + fbs.length) ∧
    (writeFulls s next fbs).1.size = s.size ∧
    (writeFulls s next fbs).1.writeBufferInBlocks =
      s.writeBufferInBlocks := by
  intro fbs
  induction fbs with
  | nil =>
    intro s next hle
    refine ⟨rfl, ?_, rfl, rfl⟩
    show s.blocks = _
    simp
  | cons fb rest ih =>
    intro s next hle
    simp only [writeFulls]
    by_cases hpush : next = s.blocks.length
    · rw [if_pos hpush]
      have hle' : next + 1 ≤
          (s.blocks ++ [FileBlock.knownDigest fb]).length := by
        simp only [List.length_append, List.length_cons, List.length_nil]
        omega
      obtain ⟨ih1, ih2, ih3, ih4⟩ := ih
        { s with blocks := s.blocks ++ [FileBlock.knownDigest fb]
                 dirtyBlocks := s.dirtyBlocks ++ [next] } (next + 1) hle'
      simp only [] at ih2
      refine ⟨?_, ?_, ih3, ih4⟩
      · rw [ih1]
        simp only [List.length_cons]
        omega
      · rw [ih2]
        simp only [List.length_cons, List.map_cons]
        have htake : (s.blocks ++ [FileBlock.knownDigest fb]).take (next + 1)
            = s.blocks ++ [FileBlock.knownDigest fb] :=
          List.take_of_length_le (by
            simp only [List.length_append, List.length_cons, List.length_nil]
            omega)
        have hdrop1 : (s.blocks ++ [FileBlock.knownDigest fb]).drop
            (next + 1 + rest.length) = [] :=
          List.drop_eq_nil_of_le (by
            simp only [List.length_append, List.length_cons, List.length_nil]
            omega)
        have hdrop2 : s.blocks.drop (next + (rest.length + 1)) = [] :=
          List.drop_eq_nil_of_le (by omega)
        have htake2 : s.blocks.take next = s.blocks :=
          List.take_of_length_le (by omega)
        rw [htake, hdrop1, hdrop2, htake2]
        simp
    · rw [if_neg hpush]
      have hlt : next < s.blocks.length := by omega
      have hle' : next + 1 ≤
          (s.blocks.set next (FileBlock.knownDigest fb)).length := by
        simp only [List.length_set]
        omega
      obtain ⟨ih1, ih2, ih3, ih4⟩ := ih
        { s with blocks := s.blocks.set next (FileBlock.knownDigest fb)
                 dirtyBlocks := s.dirtyBlocks ++ [next] } (next + 1) hle'
      simp only [] at ih2
      refine ⟨?_, ?_, ih3, ih4⟩
      · rw [ih1]
        simp only [List.length_cons]
        omega
      · rw [ih2]
        simp only [List.length_cons, List.map_cons]
        have hset := List.set_eq_take_cons_drop (FileBlock.knownDigest fb) hlt
        have hlen2 : (s.blocks.take next).length = next :=
          List.length_take_of_le (by omega)
        have htake : (s.blocks.set next (FileBlock.knownDigest fb)).take
            (next + 1) = s.blocks.take next ++ [FileBlock.knownDigest fb] := by
          rw [hset, List.take_append_eq_append_take]
          rw [List.take_of_length_le (by rw [hlen2]; omega), hlen2]
          have harith : next + 1 - next = 1 := by omega
          rw [harith]
          rfl
        have hdrop : (s.blocks.set next (FileBlock.knownDigest fb)).drop
            (next + 1 + rest.length) =
            s.blocks.drop (next + 1 + rest.length) := by
          rw [hset, List.drop_append_eq_append_drop]
          rw [List.drop_eq_nil_of_le (by rw [hlen2]; omega), hlen2]
          have harith : next + 1 + rest.length - next = 1 + rest.length := by
            omega
          rw [harith, Nat.add_comm 1 rest.length]
          show (FileBlock.knownDigest fb ::
            s.blocks.drop (next + 1)).drop (rest.length + 1) = _
          rw [List.drop_succ_cons, List.drop_drop]
        rw [htake, hdrop]
        have harith2 : next + 1 + rest.length = next + (rest.length + 1) := by
          omega
        rw [harith2]
        simp

theorem writeSuffix_spec {s : OpenFileContentBufferLoaded} {next : Nat}
    {suf : List Nat} {s₅ : OpenFileContentBufferLoaded}
    (h : writeSuffix s next suf = .ok s₅) :
    s₅.size = s.size ∧ s₅.writeBufferInBlocks = s.writeBufferInBlocks ∧
    ((suf = []) → s₅ = s) ∧
    (¬ suf = [] →
      ((next = s.blocks.length ∧
        s₅.blocks = s.blocks ++ [.unknownDigest suf]) ∨
       (¬ next = s.blocks.length ∧ ∃ b, s.blocks[next]? = some b ∧
        s₅.blocks = s.blocks.set next (b.writeAt 0 suf).1))) := by
  unfold writeSuffix at h
  by_cases hskip : suf = []
  · rw [if_pos hskip] at h
    injection h with h
    subst h
    exact ⟨rfl, rfl, fun _ => rfl, fun hcon => absurd hskip hcon⟩
  · rw [if_neg hskip] at h
    by_cases hpush : next = s.blocks.length
    · rw [if_pos hpush] at h
      injection h with h
      subst h
      exact ⟨rfl, rfl, fun hcon => absurd hcon hskip,
        fun _ => Or.inl ⟨hpush, rfl⟩⟩
    · rw [if_neg hpush] at h
      cases hb : s.blocks[next]? with
      | none => rw [hb] at h; cases h
      | some b =>
        simp only [hb] at h
        by_cases hrest : (b.writeAt 0 suf).2 = []
        · rw [if_pos hrest] at h
          injection h with h
          subst h
          exact ⟨rfl, rfl, fun hcon => absurd hcon hskip,
            fun _ => Or.inr ⟨hpush, b, rfl, rfl⟩⟩
        · rw [if_neg hrest] at h
          cases h

theorem integrityCheck_concat (P : List FileBlock) (b : FileBlock)
    (hP : ∀ c ∈ P, c.size = TREE_BLOB_MAX_LENGTH)
    (hb : b.size ≤ TREE_BLOB_MAX_LENGTH) :
    integrityCheck (P ++ [b]) = true := by
  rw [integrityCheck_iff]
  constructor
  · intro c hc
    rw [List.dropLast_concat] at hc
    exact hP c hc
  · intro c hc
    rcases List.mem_append.mp hc with hc | hc
    · rw [hP c hc]
    · rw [List.mem_singleton.mp hc]
      exact hb

theorem sumSizes_append (l₁ l₂ : List FileBlock) :
    sumSizes (l₁ ++ l₂) = sumSizes l₁ + sumSizes l₂ := by
  unfold sumSizes
  rw [List.map_append, List.sum_append]

theorem sumSizes_eq_of_all (l : List FileBlock) (x : Nat)
    (h : ∀ c ∈ l, c.size = x) : sumSizes l = l.length * x := by
  unfold sumSizes
  have hmem : ∀ y ∈ l.map FileBlock.size, y = x := by
    intro y hy
    obtain ⟨c, hc, hcy⟩ := List.mem_map.mp hy
    rw [← hcy]
    exact h c hc
  rw [List.eq_replicate_of_mem hmem, List.length_map, sum_replicate_nat]

/-- A `verify_integrity`-passing non-empty block list is interior full
blocks followed by one last block. -/
theorem shape_decomp {bs : List FileBlock} (hne : bs ≠ [])
    (hint : integrityCheck bs = true) :
    ∃ P b, bs = P ++ [b] ∧ P.length = bs.length - 1 ∧
      (∀ c ∈ P, c.size = TREE_BLOB_MAX_LENGTH) ∧
      b.size ≤ TREE_BLOB_MAX_LENGTH ∧
      sumSizes bs = (bs.length - 1) * TREE_BLOB_MAX_LENGTH + b.size := by
  obtain ⟨hdrop, hle⟩ := (integrityCheck_iff bs).mp hint
  refine ⟨bs.dropLast, bs.getLast hne, ?_, by simp, hdrop, ?_, ?_⟩
  · exact (List.dropLast_concat_getLast hne).symm
  · exact hle _ (List.getLast_mem hne)
  · conv_lhs => rw [← List.dropLast_concat_getLast hne]
    rw [sumSizes_append]
    rw [sumSizes_eq_of_all bs.dropLast _ hdrop]
    simp [sumSizes]

theorem sizes_all_of_map_replicate {bs : List FileBlock} {k : Nat}
    (h : bs.map FileBlock.size = List.replicate k TREE_BLOB_MAX_LENGTH) :
    ∀ c ∈ bs, c.size = TREE_BLOB_MAX_LENGTH := by
  intro c hc
  have hm : c.size ∈ bs.map FileBlock.size := List.mem_map_of_mem _ hc
  rw [h] at hm
  exact List.eq_of_mem_replicate hm

theorem integrityCheck_all {bs : List FileBlock}
    (h : ∀ c ∈ bs, c.size = TREE_BLOB_MAX_LENGTH) :
    integrityCheck bs = true := by
  rw [integrityCheck_iff]
  exact ⟨fun c hc => h c (List.dropLast_subset bs hc),
    fun c hc => Nat.le_of_eq (h c hc)⟩

theorem integrityCheck_shape {Q T : List FileBlock}
    (hQ : ∀ c ∈ Q, c.size = TREE_BLOB_MAX_LENGTH)
    (hT : T = [] ∨ ∃ b, T = [b] ∧ b.size ≤ TREE_BLOB_MAX_LENGTH) :
    integrityCheck (Q ++ T) = true := by
  rcases hT with hT | ⟨b, hT, hb⟩
  · subst hT
    rw [List.append_nil]
    exact integrityCheck_all hQ
  · subst hT
    exact integrityCheck_concat Q b hQ hb

theorem sumSizes_cons (b : FileBlock) (rest : List FileBlock) :
    sumSizes (b :: rest) = b.size + sumSizes rest := by
  simp [sumSizes]

theorem sumSizes_le_of_all {bs : List FileBlock} {x : Nat}
    (h : ∀ c ∈ bs, c.size ≤ x) : sumSizes bs ≤ bs.length * x := by
  induction bs with
  | nil => simp [sumSizes]
  | cons b rest ih =>
    rw [sumSizes_cons, List.length_cons]
    have h1 := h b (List.mem_cons_self _ _)
    have h2 := ih (fun c hc => h c (List.mem_cons_of_mem _ hc))
    have h3 : (rest.length + 1) * x = rest.length * x + x := by ring
    omega

theorem take_set_succ {α : Type} (l : List α) (i : Nat) (a : α)
    (hi : i < l.length) : (l.set i a).take (i + 1) = l.take i ++ [a] := by
  rw [List.set_eq_take_cons_drop a hi, List.take_append_eq_append_take]
  have hlen : (l.take i).length = i := List.length_take_of_le (by omega)
  rw [List.take_of_length_le (by rw [hlen]; omega), hlen]
  have h1 : i + 1 - i = 1 := by omega
  rw [h1]
  rfl

theorem drop_set_of_le {α : Type} (l : List α) (i n : Nat) (a : α)
    (h : i < n) : (l.set i a).drop n = l.drop n := by
  by_cases hi : i < l.length
  · rw [List.set_eq_take_cons_drop a hi, List.drop_append_eq_append_drop]
    have hlen : (l.take i).length = i := List.length_take_of_le (by omega)
    rw [List.drop_eq_nil_of_le (by rw [hlen]; omega), hlen]
    have hn : n - i = (n - i - 1) + 1 := by omega
    rw [List.nil_append, hn, List.drop_succ_cons, List.drop_drop]
    congr 1
    omega
  · rw [List.set_eq_of_length_le (by omega)]

theorem set_append_length {α : Type} (X Y : List α) (w : α) :
    (X ++ Y).set X.length w = X ++ Y.set 0 w := by
  induction X with
  | nil => rfl
  | cons x xs ih =>
    show x :: ((xs ++ Y).set xs.length w) = x :: (xs ++ Y.set 0 w)
    rw [ih]

theorem kd_all_full {fbs : List (List Nat)}
    (h : ∀ fb ∈ fbs, fb.length = TREE_BLOB_MAX_LENGTH) :
    ∀ c ∈ fbs.map FileBlock.knownDigest, c.size = TREE_BLOB_MAX_LENGTH := by
  intro c hc
  obtain ⟨fb, hfb, hrfl⟩ := List.mem_map.mp hc
  rw [← hrfl]
  exact h fb hfb

/-- Scenario of `write` where the write starts at or past the end of the
current block list: after back-filling, every block before the write cursor
is full, and the head, full blocks and tail are all appended at the end. -/
theorem writeTailB
    {s₁ s₂ s₃ : OpenFileContentBufferLoaded} {first pib next₃ : Nat}
    {buf : OptimizedWriteBuffer} {s' : OpenFileContentBufferLoaded}
    (hne : s₁.blocks ≠ [])
    (hint : integrityCheck s₁.blocks = true)
    (hsize : s₁.size = max (sumSizes s₁.blocks)
      (first * TREE_BLOB_MAX_LENGTH + pib + buf.len))
    (hFB1 : pib + buf.pre.length ≤ TREE_BLOB_MAX_LENGTH)
    (hFB2 : ∀ fb ∈ buf.fullBlocks, fb.length = TREE_BLOB_MAX_LENGTH)
    (hFB3 : buf.suffix.length < TREE_BLOB_MAX_LENGTH)
    (hFB4 : buf.fullBlocks ≠ [] ∨ buf.suffix ≠ [] →
      pib + buf.pre.length = TREE_BLOB_MAX_LENGTH ∨ (buf.pre = [] ∧ pib = 0))
    (hbf : backFill s₁ first = Except.ok s₂)
    (hwp : writePre s₂ first pib buf.pre = Except.ok (s₃, next₃))
    (hws : writeSuffix (writeFulls s₃ next₃ buf.fullBlocks).1
      (writeFulls s₃ next₃ buf.fullBlocks).2 buf.suffix = Except.ok s')
    (hsc : s₁.blocks.length ≤ first) : Inv s' := by
  have hMAX : TREE_BLOB_MAX_LENGTH = 64000 := rfl
  obtain ⟨hbfsize, _, _, hbfB⟩ := backFill_spec hne hint hbf
  obtain ⟨hwpsize, _, hwpskip, hwpgo⟩ := writePre_spec hwp
  have hmap₂ : s₂.blocks.map FileBlock.size =
      List.replicate first TREE_BLOB_MAX_LENGTH := hbfB hsc
  have hall₂ : ∀ c ∈ s₂.blocks, c.size = TREE_BLOB_MAX_LENGTH :=
    sizes_all_of_map_replicate hmap₂
  have hlen₂ : s₂.blocks.length = first := by
    have h1 := congrArg List.length hmap₂
    simp only [List.length_map, List.length_replicate] at h1
    exact h1
  have hn₁pos : 0 < s₁.blocks.length := List.length_pos.mpr hne
  have hSB_le : sumSizes s₁.blocks ≤
      s₁.blocks.length * TREE_BLOB_MAX_LENGTH :=
    sumSizes_le_of_all ((integrityCheck_iff s₁.blocks).mp hint).2
  have hkey : ∃ optPre : List FileBlock,
      s₃.blocks = s₂.blocks ++ optPre ∧
      next₃ = s₃.blocks.length ∧
      sumSizes optPre = pib + buf.pre.length ∧
      (optPre = [] ∨ ∃ b, optPre = [b] ∧ b.size ≤ TREE_BLOB_MAX_LENGTH) ∧
      (buf.fullBlocks ≠ [] ∨ buf.suffix ≠ [] →
        ∀ c ∈ optPre, c.size = TREE_BLOB_MAX_LENGTH) := by
    by_cases hskip : buf.pre = [] ∧ pib = 0
    · obtain ⟨hs₃, hn₃⟩ := hwpskip hskip
      refine ⟨[], by rw [hs₃, List.append_nil], ?_, ?_, Or.inl rfl, ?_⟩
      · rw [hn₃, hs₃, hlen₂]
      · rw [hskip.1, hskip.2]
        rfl
      · intro _ c hc
        cases hc
    · obtain ⟨hnext', hble, hdisj⟩ := hwpgo hskip
      rcases hdisj with ⟨hpush, hb₃⟩ | ⟨hnopush, _⟩
      · refine ⟨[FileBlock.unknownDigest (List.replicate pib 0 ++ buf.pre)],
          hb₃, ?_, ?_, Or.inr ⟨_, rfl, ?_⟩, ?_⟩
        · rw [hnext', hb₃]
          simp only [List.length_append, List.length_cons, List.length_nil,
            hlen₂]
        · show sumSizes [FileBlock.unknownDigest
            (List.replicate pib 0 ++ buf.pre)] = pib + buf.pre.length
          simp [sumSizes, FileBlock.size]
        · show (List.replicate pib 0 ++ buf.pre).length ≤
            TREE_BLOB_MAX_LENGTH
          simp only [List.length_append, List.length_replicate]
          exact hble
        · intro hful c hc
          rw [List.mem_singleton.mp hc]
          rcases hFB4 hful with hfull | hskip2
          · show (List.replicate pib 0 ++ buf.pre).length =
              TREE_BLOB_MAX_LENGTH
            simp only [List.length_append, List.length_replicate]
            exact hfull
          · exact absurd hskip2 hskip
      · exact absurd hlen₂.symm hnopush
  obtain ⟨optPre, hb₃, hn₃len, hsumP, hPshape, hPfull⟩ := hkey
  obtain ⟨hwf1, hwf2, hwf3, _⟩ := writeFulls_spec buf.fullBlocks s₃ next₃
    (Nat.le_of_eq hn₃len)
  have hb₄ : (writeFulls s₃ next₃ buf.fullBlocks).1.blocks =
      s₃.blocks ++ buf.fullBlocks.map FileBlock.knownDigest := by
    rw [hwf2]
    rw [List.take_of_length_le (Nat.le_of_eq hn₃len.symm)]
    rw [List.drop_eq_nil_of_le (by omega), List.append_nil]
  have hn₄ : (writeFulls s₃ next₃ buf.fullBlocks).2 =
      (writeFulls s₃ next₃ buf.fullBlocks).1.blocks.length := by
    rw [hwf1, hb₄]
    simp only [List.length_append, List.length_map]
    omega
  obtain ⟨hwssize, _, hwsskip, hwsgo⟩ := writeSuffix_spec hws
  have hkey2 : ∃ optSuf : List FileBlock,
      s'.blocks = s₂.blocks ++ optPre ++
        buf.fullBlocks.map FileBlock.knownDigest ++ optSuf ∧
      sumSizes optSuf = buf.suffix.length ∧
      (optSuf = [] ∨ ∃ b, optSuf = [b] ∧ b.size ≤ TREE_BLOB_MAX_LENGTH) ∧
      (buf.suffix = [] → optSuf = []) := by
    by_cases hsuf : buf.suffix = []
    · have hs' := hwsskip hsuf
      refine ⟨[], ?_, by rw [hsuf]; rfl, Or.inl rfl, fun _ => rfl⟩
      rw [hs', hb₄, hb₃, List.append_nil]
    · rcases hwsgo hsuf with ⟨hpush, hb'⟩ | ⟨hnopush, _⟩
      · refine ⟨[FileBlock.unknownDigest buf.suffix], ?_, ?_,
          Or.inr ⟨_, rfl, Nat.le_of_lt hFB3⟩, fun hcon => absurd hcon hsuf⟩
        · rw [hb', hb₄, hb₃]
        · show sumSizes [FileBlock.unknownDigest buf.suffix] =
            buf.suffix.length
          simp [sumSizes, FileBlock.size]
      · exact absurd hn₄ hnopush
  obtain ⟨optSuf, hbfin, hsumS, hSshape, hSnil⟩ := hkey2
  have hkdall : ∀ c ∈ buf.fullBlocks.map FileBlock.knownDigest,
      c.size = TREE_BLOB_MAX_LENGTH := kd_all_full hFB2
  have hkdsum : sumSizes (buf.fullBlocks.map FileBlock.knownDigest) =
      buf.fullBlocks.length * TREE_BLOB_MAX_LENGTH := by
    rw [sumSizes_eq_of_all _ _ hkdall, List.length_map]
  have hsize' : s'.size = s₁.size := by
    rw [hwssize, hwf3, hwpsize, hbfsize]
  have h₂ne : s₂.blocks ≠ [] := by
    intro hcon
    rw [hcon] at hlen₂
    simp only [List.length_nil] at hlen₂
    omega
  refine ⟨?_, ?_, ?_⟩
  · rw [hbfin]
    exact List.append_ne_nil_of_left_ne_nil
      (List.append_ne_nil_of_left_ne_nil
        (List.append_ne_nil_of_left_ne_nil h₂ne _) _) _
  · rw [hbfin]
    by_cases hsuf : buf.suffix = []
    · rw [hSnil hsuf, List.append_nil]
      by_cases hF : buf.fullBlocks = []
      · rw [hF]
        simp only [List.map_nil, List.append_nil]
        exact integrityCheck_shape hall₂ hPshape
      · refine integrityCheck_all ?_
        intro c hc
        rcases List.mem_append.mp hc with hc2 | hc2
        · rcases List.mem_append.mp hc2 with hc3 | hc3
          · exact hall₂ c hc3
          · exact hPfull (Or.inl hF) c hc3
        · exact hkdall c hc2
    · refine integrityCheck_shape ?_ hSshape
      intro c hc
      rcases List.mem_append.mp hc with hc2 | hc2
      · rcases List.mem_append.mp hc2 with hc3 | hc3
        · exact hall₂ c hc3
        · exact hPfull (Or.inr hsuf) c hc3
      · exact hkdall c hc2
  · rw [hsize', hsize, hbfin]
    simp only [sumSizes_append]
    rw [hkdsum, hsumS, hsumP]
    have hsum₂ : sumSizes s₂.blocks = first * TREE_BLOB_MAX_LENGTH := by
      rw [sumSizes_eq_of_all _ _ hall₂, hlen₂]
    rw [hsum₂]
    simp only [OptimizedWriteBuffer.len]
    rw [hMAX] at hSB_le ⊢
    omega

/-- Scenario of `write` where the write starts inside the current block
list: the head merges into an existing block, full blocks overwrite (and
possibly extend past) the following ones, and the tail merges or is
appended. -/
theorem writeTailA
    {s₁ s₂ s₃ : OpenFileContentBufferLoaded} {first pib next₃ : Nat}
    {buf : OptimizedWriteBuffer} {s' : OpenFileContentBufferLoaded}
    (hne : s₁.blocks ≠ [])
    (hint : integrityCheck s₁.blocks = true)
    (hsize : s₁.size = max (sumSizes s₁.blocks)
      (first * TREE_BLOB_MAX_LENGTH + pib + buf.len))
    (hpib : pib < TREE_BLOB_MAX_LENGTH)
    (hFB1 : pib + buf.pre.length ≤ TREE_BLOB_MAX_LENGTH)
    (hFB2 : ∀ fb ∈ buf.fullBlocks, fb.length = TREE_BLOB_MAX_LENGTH)
    (hFB3 : buf.suffix.length < TREE_BLOB_MAX_LENGTH)
    (hFB4 : buf.fullBlocks ≠ [] ∨ buf.suffix ≠ [] →
      pib + buf.pre.length = TREE_BLOB_MAX_LENGTH ∨ (buf.pre = [] ∧ pib = 0))
    (hbf : backFill s₁ first = Except.ok s₂)
    (hwp : writePre s₂ first pib buf.pre = Except.ok (s₃, next₃))
    (hws : writeSuffix (writeFulls s₃ next₃ buf.fullBlocks).1
      (writeFulls s₃ next₃ buf.fullBlocks).2 buf.suffix = Except.ok s')
    (hsc : first < s₁.blocks.length) : Inv s' := by
  have hMAX : TREE_BLOB_MAX_LENGTH = 64000 := rfl
  obtain ⟨hbfsize, _, hbfA, _⟩ := backFill_spec hne hint hbf
  have hs₂ : s₁ = s₂ := (hbfA (by omega)).symm
  subst hs₂
  obtain ⟨hwpsize, _, hwpskip, hwpgo⟩ := writePre_spec hwp
  obtain ⟨P, lastB, hPdec, hPlen, hPall, hlastle, hSBsum⟩ :=
    shape_decomp hne hint
  have hn₁ : s₁.blocks.length = P.length + 1 := by
    rw [hPdec]; simp
  have hfirstle : first ≤ P.length := by omega
  have hkey : ∃ W : Nat,
      s₃.blocks.length = s₁.blocks.length ∧
      next₃ ≤ s₁.blocks.length ∧
      integrityCheck s₃.blocks = true ∧
      (∀ c ∈ s₃.blocks, c.size ≤ TREE_BLOB_MAX_LENGTH) ∧
      (buf.fullBlocks ≠ [] ∨ buf.suffix ≠ [] →
        ∀ c ∈ s₃.blocks.take next₃, c.size = TREE_BLOB_MAX_LENGTH) ∧
      (∀ j, next₃ ≤ j → s₃.blocks.drop j = s₁.blocks.drop j) ∧
      sumSizes (s₃.blocks.take next₃) = first * TREE_BLOB_MAX_LENGTH + W ∧
      ((next₃ = first ∧ W = 0 ∧ pib = 0 ∧ buf.pre.length = 0) ∨
       (next₃ = first + 1 ∧ first < P.length ∧ W = TREE_BLOB_MAX_LENGTH ∧
         ¬ (buf.pre.length = 0 ∧ pib = 0)) ∨
       (next₃ = first + 1 ∧ first = P.length ∧
         W = max lastB.size (pib + buf.pre.length) ∧
         ¬ (buf.pre.length = 0 ∧ pib = 0))) := by
    by_cases hskip : buf.pre = [] ∧ pib = 0
    · obtain ⟨hs₃, hn₃⟩ := hwpskip hskip
      refine ⟨0, by rw [hs₃], by rw [hn₃]; omega, by rw [hs₃]; exact hint,
        ?_, ?_, ?_, ?_,
        Or.inl ⟨hn₃, rfl, hskip.2, by rw [hskip.1]; rfl⟩⟩
      · intro c hc
        rw [hs₃] at hc
        exact ((integrityCheck_iff _).mp hint).2 c hc
      · intro _ c hc
        rw [hs₃, hn₃] at hc
        rw [hPdec, List.take_append_of_le_length hfirstle] at hc
        exact hPall c (List.take_subset _ _ hc)
      · intro j _
        rw [hs₃]
      · rw [hs₃, hn₃, hPdec, List.take_append_of_le_length hfirstle]
        rw [sumSizes_eq_of_all _ TREE_BLOB_MAX_LENGTH
          (fun c hc => hPall c (List.take_subset _ _ hc))]
        rw [List.length_take_of_le hfirstle, Nat.add_zero]
    · obtain ⟨hnext', hble, hdisj⟩ := hwpgo hskip
      have hskipn : ¬ (buf.pre.length = 0 ∧ pib = 0) := by
        intro hcon
        exact hskip ⟨List.length_eq_zero.mp hcon.1, hcon.2⟩
      rcases hdisj with ⟨hpush, _⟩ | ⟨_, b, hbget, hb₃⟩
      · exact absurd hpush (by omega)
      · have hble' : b.size ≤ TREE_BLOB_MAX_LENGTH :=
          ((integrityCheck_iff _).mp hint).2 b (List.getElem?_mem hbget)
        have hw : (b.writeAt pib buf.pre).1.size =
            min TREE_BLOB_MAX_LENGTH (max b.size (pib + buf.pre.length)) :=
          writeAt_size b pib buf.pre hble' (Nat.le_of_lt hpib)
        by_cases hfp : first < P.length
        · have hbP : b.size = TREE_BLOB_MAX_LENGTH := by
            rw [hPdec, List.getElem?_append_left hfp] at hbget
            exact hPall b (List.getElem?_mem hbget)
          have hwMAX : (b.writeAt pib buf.pre).1.size =
              TREE_BLOB_MAX_LENGTH := by
            rw [hw, hbP]
            omega
          have hsetP : s₁.blocks.set first (b.writeAt pib buf.pre).1 =
              P.set first (b.writeAt pib buf.pre).1 ++ [lastB] := by
            rw [hPdec, List.set_append_left _ _ hfp]
          have hPset : ∀ c ∈ P.set first (b.writeAt pib buf.pre).1,
              c.size = TREE_BLOB_MAX_LENGTH := by
            intro c hc
            rcases List.mem_or_eq_of_mem_set hc with hc | hc
            · exact hPall c hc
            · rw [hc]; exact hwMAX
          refine ⟨TREE_BLOB_MAX_LENGTH, ?_, ?_, ?_, ?_, ?_, ?_, ?_,
            Or.inr (Or.inl ⟨hnext', hfp, rfl, hskipn⟩)⟩
          · rw [hb₃]; simp [List.length_set]
          · rw [hnext']; omega
          · rw [hb₃, hsetP]
            exact integrityCheck_concat _ _ hPset hlastle
          · intro c hc
            rw [hb₃] at hc
            rcases List.mem_or_eq_of_mem_set hc with hc | hc
            · exact ((integrityCheck_iff _).mp hint).2 c hc
            · rw [hc]; exact Nat.le_of_eq hwMAX
          · intro _ c hc
            rw [hb₃, hnext', take_set_succ _ _ _ (by omega)] at hc
            rcases List.mem_append.mp hc with hc | hc
            · rw [hPdec, List.take_append_of_le_length hfirstle] at hc
              exact hPall c (List.take_subset _ _ hc)
            · rw [List.mem_singleton.mp hc]; exact hwMAX
          · intro j hj
            rw [hb₃, drop_set_of_le _ _ _ _ (by omega)]
          · rw [hb₃, hnext', take_set_succ _ _ _ (by omega), sumSizes_append]
            rw [hPdec, List.take_append_of_le_length hfirstle]
            rw [sumSizes_eq_of_all _ TREE_BLOB_MAX_LENGTH
              (fun c hc => hPall c (List.take_subset _ _ hc))]
            rw [List.length_take_of_le hfirstle]
            have hsw : sumSizes [(b.writeAt pib buf.pre).1] =
                (b.writeAt pib buf.pre).1.size := by simp [sumSizes]
            rw [hsw, hwMAX]
        · have hfpe : first = P.length := by omega
          have hbL : b = lastB := by
            rw [hPdec, hfpe,
              List.getElem?_append_right (Nat.le_refl _)] at hbget
            simp only [Nat.sub_self, List.getElem?_cons_zero] at hbget
            injection hbget with h
            exact h.symm
          have hwval : (b.writeAt pib buf.pre).1.size =
              max lastB.size (pib + buf.pre.length) := by
            rw [hw, hbL]
            omega
          have hsetP : s₁.blocks.set first (b.writeAt pib buf.pre).1 =
              P ++ [(b.writeAt pib buf.pre).1] := by
            rw [hPdec, hfpe, set_append_length]
            simp only [List.set_cons_zero]
          refine ⟨max lastB.size (pib + buf.pre.length), ?_, ?_, ?_, ?_, ?_,
            ?_, ?_, Or.inr (Or.inr ⟨hnext', hfpe, rfl, hskipn⟩)⟩
          · rw [hb₃]; simp [List.length_set]
          · rw [hnext']; omega
          · rw [hb₃, hsetP]
            refine integrityCheck_concat _ _ hPall ?_
            rw [hwval]
            omega
          · intro c hc
            rw [hb₃] at hc
            rcases List.mem_or_eq_of_mem_set hc with hc | hc
            · exact ((integrityCheck_iff _).mp hint).2 c hc
            · rw [hc, hwval]; omega
          · intro hful c hc
            have hfull : pib + buf.pre.length = TREE_BLOB_MAX_LENGTH := by
              rcases hFB4 hful with h | h
              · exact h
              · exact absurd h hskip
            rw [hb₃, hnext', take_set_succ _ _ _ (by omega)] at hc
            rcases List.mem_append.mp hc with hc | hc
            · rw [hPdec, List.take_append_of_le_length hfirstle] at hc
              exact hPall c (List.take_subset _ _ hc)
            · rw [List.mem_singleton.mp hc, hwval, hfull]
              omega
          · intro j hj
            rw [hb₃, drop_set_of_le _ _ _ _ (by omega)]
          · rw [hb₃, hnext', take_set_succ _ _ _ (by omega), sumSizes_append]
            rw [hPdec, hfpe, List.take_append_of_le_length (Nat.le_refl _)]
            rw [List.take_of_length_le (Nat.le_refl _)]
            rw [sumSizes_eq_of_all _ TREE_BLOB_MAX_LENGTH hPall]
            have hsw : sumSizes [(b.writeAt pib buf.pre).1] =
                (b.writeAt pib buf.pre).1.size := by simp [sumSizes]
            rw [hsw, hwval]
  obtain ⟨W, hlen₃, hn₃le, hint₃, _, htakeMAX, hdropEq, hsumTake, hWdisj⟩ :=
    hkey
  obtain ⟨hwf1, hwf2, hwf3, _⟩ := writeFulls_spec buf.fullBlocks s₃ next₃
    (by omega)
  have hb₄ : (writeFulls s₃ next₃ buf.fullBlocks).1.blocks =
      s₃.blocks.take next₃ ++ buf.fullBlocks.map FileBlock.knownDigest ++
        s₁.blocks.drop (next₃ + buf.fullBlocks.length) := by
    rw [hwf2, hdropEq _ (by omega)]
  obtain ⟨hwssize, _, hwsskip, hwsgo⟩ := writeSuffix_spec hws
  have hsize' : s'.size = s₁.size := by
    rw [hwssize, hwf3, hwpsize, hbfsize]
  have hlentake : (s₃.blocks.take next₃).length = next₃ :=
    List.length_take_of_le (by omega)
  have hkdall := kd_all_full hFB2
  have hsumkd : sumSizes (buf.fullBlocks.map FileBlock.knownDigest) =
      buf.fullBlocks.length * TREE_BLOB_MAX_LENGTH := by
    rw [sumSizes_eq_of_all _ _ hkdall, List.length_map]
  by_cases hF0S : buf.fullBlocks = [] ∧ buf.suffix = []
  · obtain ⟨hF0, hS0⟩ := hF0S
    have hs'r := hwsskip hS0
    have hbfin : s'.blocks = s₃.blocks := by
      rw [hs'r, hb₄, hF0]
      simp only [List.map_nil, List.append_nil, List.length_nil,
        Nat.add_zero]
      rw [← hdropEq next₃ (Nat.le_refl _), List.take_append_drop]
    refine ⟨?_, by rw [hbfin]; exact hint₃, ?_⟩
    · rw [hbfin]
      exact List.ne_nil_of_length_pos (by omega)
    · rw [hsize', hsize, hbfin]
      have hsplit : sumSizes s₃.blocks =
          sumSizes (s₃.blocks.take next₃) +
            sumSizes (s₃.blocks.drop next₃) := by
        conv_lhs => rw [← List.take_append_drop next₃ s₃.blocks]
        rw [sumSizes_append]
      rw [hsplit, hsumTake, hdropEq next₃ (Nat.le_refl _)]
      simp only [OptimizedWriteBuffer.len]
      have hf0len : buf.fullBlocks.length = 0 := by rw [hF0]; rfl
      have hs0len : buf.suffix.length = 0 := by rw [hS0]; rfl
      by_cases hnP : next₃ ≤ P.length
      · have hdv : sumSizes (s₁.blocks.drop next₃) =
            (P.length - next₃) * TREE_BLOB_MAX_LENGTH + lastB.size := by
          rw [hPdec, List.drop_append_of_le_length hnP, sumSizes_append]
          rw [sumSizes_eq_of_all _ TREE_BLOB_MAX_LENGTH
            (fun c hc => hPall c (List.drop_subset _ _ hc)),
            List.length_drop]
          have h1 : sumSizes [lastB] = lastB.size := by simp [sumSizes]
          rw [h1]
        rw [hdv]
        rw [hMAX] at hSBsum hFB1 hWdisj hlastle ⊢
        omega
      · have hdv : sumSizes (s₁.blocks.drop next₃) = 0 := by
          have h1 : s₁.blocks.drop next₃ = [] :=
            List.drop_eq_nil_of_le (by omega)
          rw [h1]; rfl
        rw [hdv]
        rw [hMAX] at hSBsum hFB1 hWdisj hlastle ⊢
        omega
  · have hful : buf.fullBlocks ≠ [] ∨ buf.suffix ≠ [] := by
      by_cases h1 : buf.fullBlocks = []
      · refine Or.inr ?_
        intro h2
        exact hF0S ⟨h1, h2⟩
      · exact Or.inl h1
    have htakeAll := htakeMAX hful
    have hfb4num : pib + buf.pre.length = TREE_BLOB_MAX_LENGTH ∨
        (buf.pre.length = 0 ∧ pib = 0) := by
      rcases hFB4 hful with h | ⟨h1, h2⟩
      · exact Or.inl h
      · exact Or.inr ⟨by rw [h1]; rfl, h2⟩
    have hFSnum : buf.fullBlocks.length ≠ 0 ∨ buf.suffix.length ≠ 0 := by
      by_cases h1 : buf.fullBlocks = []
      · right
        intro h2
        exact hF0S ⟨h1, List.length_eq_zero.mp h2⟩
      · left
        intro h2
        exact h1 (List.length_eq_zero.mp h2)
    by_cases hEcase : next₃ + buf.fullBlocks.length < s₁.blocks.length
    · have hEle : next₃ + buf.fullBlocks.length ≤ P.length := by omega
      have hdropE : s₁.blocks.drop (next₃ + buf.fullBlocks.length) =
          P.drop (next₃ + buf.fullBlocks.length) ++ [lastB] := by
        rw [hPdec, List.drop_append_of_le_length hEle]
      have hlen₄ : (writeFulls s₃ next₃ buf.fullBlocks).1.blocks.length =
          s₁.blocks.length := by
        rw [hb₄]
        simp only [List.length_append, List.length_map, List.length_drop,
          hlentake]
        omega
      have hnoteq : ¬ (writeFulls s₃ next₃ buf.fullBlocks).2 =
          (writeFulls s₃ next₃ buf.fullBlocks).1.blocks.length := by
        rw [hwf1, hlen₄]
        omega
      by_cases hsuf : buf.suffix = []
      · have hs'r := hwsskip hsuf
        have hbfin : s'.blocks = s₃.blocks.take next₃ ++
            buf.fullBlocks.map FileBlock.knownDigest ++
            (P.drop (next₃ + buf.fullBlocks.length) ++ [lastB]) := by
          rw [hs'r, hb₄, hdropE]
        refine ⟨?_, ?_, ?_⟩
        · rw [hbfin]
          exact List.append_ne_nil_of_right_ne_nil _
            (List.append_ne_nil_of_right_ne_nil _ (List.cons_ne_nil _ _))
        · rw [hbfin]
          have hassoc : s₃.blocks.take next₃ ++
              buf.fullBlocks.map FileBlock.knownDigest ++
              (P.drop (next₃ + buf.fullBlocks.length) ++ [lastB]) =
              (s₃.blocks.take next₃ ++
                buf.fullBlocks.map FileBlock.knownDigest ++
                P.drop (next₃ + buf.fullBlocks.length)) ++ [lastB] := by
            simp [List.append_assoc]
          rw [hassoc]
          refine integrityCheck_concat _ _ ?_ hlastle
          intro c hc
          rcases List.mem_append.mp hc with hc2 | hc2
          · rcases List.mem_append.mp hc2 with hc3 | hc3
            · exact htakeAll c hc3
            · exact hkdall c hc3
          · exact hPall c (List.drop_subset _ _ hc2)
        · rw [hsize', hsize, hbfin]
          simp only [sumSizes_append]
          rw [hsumTake, hsumkd]
          rw [sumSizes_eq_of_all (P.drop (next₃ + buf.fullBlocks.length))
            TREE_BLOB_MAX_LENGTH
            (fun c hc => hPall c (List.drop_subset _ _ hc)),
            List.length_drop]
          have hsl : sumSizes [lastB] = lastB.size := by simp [sumSizes]
          rw [hsl]
          simp only [OptimizedWriteBuffer.len]
          have hs0len : buf.suffix.length = 0 := by rw [hsuf]; rfl
          rw [hMAX] at hSBsum hFB1 hWdisj hlastle hfb4num ⊢
          omega
      · rcases hwsgo hsuf with ⟨hpeq, _⟩ | ⟨_, b4, hb4get, hb'⟩
        · exact absurd hpeq hnoteq
        · cases hq : P.drop (next₃ + buf.fullBlocks.length) with
          | nil =>
            have hEeq : next₃ + buf.fullBlocks.length = P.length := by
              have h1 := congrArg List.length hq
              simp only [List.length_drop, List.length_nil] at h1
              omega
            have hdropE2 : s₁.blocks.drop
                (next₃ + buf.fullBlocks.length) = [lastB] := by
              rw [hdropE, hq, List.nil_append]
            have hb₄2 : (writeFulls s₃ next₃ buf.fullBlocks).1.blocks =
                (s₃.blocks.take next₃ ++
                  buf.fullBlocks.map FileBlock.knownDigest) ++ [lastB] := by
              rw [hb₄, hdropE2]
            have hpl : (s₃.blocks.take next₃ ++
                buf.fullBlocks.map FileBlock.knownDigest).length =
                next₃ + buf.fullBlocks.length := by
              simp only [List.length_append, List.length_map, hlentake]
            have hb4v : b4 = lastB := by
              rw [hwf1, hb₄2] at hb4get
              rw [List.getElem?_append_right (Nat.le_of_eq hpl)] at hb4get
              simp only [hpl, Nat.sub_self,
                List.getElem?_cons_zero] at hb4get
              injection hb4get with h
              exact h.symm
            have hb4le : b4.size ≤ TREE_BLOB_MAX_LENGTH := by
              rw [hb4v]; exact hlastle
            have hw4 : ((b4.writeAt 0 buf.suffix).1).size =
                max lastB.size buf.suffix.length := by
              rw [writeAt_size b4 0 buf.suffix hb4le (Nat.zero_le _), hb4v]
              omega
            have hbfin : s'.blocks =
                (s₃.blocks.take next₃ ++
                  buf.fullBlocks.map FileBlock.knownDigest) ++
                [(b4.writeAt 0 buf.suffix).1] := by
              rw [hb', hwf1, hb₄2, ← hpl, set_append_length]
              simp only [List.set_cons_zero]
            refine ⟨?_, ?_, ?_⟩
            · rw [hbfin]
              exact List.append_ne_nil_of_right_ne_nil _
                (List.cons_ne_nil _ _)
            · rw [hbfin]
              refine integrityCheck_concat _ _ ?_ ?_
              · intro c hc
                rcases List.mem_append.mp hc with hc2 | hc2
                · exact htakeAll c hc2
                · exact hkdall c hc2
              · rw [hw4]
                omega
            · rw [hsize', hsize, hbfin]
              simp only [sumSizes_append]
              rw [hsumTake, hsumkd]
              have hsw : sumSizes [(b4.writeAt 0 buf.suffix).1] =
                  (b4.writeAt 0 buf.suffix).1.size := by simp [sumSizes]
              rw [hsw, hw4]
              simp only [OptimizedWriteBuffer.len]
              rw [hMAX] at hSBsum hFB1 hWdisj hlastle hfb4num hFB3 ⊢
              omega
          | cons q Q' =>
            have hqP : ∀ c ∈ q :: Q', c.size = TREE_BLOB_MAX_LENGTH := by
              intro c hc
              refine hPall c ?_
              have h1 : c ∈ P.drop (next₃ + buf.fullBlocks.length) := by
                rw [hq]; exact hc
              exact List.drop_subset _ _ h1
            have hQlen : Q'.length + 1 =
                P.length - (next₃ + buf.fullBlocks.length) := by
              have h1 := congrArg List.length hq
              simp only [List.length_drop, List.length_cons] at h1
              omega
            have hb₄2 : (writeFulls s₃ next₃ buf.fullBlocks).1.blocks =
                (s₃.blocks.take next₃ ++
                  buf.fullBlocks.map FileBlock.knownDigest) ++
                (q :: (Q' ++ [lastB])) := by
              rw [hb₄, hdropE, hq]
              simp [List.cons_append, List.append_assoc]
            have hpl : (s₃.blocks.take next₃ ++
                buf.fullBlocks.map FileBlock.knownDigest).length =
                next₃ + buf.fullBlocks.length := by
              simp only [List.length_append, List.length_map, hlentake]
            have hb4v : b4 = q := by
              rw [hwf1, hb₄2] at hb4get
              rw [List.getElem?_append_right (Nat.le_of_eq hpl)] at hb4get
              simp only [hpl, Nat.sub_self,
                List.getElem?_cons_zero] at hb4get
              injection hb4get with h
              exact h.symm
            have hb4M : b4.size = TREE_BLOB_MAX_LENGTH := by
              rw [hb4v]
              exact hqP q (List.mem_cons_self _ _)
            have hw4 : ((b4.writeAt 0 buf.suffix).1).size =
                TREE_BLOB_MAX_LENGTH := by
              rw [writeAt_size b4 0 buf.suffix (Nat.le_of_eq hb4M)
                (Nat.zero_le _), hb4M]
              omega
            have hbfin : s'.blocks =
                (s₃.blocks.take next₃ ++
                  buf.fullBlocks.map FileBlock.knownDigest) ++
                ((b4.writeAt 0 buf.suffix).1 :: (Q' ++ [lastB])) := by
              rw [hb', hwf1, hb₄2, ← hpl, set_append_length]
              simp only [List.set_cons_zero]
            refine ⟨?_, ?_, ?_⟩
            · rw [hbfin]
              exact List.append_ne_nil_of_right_ne_nil _
                (List.cons_ne_nil _ _)
            · rw [hbfin]
              have hassoc : (s₃.blocks.take next₃ ++
                  buf.fullBlocks.map FileBlock.knownDigest) ++
                  ((b4.writeAt 0 buf.suffix).1 :: (Q' ++ [lastB])) =
                  ((s₃.blocks.take next₃ ++
                    buf.fullBlocks.map FileBlock.knownDigest) ++
                    ((b4.writeAt 0 buf.suffix).1 :: Q')) ++ [lastB] := by
                simp [List.cons_append, List.append_assoc]
              rw [hassoc]
              refine integrityCheck_concat _ _ ?_ hlastle
              intro c hc
              rcases List.mem_append.mp hc with hc2 | hc2
              · rcases List.mem_append.mp hc2 with hc3 | hc3
                · exact htakeAll c hc3
                · exact hkdall c hc3
              · rcases List.mem_cons.mp hc2 with hc3 | hc3
                · rw [hc3]; exact hw4
                · exact hqP c (List.mem_cons_of_mem _ hc3)
            · rw [hsize', hsize, hbfin]
              simp only [sumSizes_append, sumSizes_cons]
              rw [hsumTake, hsumkd, hw4]
              rw [sumSizes_eq_of_all Q' TREE_BLOB_MAX_LENGTH
                (fun c hc => hqP c (List.mem_cons_of_mem _ hc))]
              have hsl : sumSizes ([] : List FileBlock) = 0 := rfl
              rw [hsl]
              simp only [OptimizedWriteBuffer.len]
              rw [hMAX] at hSBsum hFB1 hWdisj hlastle hfb4num hFB3 ⊢
              omega
    · have hEge : s₁.blocks.length ≤ next₃ + buf.fullBlocks.length := by
        omega
      have hdropE : s₁.blocks.drop (next₃ + buf.fullBlocks.length) = [] :=
        List.drop_eq_nil_of_le hEge
      have hb₄2 : (writeFulls s₃ next₃ buf.fullBlocks).1.blocks =
          s₃.blocks.take next₃ ++
            buf.fullBlocks.map FileBlock.knownDigest := by
        rw [hb₄, hdropE, List.append_nil]
      have hn₄ : (writeFulls s₃ next₃ buf.fullBlocks).2 =
          (writeFulls s₃ next₃ buf.fullBlocks).1.blocks.length := by
        rw [hwf1, hb₄2]
        simp only [List.length_append, List.length_map, hlentake]
      by_cases hsuf : buf.suffix = []
      · have hFne : buf.fullBlocks ≠ [] := fun hc => hF0S ⟨hc, hsuf⟩
        have hs'r := hwsskip hsuf
        have hbfin : s'.blocks = s₃.blocks.take next₃ ++
            buf.fullBlocks.map FileBlock.knownDigest := by
          rw [hs'r, hb₄2]
        refine ⟨?_, ?_, ?_⟩
        · rw [hbfin]
          refine List.append_ne_nil_of_right_ne_nil _ ?_
          intro hc
          exact hFne (List.map_eq_nil.mp hc)
        · rw [hbfin]
          refine integrityCheck_all ?_
          intro c hc
          rcases List.mem_append.mp hc with hc2 | hc2
          · exact htakeAll c hc2
          · exact hkdall c hc2
        · rw [hsize', hsize, hbfin]
          simp only [sumSizes_append]
          rw [hsumTake, hsumkd]
          simp only [OptimizedWriteBuffer.len]
          have hs0len : buf.suffix.length = 0 := by rw [hsuf]; rfl
          rw [hMAX] at hSBsum hFB1 hWdisj hlastle hfb4num ⊢
          omega
      · rcases hwsgo hsuf with ⟨_, hb'⟩ | ⟨hne2, _⟩
        · have hbfin : s'.blocks = (s₃.blocks.take next₃ ++
              buf.fullBlocks.map FileBlock.knownDigest) ++
              [FileBlock.unknownDigest buf.suffix] := by
            rw [hb', hb₄2]
          refine ⟨?_, ?_, ?_⟩
          · rw [hbfin]
            exact List.append_ne_nil_of_right_ne_nil _
              (List.cons_ne_nil _ _)
          · rw [hbfin]
            refine integrityCheck_concat _ _ ?_ (Nat.le_of_lt hFB3)
            intro c hc
            rcases List.mem_append.mp hc with hc2 | hc2
            · exact htakeAll c hc2
            · exact hkdall c hc2
          · rw [hsize', hsize, hbfin]
            simp only [sumSizes_append]
            rw [hsumTake, hsumkd]
            have hsw : sumSizes [FileBlock.unknownDigest buf.suffix] =
                buf.suffix.length := by simp [sumSizes, FileBlock.size]
            rw [hsw]
            simp only [OptimizedWriteBuffer.len]
            rw [hMAX] at hSBsum hFB1 hWdisj hlastle hfb4num ⊢
            omega
        · exact absurd hn₄ hne2

/-- Steps 4-8 of `write` preserve the buffer invariant, given the split
facts about the optimized write buffer. -/
theorem writeTail_inv
    {s₁ s₂ s₃ : OpenFileContentBufferLoaded} {first pib next₃ : Nat}
    {buf : OptimizedWriteBuffer} {s' : OpenFileContentBufferLoaded}
    (hne : s₁.blocks ≠ [])
    (hint : integrityCheck s₁.blocks = true)
    (hsize : s₁.size = max (sumSizes s₁.blocks)
      (first * TREE_BLOB_MAX_LENGTH + pib + buf.len))
    (hpib : pib < TREE_BLOB_MAX_LENGTH)
    (hFB1 : pib + buf.pre.length ≤ TREE_BLOB_MAX_LENGTH)
    (hFB2 : ∀ fb ∈ buf.fullBlocks, fb.length = TREE_BLOB_MAX_LENGTH)
    (hFB3 : buf.suffix.length < TREE_BLOB_MAX_LENGTH)
    (hFB4 : buf.fullBlocks ≠ [] ∨ buf.suffix ≠ [] →
      pib + buf.pre.length = TREE_BLOB_MAX_LENGTH ∨ (buf.pre = [] ∧ pib = 0))
    (hbf : backFill s₁ first = Except.ok s₂)
    (hwp : writePre s₂ first pib buf.pre = Except.ok (s₃, next₃))
    (hws : writeSuffix (writeFulls s₃ next₃ buf.fullBlocks).1
      (writeFulls s₃ next₃ buf.fullBlocks).2 buf.suffix = Except.ok s') :
    Inv s' := by
  by_cases hsc : s₁.blocks.length ≤ first
  · exact writeTailB hne hint hsize hFB1 hFB2 hFB3 hFB4 hbf hwp hws hsc
  · exact writeTailA hne hint hsize hpib hFB1 hFB2 hFB3 hFB4 hbf hwp hws
      (by omega)

/-- `writeCore` (the writing steps of `OpenFileContentBuffer::write`)
preserves the buffer invariant. -/
theorem writeCore_inv {s s' : OpenFileContentBufferLoaded} {position : Nat}
    {content : List Nat} (hinv : Inv s)
    (h : writeCore s position content = Except.ok s') : Inv s' := by
  obtain ⟨hne, hint, hsum⟩ := hinv
  obtain ⟨hFB1, hFB2, hFB3, hFB4⟩ := fromBytes_spec position content
  have hMAX : TREE_BLOB_MAX_LENGTH = 64000 := rfl
  simp only [writeCore] at h
  cases hbf : backFill
      { s with digest := ⟨s.digest.lastKnownDigest, false⟩,
               size := max s.size (position +
                 (OptimizedWriteBuffer.fromBytes position content).len) }
      (position / TREE_BLOB_MAX_LENGTH) with
  | error e => simp only [hbf] at h; cases h
  | ok s₂ =>
    simp only [hbf] at h
    cases hwp : writePre s₂ (position / TREE_BLOB_MAX_LENGTH)
        (position % TREE_BLOB_MAX_LENGTH)
        (OptimizedWriteBuffer.fromBytes position content).pre with
    | error e => simp only [hwp] at h; cases h
    | ok sn =>
      obtain ⟨s₃, next₃⟩ := sn
      simp only [hwp] at h
      refine writeTail_inv ?_ ?_ ?_ ?_ hFB1 hFB2 hFB3 hFB4 hbf hwp h
      · exact hne
      · exact hint
      · show max s.size (position +
            (OptimizedWriteBuffer.fromBytes position content).len) =
          max (sumSizes s.blocks)
            (position / TREE_BLOB_MAX_LENGTH * TREE_BLOB_MAX_LENGTH +
              position % TREE_BLOB_MAX_LENGTH +
              (OptimizedWriteBuffer.fromBytes position content).len)
        rw [← hsum]
        congr 1
        rw [hMAX]
        omega
      · exact Nat.mod_lt _ (by decide)

/-- `OpenFileContentBuffer::write` on a loaded buffer preserves the buffer
invariant (including the flush path through `store_cheap_blocks` /
`store_all` when the dirty-block budget is reached). -/
theorem writeOp_inv {s s' : OpenFileContentBufferLoaded} {position : Nat}
    {content : List Nat} (hinv : Inv s)
    (h : writeOp s position content = Except.ok s') : Inv s' := by
  simp only [writeOp] at h
  by_cases hd : s.writeBufferInBlocks ≤ s.dirtyBlocks.length
  · rw [if_pos hd] at h
    cases hscb : storeCheapBlocks s with
    | error e => simp only [hscb] at h; cases h
    | ok s₁ =>
      simp only [hscb] at h
      have hinv₁ := storeCheapBlocks_inv hinv hscb
      by_cases hd2 : s₁.writeBufferInBlocks ≤ s₁.dirtyBlocks.length * 2
      · rw [if_pos hd2] at h
        cases hsa : storeAll s₁ with
        | error e => simp only [hsa] at h; cases h
        | ok s₂ =>
          simp only [hsa] at h
          exact writeCore_inv (storeAll_inv hinv₁ hsa) h
      · rw [if_neg hd2] at h
        exact writeCore_inv hinv₁ h
  · rw [if_neg hd] at h
    exact writeCore_inv hinv h

/-- The operations of the claim: writes, the two store flavours, and
truncation of an open file buffer. -/
inductive BufferOp : Type where
  | write (position : Nat) (content : List Nat)
  | storeCheap
  | storeAllOp
  | truncate

/-- Applies one buffer operation to a loaded buffer. -/
def applyOp (s : OpenFileContentBufferLoaded) :
    BufferOp → Except StoreError OpenFileContentBufferLoaded
  | .write position content => writeOp s position content
  | .storeCheap => storeCheapBlocks s
  | .storeAllOp => storeAll s
  | .truncate => Except.ok (truncateOp s)

/-- Applies a sequence of buffer operations, stopping at the first error. -/
def applyOps (s : OpenFileContentBufferLoaded) :
    List BufferOp → Except StoreError OpenFileContentBufferLoaded
  | [] => Except.ok s
  | op :: rest =>
    match applyOp s op with
    | .error e => .error e
    | .ok s₁ => applyOps s₁ rest

/-- Every single buffer operation preserves the buffer invariant. -/
theorem applyOp_inv {s s' : OpenFileContentBufferLoaded} {op : BufferOp}
    (hinv : Inv s) (h : applyOp s op = Except.ok s') : Inv s' := by
  cases op with
  | write position content => exact writeOp_inv hinv h
  | storeCheap => exact storeCheapBlocks_inv hinv h
  | storeAllOp => exact storeAll_inv hinv h
  | truncate =>
    injection h with h
    subst h
    exact truncateOp_inv s

/-- Every successful sequence of buffer operations preserves the buffer
invariant. -/
theorem applyOps_inv : ∀ {ops : List BufferOp}
    {s s' : OpenFileContentBufferLoaded},
    Inv s → applyOps s ops = Except.ok s' → Inv s' := by
  intro ops
  induction ops with
  | nil =>
    intro s s' hinv h
    simp only [applyOps] at h
    injection h with h
    subst h
    exact hinv
  | cons op rest ih =>
    intro s s' hinv h
    simp only [applyOps] at h
    cases hop : applyOp s op with
    | error e => simp only [hop] at h; cases h
    | ok s₁ =>
      simp only [hop] at h
      exact ih (applyOp_inv hinv hop) h

end OpenBuffer

/-- C5: after any successful sequence of `write`, `store_cheap_blocks`,
`store_all` and `truncate` operations on a loaded `OpenFileContentBuffer`
that satisfies the buffer invariant (as the buffers produced by
`from_data` and `load` do), the `size` field equals the sum of the lengths
of all blocks, every block except the last is exactly
`VALUE_BLOB_MAX_LENGTH = 64000` bytes long, and the last block is at most
that long. -/
theorem c5_buffer_size_invariant
    {s s' : OpenFileContentBufferLoaded} {ops : List OpenBuffer.BufferOp}
    (hinv : OpenBuffer.Inv s)
    (h : OpenBuffer.applyOps s ops = Except.ok s') :
    s'.size = OpenBuffer.sumSizes s'.blocks ∧
    (∀ b ∈ s'.blocks.dropLast, b.size = TREE_BLOB_MAX_LENGTH) ∧
    (∀ b ∈ s'.blocks, b.size ≤ TREE_BLOB_MAX_LENGTH) := by
  obtain ⟨hne, hint, hsum⟩ := OpenBuffer.applyOps_inv hinv h
  obtain ⟨h1, h2⟩ := (OpenBuffer.integrityCheck_iff s'.blocks).mp hint
  exact ⟨hsum, h1, h2⟩

/-- Concrete run for the C5 witness: the buffer of `from_data(vec![])`. -/
def c5Start : OpenFileContentBufferLoaded :=
  ⟨0, [FileBlock.unknownDigest []], ⟨BlobDigest.mk [] [], false⟩, 0, [0], 8⟩

/-- Concrete operation sequence for the C5 witness. -/
def c5Ops : List OpenBuffer.BufferOp :=
  [.write 0 [1, 2, 3], .storeCheap, .storeAllOp, .truncate, .write 2 [5]]

/-- The state reached by `c5Ops` from `c5Start`. -/
def c5Final : OpenFileContentBufferLoaded :=
  ⟨3, [FileBlock.unknownDigest [0, 0, 5]],
    ⟨BlobDigest.mk [1, 2, 3] [], false⟩, 3, [0, 0], 8⟩

theorem c5_buffer_size_invariant_witness :
    OpenBuffer.Inv c5Start ∧
    OpenBuffer.applyOps c5Start c5Ops = Except.ok c5Final ∧
    (c5Final.size = OpenBuffer.sumSizes c5Final.blocks ∧
     (∀ b ∈ c5Final.blocks.dropLast, b.size = TREE_BLOB_MAX_LENGTH) ∧
     (∀ b ∈ c5Final.blocks, b.size ≤ TREE_BLOB_MAX_LENGTH)) := by
  have hinv : OpenBuffer.Inv c5Start := ⟨by decide, by decide, by decide⟩
  have happly : OpenBuffer.applyOps c5Start c5Ops = Except.ok c5Final := by
    rfl
  exact ⟨hinv, happly, c5_buffer_size_invariant hinv happly⟩
